import Mathlib

/-!
# Verification of the nebula-go connection-string parser and serializer

This file gives a shallow embedding of `connstring.go` from the
`peczenyj/nebula-go` repository, together with the pieces of the Go
standard library (`net/url`, `net`, `strconv`, `time`) that the file
relies on, and proves or refutes the specification claims about it.

Go strings are modelled byte-exactly as lists of natural numbers
(`GoStr := List Nat`, each entry a byte), since `net/url` operates on
bytes.  Integers (`int`, `time.Duration`) are modelled as unbounded
`Int`; 64-bit overflow behaviour is not modelled (none of the verified
properties depends on it).
-/

set_option maxRecDepth 10000

deriving instance DecidableEq for Except

namespace NebulaGo

/-- Go strings as byte lists. -/
abbrev GoStr := List Nat

/-- UTF-8 encoding of a character, byte by byte. -/
def utf8Bytes (c : Char) : List Nat :=
  let n := c.toNat
  if n < 0x80 then [n]
  else if n < 0x800 then [0xC0 + n / 0x40, 0x80 + n % 0x40]
  else if n < 0x10000 then
    [0xE0 + n / 0x1000, 0x80 + (n / 0x40) % 0x40, 0x80 + n % 0x40]
  else
    [0xF0 + n / 0x40000, 0x80 + (n / 0x1000) % 0x40,
     0x80 + (n / 0x40) % 0x40, 0x80 + n % 0x40]

/-- Convert a Lean string literal to its Go byte-string representation. -/
def gs (s : String) : GoStr :=
  s.data.foldr (fun c acc => utf8Bytes c ++ acc) []

/-! ## Byte-list primitives mirroring Go's `strings` package -/

/-- `strings.HasPrefix`. -/
def startsWith : GoStr → GoStr → Bool
  | _, [] => true
  | [], _ :: _ => false
  | a :: as, b :: bs => a = b && startsWith as bs

/-- `strings.HasSuffix`. -/
def endsWith (s pat : GoStr) : Bool :=
  startsWith s.reverse pat.reverse

/-- `strings.Contains` (substring containment). -/
def containsSub : GoStr → GoStr → Bool
  | s, pat =>
    if startsWith s pat then true
    else match s with
      | [] => false
      | _ :: rest => containsSub rest pat

/-- `strings.ContainsRune` restricted to byte values / `IndexByte != -1`. -/
def containsByte (s : GoStr) (c : Nat) : Bool := s.contains c

/-- `strings.IndexByte`: index of the first occurrence, or `none`. -/
def indexByte : GoStr → Nat → Option Nat
  | [], _ => none
  | b :: bs, c => if b = c then some 0 else (indexByte bs c).map (· + 1)

/-- `strings.LastIndexByte`: index of the last occurrence, or `none`. -/
def lastIndexByte (s : GoStr) (c : Nat) : Option Nat :=
  (indexByte s.reverse c).map (fun i => s.length - 1 - i)

/-- `strings.Cut` at the first occurrence of a single byte: returns
`(before, after, found)`. -/
def cutByte : GoStr → Nat → GoStr × GoStr × Bool
  | [], _ => ([], [], false)
  | b :: bs, c =>
    if b = c then ([], bs, true)
    else
      let r := cutByte bs c
      (b :: r.1, r.2.1, r.2.2)

/-- `strings.Split` on a single-byte separator. -/
def splitByte : GoStr → Nat → List GoStr
  | [], _ => [[]]
  | b :: bs, c =>
    if b = c then [] :: splitByte bs c
    else
      match splitByte bs c with
      | h :: t => (b :: h) :: t
      | [] => [[b]]

/-- `strings.Replace(s, old, new, 1)` restricted to removing the first
occurrence of a single byte (the only use in the source:
`strings.Replace(path, "/", "", 1)`). -/
def removeFirstByte : GoStr → Nat → GoStr
  | [], _ => []
  | b :: bs, c => if b = c then bs else b :: removeFirstByte bs c

/-- `strings.ToLower` on bytes (ASCII case folding, as Go performs for
URL schemes, which are ASCII-only once `getScheme` accepted them). -/
def toLowerBytes (s : GoStr) : GoStr :=
  s.map (fun b => if 65 ≤ b ∧ b ≤ 90 then b + 32 else b)

/-! ## `strconv` model -/

/-- Is the byte an ASCII decimal digit? -/
def isDigit (b : Nat) : Bool := 48 ≤ b && b ≤ 57

/-- Decimal digits of a natural number, most significant first; the
first argument is recursion fuel (any value `> n` gives the true
digits).  Mirrors the digit loop of Go's `strconv.FormatInt`. -/
def natDigitsAux : Nat → Nat → GoStr
  | 0, _ => []
  | fuel + 1, n =>
    if n < 10 then [48 + n]
    else natDigitsAux fuel (n / 10) ++ [48 + n % 10]

/-- Decimal digit string of a natural number. -/
def natDigits (n : Nat) : GoStr := natDigitsAux (n + 1) n

/-- `strconv.Itoa`. -/
def itoa (n : Int) : GoStr :=
  if n < 0 then 45 :: natDigits (-n).toNat else natDigits n.toNat

/-- Value of a digit string (helper for `atoi`). -/
def digitsVal : GoStr → Nat → Nat
  | [], acc => acc
  | b :: bs, acc => digitsVal bs (acc * 10 + (b - 48))

/-- `strconv.Atoi`: optional sign then a non-empty digit string.
Int64 range checks are not modelled. -/
def atoi (s : GoStr) : Option Int :=
  let (neg, digits) :=
    match s with
    | 45 :: rest => (true, rest)
    | 43 :: rest => (false, rest)
    | _ => (false, s)
  if digits = [] then none
  else if digits.all (fun b => isDigit b) then
    let v : Int := digitsVal digits 0
    some (if neg then -v else v)
  else none

/-! ## `time` model: `Duration.String` and `time.ParseDuration`

Durations are `Int` nanoseconds.  Go's int64 overflow checks are not
modelled; the float64 rounding in the fractional part of
`ParseDuration` is modelled as exact integer division (the claims never
compare fractional duration values). -/

/-- One step of Go's `fmtFrac`: processes `prec` low decimal digits of
`v`, least significant first, keeping digits from the first non-zero one
on.  Returns (digits most-significant-first, printed-anything, v / 10^prec). -/
def fmtFracAux : Nat → Nat → Bool → GoStr × Bool × Nat
  | 0, v, print => ([], print, v)
  | i + 1, v, print =>
    let digit := v % 10
    let print2 := print || decide (digit ≠ 0)
    let r := fmtFracAux i (v / 10) print2
    (if print2 then r.1 ++ [48 + digit] else r.1, r.2.1, r.2.2)

/-- Go's `fmtFrac`: the fraction part (with leading `'.'`, trailing
zeros omitted, empty if all zero) and the remaining integer value. -/
def fmtFrac (v : Nat) (prec : Nat) : GoStr × Nat :=
  let r := fmtFracAux prec v false
  (if r.2.1 then 46 :: r.1 else r.1, r.2.2)

/-- Go's `time.Duration.String`. -/
def durString (d : Int) : GoStr :=
  let u : Nat := d.natAbs
  if u = 0 then gs "0s"
  else
    let body :=
      if u < 1000000000 then
        -- sub-second: ns / µs / ms, with fraction
        let pu : Nat × GoStr :=
          if u < 1000 then (0, gs "ns")
          else if u < 1000000 then (3, [0xC2, 0xB5, 115]) -- "µs"
          else (6, gs "ms")
        let fr := fmtFrac u pu.1
        natDigits fr.2 ++ fr.1 ++ pu.2
      else
        let fr := fmtFrac u 9      -- fr.2 = integer seconds
        let secPart := natDigits (fr.2 % 60) ++ fr.1 ++ [115]
        let u3 := fr.2 / 60
        if u3 = 0 then secPart
        else
          let minPart := natDigits (u3 % 60) ++ [109] ++ secPart
          let u4 := u3 / 60
          if u4 = 0 then minPart else natDigits u4 ++ [104] ++ minPart
    if d < 0 then 45 :: body else body

/-- Go's `leadingInt`: consume leading decimal digits. -/
def leadingIntAux : GoStr → Nat → Nat × GoStr
  | [], acc => (acc, [])
  | b :: bs, acc =>
    if isDigit b then leadingIntAux bs (acc * 10 + (b - 48)) else (acc, b :: bs)

/-- Go's `leadingFraction`: consume leading digits after a decimal
point, also returning the scale `10^k`. -/
def leadingFracAux : GoStr → Nat → Nat → Nat × Nat × GoStr
  | [], x, scale => (x, scale, [])
  | b :: bs, x, scale =>
    if isDigit b then leadingFracAux bs (x * 10 + (b - 48)) (scale * 10)
    else (x, scale, b :: bs)

/-- Length of the unit token: bytes up to the next digit or `'.'`. -/
def unitLen : GoStr → Nat
  | [] => 0
  | b :: bs => if b = 46 || isDigit b then 0 else unitLen bs + 1

/-- Go's `unitMap` for `ParseDuration`. -/
def unitVal (u : GoStr) : Option Nat :=
  if u = gs "ns" then some 1
  else if u = gs "us" then some 1000
  else if u = [0xC2, 0xB5, 115] then some 1000      -- "µs" (U+00B5)
  else if u = [0xCE, 0xBC, 115] then some 1000      -- "μs" (U+03BC)
  else if u = gs "ms" then some 1000000
  else if u = [115] then some 1000000000            -- "s"
  else if u = [109] then some 60000000000           -- "m"
  else if u = [104] then some 3600000000000         -- "h"
  else none

/-- The segment loop of `time.ParseDuration`; the first argument is
fuel (any value `≥` the length of the string is exact, each iteration
consumes at least one byte). -/
def parseDurLoop : Nat → GoStr → Nat → Option Nat
  | _, [], d => some d
  | 0, _ :: _, _ => none
  | fuel + 1, s, d =>
    match s.head? with
    | none => some d
    | some b =>
      if ¬ (b = 46 ∨ isDigit b) then none
      else
        let vi := leadingIntAux s 0
        let pre := decide (vi.2.length ≠ s.length)
        let fsr : Nat × Nat × GoStr × Bool :=
          match vi.2 with
          | 46 :: rest =>
            let r := leadingFracAux rest 0 1
            (r.1, r.2.1, r.2.2, decide (r.2.2.length ≠ rest.length))
          | other => (0, 1, other, false)
        if ¬ (pre || fsr.2.2.2) then none
        else
          let i := unitLen fsr.2.2.1
          if i = 0 then none
          else
            match unitVal (fsr.2.2.1.take i) with
            | none => none
            | some unit =>
              parseDurLoop fuel (fsr.2.2.1.drop i)
                (d + vi.1 * unit + (fsr.1 * unit) / fsr.2.1)

/-- Go's `time.ParseDuration` (int64 overflow not modelled; fractional
contribution modelled as exact integer division). -/
def parseDuration (s : GoStr) : Option Int :=
  let ns : Bool × GoStr :=
    match s with
    | 45 :: rest => (true, rest)
    | 43 :: rest => (false, rest)
    | other => (false, other)
  if ns.2 = [48] then some 0
  else if ns.2 = [] then none
  else (parseDurLoop (ns.2.length + 1) ns.2 0).map
    (fun d => if ns.1 then -(d : Int) else (d : Int))

/-! ## `net` model: `SplitHostPort`, `JoinHostPort`, `LookupPort` -/

/-- Errors of `net.SplitHostPort` (distinguished only by message). -/
inductive AddrErr where
  | missingPort | tooManyColons | missingBracket
  | unexpectedLBracket | unexpectedRBracket
deriving DecidableEq

/-- Go's `net.SplitHostPort`. -/
def netSplitHostPort (hostPort : GoStr) : Except AddrErr (GoStr × GoStr) :=
  match lastIndexByte hostPort 58 with
  | none => throw .missingPort
  | some i =>
    if hostPort.head? = some 91 then
      match indexByte hostPort 93 with
      | none => throw .missingBracket
      | some e =>
        if e + 1 = hostPort.length then throw .missingPort
        else if e + 1 = i then
          -- the expected "[host]:port" shape; j, k = 1, e+1
          if containsByte (hostPort.drop 1) 91 then throw .unexpectedLBracket
          else if containsByte (hostPort.drop (e + 1)) 93 then throw .unexpectedRBracket
          else .ok ((hostPort.drop 1).take (e - 1), hostPort.drop (i + 1))
        else if (hostPort.drop (e + 1)).head? = some 58 then throw .tooManyColons
        else throw .missingPort
    else
      let host := hostPort.take i
      if containsByte host 58 then throw .tooManyColons
      else if containsByte hostPort 91 then throw .unexpectedLBracket
      else if containsByte hostPort 93 then throw .unexpectedRBracket
      else .ok (host, hostPort.drop (i + 1))

/-- Go's `net.JoinHostPort`. -/
def netJoinHostPort (host port : GoStr) : GoStr :=
  if containsByte host 58 then [91] ++ host ++ [93, 58] ++ port
  else host ++ [58] ++ port

/-- Modelled from the spec: the well-known service-name lookup that
`net.LookupPort("tcp", ·)` performs (the system services database is
not part of the repository); a small fixed table of well-known names. -/
def netLookupPort (service : GoStr) : Option Int :=
  if service = gs "http" then some 80
  else if service = gs "https" then some 443
  else if service = gs "ssh" then some 22
  else none

/-! ## `net/url` model -/

def isAlpha (c : Nat) : Bool := (97 ≤ c && c ≤ 122) || (65 ≤ c && c ≤ 90)

def isAlphaNum (c : Nat) : Bool := isAlpha c || isDigit c

/-- The escaping modes of `net/url` that this code exercises. -/
inductive EncMode where
  | path | host | userPassword | queryComponent | fragment
deriving DecidableEq

/-- Go's `shouldEscape(c, mode)` on bytes. -/
def shouldEsc (c : Nat) (mode : EncMode) : Bool :=
  if isAlphaNum c then false
  else if mode = .host &&
      (c ∈ [33, 36, 38, 39, 40, 41, 42, 43, 44, 59, 61, 58, 91, 93, 60, 62, 34]) then
    -- sub-delims and legacy extras allowed raw in hosts
    false
  else if c ∈ [45, 95, 46, 126] then false          -- unreserved marks - _ . ~
  else if c ∈ [36, 38, 43, 44, 47, 58, 59, 61, 63, 64] then
    match mode with
    | .path => c = 63
    | .userPassword => c = 64 || c = 47 || c = 63
    | .queryComponent => true
    | .fragment => false
    | .host => true
  else if mode = .fragment && c ∈ [33, 40, 41, 42] then false
  else true

def hexUpperDigit (n : Nat) : Nat := if n < 10 then 48 + n else 55 + n

def escapeByte (c : Nat) : GoStr := [37, hexUpperDigit (c / 16), hexUpperDigit (c % 16)]

/-- Go's `escape(s, mode)`. -/
def escapeWith (mode : EncMode) (s : GoStr) : GoStr :=
  s.flatMap (fun c =>
    if shouldEsc c mode then
      if c = 32 && mode = .queryComponent then [43] else escapeByte c
    else [c])

def isHexDigit (c : Nat) : Bool := isDigit c || (97 ≤ c && c ≤ 102) || (65 ≤ c && c ≤ 70)

def unhex (c : Nat) : Nat :=
  if isDigit c then c - 48 else if 97 ≤ c then c - 87 else c - 55

/-- Go's `unescape(s, mode)`.  In host mode, raw bytes that should have
been escaped and `%XX` escapes of ASCII bytes (other than `%25`) are
rejected; IPv6 zone identifiers (`%25` handling in `parseHost`) are not
modelled beyond this. -/
def unescapeIn : GoStr → EncMode → Option GoStr
  | [], _ => some []
  | 37 :: rest, mode =>
    match rest with
    | h1 :: h2 :: rest2 =>
      if isHexDigit h1 && isHexDigit h2 then
        if mode = .host && unhex h1 < 8 && ¬(h1 = 50 ∧ h2 = 53) then none
        else (unescapeIn rest2 mode).map (fun t => (unhex h1 * 16 + unhex h2) :: t)
      else none
    | _ => none
  | 43 :: rest, mode =>
    (unescapeIn rest mode).map
      (fun t => (if mode = .queryComponent then 32 else 43) :: t)
  | c :: rest, mode =>
    if (mode = .host) && c < 0x80 && shouldEsc c mode then none
    else (unescapeIn rest mode).map (fun t => c :: t)

/-- Result of Go's `getScheme`. -/
inductive SchemeRes where
  | err
  | noScheme
  | found (scheme rest : GoStr)
deriving DecidableEq

/-- Go's `getScheme` (the accumulator holds the scheme candidate read
so far, reversed). -/
def getSchemeAux : GoStr → GoStr → SchemeRes
  | _, [] => .noScheme
  | acc, c :: rest =>
    if isAlpha c then getSchemeAux (c :: acc) rest
    else if isDigit c || c = 43 || c = 45 || c = 46 then
      if acc = [] then .noScheme else getSchemeAux (c :: acc) rest
    else if c = 58 then
      if acc = [] then .err else .found acc.reverse rest
    else .noScheme

/-- Go's `validOptionalPort`. -/
def validOptionalPort (p : GoStr) : Bool :=
  match p with
  | [] => true
  | 58 :: digits => digits.all (fun b => isDigit b)
  | _ => false

/-- Go's `parseHost`. -/
def parseHost (host : GoStr) : Option GoStr :=
  if host.head? = some 91 then
    match lastIndexByte host 93 with
    | none => none
    | some i =>
      if ¬ validOptionalPort (host.drop (i + 1)) then none
      else unescapeIn host .host
  else
    match lastIndexByte host 58 with
    | none => unescapeIn host .host
    | some i =>
      if validOptionalPort (host.drop i) then unescapeIn host .host else none

/-- Go's `validUserinfo` (rune classes; any byte `≥ 0x80` fails either way). -/
def validUserinfoByte (c : Nat) : Bool :=
  isAlphaNum c ||
    c ∈ [45, 46, 95, 58, 126, 33, 36, 38, 39, 40, 41, 42, 43, 44, 59, 61, 37, 64]

def validUserinfo (s : GoStr) : Bool := s.all validUserinfoByte

/-- A parsed `*url.Userinfo`: username and optional password. -/
abbrev Userinfo := GoStr × Option GoStr

/-- Go's `parseAuthority`. -/
def parseAuthority (authority : GoStr) : Option (Option Userinfo × GoStr) :=
  match lastIndexByte authority 64 with
  | none => (parseHost authority).map (fun h => (none, h))
  | some i =>
    match parseHost (authority.drop (i + 1)) with
    | none => none
    | some h =>
      let userinfo := authority.take i
      if ¬ validUserinfo userinfo then none
      else if ¬ containsByte userinfo 58 then
        (unescapeIn userinfo .userPassword).map (fun u => (some (u, none), h))
      else
        let c := cutByte userinfo 58
        match unescapeIn c.1 .userPassword, unescapeIn c.2.1 .userPassword with
        | some u, some p => some (some (u, some p), h)
        | _, _ => none

/-- The fields of Go's `url.URL` that this code reads or writes. -/
structure URL where
  scheme : GoStr := []
  opq : GoStr := []                 -- Opaque
  user : Option Userinfo := none
  host : GoStr := []
  path : GoStr := []
  rawQuery : GoStr := []
  frag : GoStr := []
deriving DecidableEq

def ctlByte (c : Nat) : Bool := c < 32 || c = 127

/-- Go's `(*URL).parse(rawURL, false)` — everything after the fragment
has been split off.  `ForceQuery` is not tracked (it only affects a
trailing bare `?`, which leaves `RawQuery` empty either way). -/
def parseNoFrag (rawURL : GoStr) : Option URL :=
  if rawURL.any ctlByte then none
  else if rawURL = [42] then some { path := [42] }   -- "*"
  else
    match getSchemeAux [] rawURL with
    | .err => none
    | res =>
      let sr : GoStr × GoStr :=
        match res with
        | .found sch r => (toLowerBytes sch, r)
        | _ => ([], rawURL)
      let scheme := sr.1
      let qr : GoStr × GoStr :=
        if endsWith sr.2 [63] && ¬ containsByte sr.2.dropLast 63 then
          (sr.2.dropLast, [])
        else
          let c := cutByte sr.2 63
          (c.1, c.2.1)
      let rest := qr.1
      let rawQuery := qr.2
      if ¬ startsWith rest [47] ∧ scheme ≠ [] then
        some { scheme := scheme, opq := rest, rawQuery := rawQuery }
      else if ¬ startsWith rest [47] ∧ containsByte (cutByte rest 47).1 58 then
        none   -- "first path segment in URL cannot contain colon"
      else if (scheme ≠ [] ∨ ¬ startsWith rest (gs "///")) ∧
              startsWith rest (gs "//") then
        let authorityRest := rest.drop 2
        let ar : GoStr × GoStr :=
          match indexByte authorityRest 47 with
          | some i => (authorityRest.take i, authorityRest.drop i)
          | none => (authorityRest, [])
        match parseAuthority ar.1 with
        | none => none
        | some (user, host) =>
          match unescapeIn ar.2 .path with
          | none => none
          | some p =>
            some { scheme := scheme, user := user, host := host, path := p,
                   rawQuery := rawQuery }
      else
        match unescapeIn rest .path with
        | none => none
        | some p => some { scheme := scheme, path := p, rawQuery := rawQuery }

/-- Go's `url.Parse`. -/
def urlParse (rawURL : GoStr) : Option URL :=
  let c := cutByte rawURL 35    -- '#'
  match parseNoFrag c.1 with
  | none => none
  | some url =>
    if ¬ c.2.2 then some url
    else
      match unescapeIn c.2.1 .fragment with
      | none => none
      | some f => some { url with frag := f }

/-- Go's unexported `url.splitHostPort` (used by `Port`/`Hostname`). -/
def urlSplitHostPort (hostPort : GoStr) : GoStr × GoStr :=
  let hp : GoStr × GoStr :=
    match lastIndexByte hostPort 58 with
    | some colon =>
      if validOptionalPort (hostPort.drop colon) then
        (hostPort.take colon, hostPort.drop (colon + 1))
      else (hostPort, [])
    | none => (hostPort, [])
  if startsWith hp.1 [91] && endsWith hp.1 [93] then
    ((hp.1.drop 1).dropLast, hp.2)
  else hp

def urlPort (u : URL) : GoStr := (urlSplitHostPort u.host).2

def urlHostname (u : URL) : GoStr := (urlSplitHostPort u.host).1

def queryUnescape (s : GoStr) : Option GoStr := unescapeIn s .queryComponent

/-- Go's `url.ParseQuery`, with errors discarded as `URL.Query()` does:
pairs with a `';'` or an invalid escape are skipped. -/
def parseQueryPairs (query : GoStr) : List (GoStr × GoStr) :=
  (splitByte query 38).foldr
    (fun piece acc =>
      if containsByte piece 59 then acc
      else if piece = [] then acc
      else
        let kv := cutByte piece 61
        match queryUnescape kv.1, queryUnescape kv.2.1 with
        | some k, some v => (k, v) :: acc
        | _, _ => acc)
    []

/-- `url.Values.Get`: first value for the key, or empty. -/
def queryGet (pairs : List (GoStr × GoStr)) (key : GoStr) : GoStr :=
  match pairs.find? (fun p => p.1 = key) with
  | some p => p.2
  | none => []

/-- Lexicographic byte order (Go `string <`). -/
def ltBytes : GoStr → GoStr → Bool
  | [], [] => false
  | [], _ :: _ => true
  | _ :: _, [] => false
  | a :: as, b :: bs => if a = b then ltBytes as bs else decide (a < b)

def insertSorted (p : GoStr × GoStr) : List (GoStr × GoStr) → List (GoStr × GoStr)
  | [] => [p]
  | q :: qs => if ltBytes p.1 q.1 then p :: q :: qs else q :: insertSorted p qs

/-- Key-sorting performed by `url.Values.Encode` (all our keys are distinct). -/
def sortPairs : List (GoStr × GoStr) → List (GoStr × GoStr)
  | [] => []
  | p :: ps => insertSorted p (sortPairs ps)

/-- `url.Values.Encode`. -/
def encodeValues (ps : List (GoStr × GoStr)) : GoStr :=
  List.intercalate [38]
    ((sortPairs ps).map
      (fun p => escapeWith .queryComponent p.1 ++ [61] ++
                escapeWith .queryComponent p.2))

/-- `(*url.Userinfo).String()`. -/
def userinfoString (ui : Userinfo) : GoStr :=
  escapeWith .userPassword ui.1 ++
    (match ui.2 with
     | some p => 58 :: escapeWith .userPassword p
     | none => [])

/-- Go's `(*url.URL).String()` for the URLs this code builds
(no `ForceQuery`, no fragment, no `OmitHost`). -/
def urlString (u : URL) : GoStr :=
  let b := if u.scheme ≠ [] then u.scheme ++ [58] else []
  let b :=
    if u.opq ≠ [] then b ++ u.opq
    else
      let b :=
        if u.scheme ≠ [] ∨ u.host ≠ [] ∨ u.user ≠ none then
          let b := if u.host ≠ [] ∨ u.path ≠ [] ∨ u.user ≠ none
                   then b ++ [47, 47] else b
          let b := match u.user with
            | some ui => b ++ userinfoString ui ++ [64]
            | none => b
          if u.host ≠ [] then b ++ escapeWith .host u.host else b
        else b
      let p := escapeWith .path u.path
      let b := if p ≠ [] ∧ p.head? ≠ some 47 ∧ u.host ≠ [] then b ++ [47] else b
      b ++ p
  if u.rawQuery ≠ [] then b ++ [63] ++ u.rawQuery else b

/-! ## The repository model: `connstring.go` -/

/-- The part of `tls.Config` the code sets. -/
structure TLSConf where
  insecureSkipVerify : Bool := false
deriving DecidableEq

/-- Value-semantics model of `(*tls.Config).Clone` (aliasing is not
representable in a value model). -/
def tlsClone (c : TLSConf) : TLSConf := c

/-- The process-wide `tlsConfigRegistry` map, passed explicitly. -/
abbrev Registry := List (GoStr × TLSConf)

def regLookup (reg : Registry) (key : GoStr) : Option TLSConf :=
  (reg.find? (fun p => p.1 = key)).map (·.2)

/-- Go map assignment `m[key] = v`: replace the existing entry for the
key, or add one. -/
def regSet : Registry → GoStr → TLSConf → Registry
  | [], key, c => [(key, c)]
  | p :: ps, key, c =>
    if p.1 = key then (key, c) :: ps else p :: regSet ps key c

/-- The distinct error shapes `connstring.go` produces (identified by
their `fmt.Errorf` message shapes). -/
inductive GoErr where
  | malformedURL (s : GoStr)        -- "unable to parse connection string %q as url"
  | schemeMismatch (scheme : GoStr) -- "connection string must start with \"nebula\"://"
  | invalidOption (key val : GoStr) -- "unable to parse query string '%s' %q as ..."
  | unresolvablePort (s : GoStr)    -- "unable to parse service %q as port"
  | emptyHost                       -- "unexpected empty host/port"
  | badHostPort (s : GoStr)         -- "unable to parse host port %q"
  | invalidSpace (s : GoStr)        -- "space name %q is not valid"
  | missingKey                      -- "missing key"
  | reservedKey (k : GoStr)         -- "key '%s' is reserved"
  | profileNotFound (k : GoStr)     -- "tls configuration %q not found"
deriving DecidableEq

structure HostAddress where
  Host : GoStr
  Port : Int
deriving DecidableEq

structure PoolConfig where
  TimeOut : Int          -- time.Duration, nanoseconds
  IdleTime : Int         -- time.Duration, nanoseconds
  MaxConnPoolSize : Int
  MinConnPoolSize : Int
deriving DecidableEq

structure SessionPoolConfig where
  MaxIdleSessionPoolSize : Int
deriving DecidableEq

/-- Modelled from the spec: `GetDefaultConf` lives outside `src/`; the
defaults are those documented in the parser's own doc comment
(timeout 0s, idle 0s, max pool size 10, min pool size 0). -/
def GetDefaultConf : PoolConfig :=
  { TimeOut := 0, IdleTime := 0, MaxConnPoolSize := 10, MinConnPoolSize := 0 }

/-- Modelled from the spec: `GetDefaultSessionPoolConfig` lives outside
`src/`; the default documented in the parser's doc comment is 0. -/
def GetDefaultSessionPoolConfig : SessionPoolConfig :=
  { MaxIdleSessionPoolSize := 0 }

structure ConnectionConfig where
  HostAddresses : List HostAddress := []
  poolConfig : PoolConfig := GetDefaultConf
  sessionPoolConfig : SessionPoolConfig := GetDefaultSessionPoolConfig
  Username : GoStr := []
  Password : GoStr := []
  Space : GoStr := []
  TLS : GoStr := []
  TLSConfig : Option TLSConf := none
  OnAcquireSession : GoStr := []
deriving DecidableEq

def DEFAULT_PORT : Int := 9669

def NEBULA_SCHEME : GoStr := gs "nebula"

def defaultOnAcquireSession : GoStr := gs "USE %SPACE%;"

def protocolSeparator : GoStr := gs "://"

/-- The byte class of `nebulaGraphSpaceNameFormat` = `^[a-zA-Z0-9_]*$`
(multi-byte runes can never match the class, so a byte check is exact). -/
def spaceByteValid (b : Nat) : Bool := isAlphaNum b || b = 95

def validateSpace (space : GoStr) : Except GoErr Unit :=
  if space = [] then .ok ()
  else if space.all spaceByteValid then .ok ()
  else throw (.invalidSpace space)

def getTLSConfigFromRegistry (reg : Registry) (key : GoStr) :
    Except GoErr TLSConf :=
  match regLookup reg key with
  | some c => .ok (tlsClone c)
  | none => throw (.profileNotFound key)

def getTLSConfig (reg : Registry) (key : GoStr) :
    Except GoErr (Option TLSConf) :=
  if key = gs "false" ∨ key = gs "0" then .ok none
  else if key = gs "true" ∨ key = gs "1" then .ok (some {})
  else if key = gs "skip-verify" then .ok (some { insecureSkipVerify := true })
  else (getTLSConfigFromRegistry reg key).map (fun c => some (tlsClone c))

def RegisterTLSConfig (reg : Registry) (key : GoStr) (config : TLSConf) :
    Except GoErr Registry :=
  if key = [] then throw .missingKey
  else if key = gs "true" ∨ key = gs "false" ∨ key = gs "0" ∨
          key = gs "1" ∨ key = gs "skip-verify" then
    throw (.reservedKey key)
  else .ok (regSet reg key (tlsClone config))

def DeregisterTLSConfig (reg : Registry) (key : GoStr) : Registry :=
  reg.filter (fun p => p.1 ≠ key)

def peekDurationFromQueryString (q : List (GoStr × GoStr)) (key : GoStr)
    (dest : Int) : Except GoErr Int :=
  let duration := queryGet q key
  if duration ≠ [] then
    match parseDuration duration with
    | some d => .ok d
    | none => throw (.invalidOption key duration)
  else .ok dest

def peekIntFromQueryString (q : List (GoStr × GoStr)) (key : GoStr)
    (dest : Int) : Except GoErr Int :=
  let v := queryGet q key
  if v ≠ [] then
    match atoi v with
    | some n => .ok n
    | none => throw (.invalidOption key v)
  else .ok dest

def checkTCPPort (hostPort : GoStr) : GoStr × Bool :=
  let sr : GoStr × GoStr :=
    match indexByte hostPort 93 with
    | some pos =>
      if pos > 1 then ((hostPort.drop 1).take (pos - 1), hostPort.drop pos)
      else (hostPort, hostPort)
    | none => (hostPort, hostPort)
  (sr.1, containsByte sr.2 58)

def convertToTCPPort (portOrService : GoStr) : Except GoErr Int :=
  match atoi portOrService with
  | some p => .ok p
  | none =>
    match netLookupPort portOrService with
    | some p => .ok p
    | none => throw (.unresolvablePort portOrService)

/-- One iteration of the host/port loop in `parseConnectionString`. -/
def parseHostToken (defaultPort : Int) (hostPort : GoStr) :
    Except GoErr HostAddress :=
  if hostPort = [] then throw .emptyHost
  else
    let sb := checkTCPPort hostPort
    if ¬ sb.2 then .ok { Host := sb.1, Port := defaultPort }
    else
      match netSplitHostPort hostPort with
      | .error _ => throw (.badHostPort hostPort)
      | .ok (h, portOrService) =>
        if portOrService = [] then .ok { Host := h, Port := defaultPort }
        else (convertToTCPPort portOrService).map
          (fun p => { Host := h, Port := p })

/-- Go's `if err != nil { return nil, err }` sequencing on fallible
results (definitionally `Except.bind`). -/
def andThenE {eps alpha beta : Type} (e : Except eps alpha)
    (f : alpha → Except eps beta) : Except eps beta :=
  match e with
  | .error er => .error er
  | .ok a => f a

/-- The body of `parseConnectionString` after scheme normalization,
written in the early-return style of the source (`if err != nil`
becomes a match on the `Except`). -/
def parseConnBody (reg : Registry) (connectionString : GoStr) :
    Except GoErr ConnectionConfig :=
  match urlParse connectionString with
  | none => .error (.malformedURL connectionString)
  | some connectionURL =>
    if connectionURL.scheme ≠ NEBULA_SCHEME then
      .error (.schemeMismatch connectionURL.scheme)
    else
      let query := parseQueryPairs connectionURL.rawQuery
      let pc0 := GetDefaultConf
      andThenE (peekDurationFromQueryString query (gs "timeout") pc0.TimeOut)
        fun timeout =>
      andThenE (peekDurationFromQueryString query (gs "idle_time") pc0.IdleTime)
        fun idleTime =>
      andThenE (peekIntFromQueryString query (gs "max_conn_pool_size")
          pc0.MaxConnPoolSize) fun maxConn =>
      andThenE (peekIntFromQueryString query (gs "min_conn_pool_size")
          pc0.MinConnPoolSize) fun minConn =>
      andThenE (peekIntFromQueryString query (gs "max_idle_session_pool_size")
          GetDefaultSessionPoolConfig.MaxIdleSessionPoolSize) fun maxIdleSess =>
      andThenE (if urlPort connectionURL ≠ [] then
                  convertToTCPPort (urlPort connectionURL)
                else .ok DEFAULT_PORT) fun defaultPort =>
      let hostname := connectionURL.host
      let hostPorts :=
        if containsByte hostname 44 then splitByte (urlHostname connectionURL) 44
        else [hostname]
      let username :=
        match connectionURL.user with | some (u, _) => u | none => []
      let password :=
        match connectionURL.user with | some (_, some p) => p | _ => []
      let space := removeFirstByte connectionURL.path 47
      andThenE (if space ≠ [] then
                  andThenE (validateSpace space)
                    (fun _ => .ok (space, defaultOnAcquireSession))
                else .ok (([] : GoStr), ([] : GoStr))) fun so =>
      andThenE (hostPorts.mapM (parseHostToken defaultPort)) fun hostAddresses =>
      let tlsOption := queryGet query (gs "tls")
      andThenE (if tlsOption ≠ [] then
                  andThenE (getTLSConfig reg tlsOption)
                    (fun c => .ok (tlsOption, c))
                else .ok (([] : GoStr), (none : Option TLSConf))) fun tc =>
        .ok { HostAddresses := hostAddresses,
              poolConfig := { TimeOut := timeout, IdleTime := idleTime,
                              MaxConnPoolSize := maxConn,
                              MinConnPoolSize := minConn },
              sessionPoolConfig := { MaxIdleSessionPoolSize := maxIdleSess },
              Username := username, Password := password,
              Space := so.1, TLS := tc.1, TLSConfig := tc.2,
              OnAcquireSession := so.2 }

/-- `parseConnectionString` with its bounded retry: the recursive call
of the source passes `canRetry = false`, which takes the else branch,
so it is inlined here as a direct call to the body. -/
def parseConnectionString (reg : Registry) (connectionString : GoStr)
    (canRetry : Bool) : Except GoErr ConnectionConfig :=
  if canRetry ∧ ¬ containsSub connectionString protocolSeparator then
    parseConnBody reg (NEBULA_SCHEME ++ protocolSeparator ++ connectionString)
  else parseConnBody reg connectionString

/-- The exported `ParseConnectionString`. -/
def ParseConnectionString (reg : Registry) (s : GoStr) :
    Except GoErr ConnectionConfig :=
  parseConnectionString reg s true

/-- The host/port rendering of `toURI`. -/
def hostPortOfConfig (cfg : ConnectionConfig) : GoStr :=
  match cfg.HostAddresses with
  | [] => []
  | first :: _ =>
    let hasDifferentPorts :=
      cfg.HostAddresses.any (fun hp => hp.Port ≠ first.Port)
    if hasDifferentPorts then
      [91] ++
        List.intercalate [44]
          (cfg.HostAddresses.map (fun hp => netJoinHostPort hp.Host (itoa hp.Port)))
        ++ [93]
    else if cfg.HostAddresses.length > 1 then
      [91] ++ List.intercalate [44] (cfg.HostAddresses.map (·.Host)) ++
        [93, 58] ++ itoa first.Port
    else netJoinHostPort first.Host (itoa first.Port)

/-- The query values built by `toURI` (in `query.Add` order). -/
def queryOfConfig (cfg : ConnectionConfig) : List (GoStr × GoStr) :=
  let q : List (GoStr × GoStr) := []
  let q := if cfg.poolConfig.TimeOut ≠ GetDefaultConf.TimeOut then
             q ++ [(gs "timeout", durString cfg.poolConfig.TimeOut)] else q
  let q := if cfg.poolConfig.IdleTime ≠ GetDefaultConf.IdleTime then
             q ++ [(gs "idle_time", durString cfg.poolConfig.IdleTime)] else q
  let q := if cfg.poolConfig.MaxConnPoolSize ≠ GetDefaultConf.MaxConnPoolSize then
             q ++ [(gs "max_conn_pool_size", itoa cfg.poolConfig.MaxConnPoolSize)]
           else q
  let q := if cfg.poolConfig.MinConnPoolSize ≠ GetDefaultConf.MinConnPoolSize then
             q ++ [(gs "min_conn_pool_size", itoa cfg.poolConfig.MinConnPoolSize)]
           else q
  let q := if cfg.sessionPoolConfig.MaxIdleSessionPoolSize ≠
              GetDefaultSessionPoolConfig.MaxIdleSessionPoolSize then
             q ++ [(gs "max_idle_session_pool_size",
                    itoa cfg.sessionPoolConfig.MaxIdleSessionPoolSize)]
           else q
  if cfg.TLS ≠ [] then q ++ [(gs "tls", cfg.TLS)] else q

/-- `(*ConnectionConfig).toURI`. -/
def toURI (cfg : ConnectionConfig) : URL :=
  let userinfo : Option Userinfo :=
    if cfg.Username ≠ [] then
      if cfg.Password ≠ [] then some (cfg.Username, some cfg.Password)
      else some (cfg.Username, none)
    else none
  { scheme := gs "nebula",
    user := userinfo,
    host := hostPortOfConfig cfg,
    path := if cfg.Space ≠ [] then 47 :: cfg.Space else [],
    rawQuery := encodeValues (queryOfConfig cfg) }

/-- `(*ConnectionConfig).String`. -/
def configString (cfg : ConnectionConfig) : GoStr := urlString (toURI cfg)

/-- `(*ConnectionConfig).Redacted`. -/
def Redacted (cfg : ConnectionConfig) : GoStr :=
  let uri := toURI cfg
  match uri.user with
  | some (_, some _) =>
    urlString { uri with user := some (cfg.Username, some (gs "xxxxx")) }
  | _ => urlString uri

/-! ## Auxiliary predicates used to state the verified properties -/

/-- Bytes that pass through host escaping/unescaping unchanged and play
no structural role in the authority grammar (no `[`, `]`, `:`, `,`). -/
def plainHostByte (c : Nat) : Bool :=
  !(shouldEsc c .host) && !(c ∈ [91, 93, 58, 44])

/-- Bytes that pass through host escaping unchanged and play no role in
the comma/bracket structure of the authority; unlike `plainHostByte`,
the colon is allowed, so IPv6-style host names are covered. -/
def hostTokenByte (c : Nat) : Bool :=
  !(shouldEsc c .host) && !(c ∈ [91, 93, 44])

/-- RFC 3986 unreserved bytes: never escaped in any component. -/
def unreservedByte (c : Nat) : Bool :=
  isAlphaNum c || c ∈ [45, 95, 46, 126]

/-- Does the query value list carry the given key? -/
def queryHasKey (q : List (GoStr × GoStr)) (key : GoStr) : Bool :=
  q.any (fun p => p.1 = key)

/-! # Theorems -/

/-! ## Registry lemmas -/

theorem throw_eq_error {α : Type} (e : GoErr) :
    (throw e : Except GoErr α) = .error e := rfl

theorem regLookup_regSet_self (reg : Registry) (key : GoStr) (c : TLSConf) :
    regLookup (regSet reg key c) key = some c := by
  induction reg with
  | nil => simp [regSet, regLookup]
  | cons p ps ih =>
    by_cases hp : p.1 = key
    · simp [regSet, regLookup, hp]
    · simpa [regSet, regLookup, hp] using ih

theorem regLookup_regSet_other (reg : Registry) (key k' : GoStr) (c : TLSConf)
    (hne : k' ≠ key) : regLookup (regSet reg key c) k' = regLookup reg k' := by
  have hne' : ¬ (key = k') := fun h => hne h.symm
  induction reg with
  | nil => simp [regSet, regLookup, hne']
  | cons p ps ih =>
    by_cases hp : p.1 = key
    · simp [regSet, regLookup, hp, hne']
    · by_cases hk : p.1 = k'
      · simp only [regSet, if_neg hp]
        simp [regLookup, hk]
      · simp only [regSet, if_neg hp]
        simpa [regLookup, hk] using ih

/-! ## Inversion lemmas for the parser -/

theorem except_bind_ok {ε α β : Type} {e : Except ε α} {f : α → Except ε β}
    {b : β} (h : e >>= f = .ok b) : ∃ a, e = .ok a ∧ f a = .ok b := by
  cases e with
  | error e => cases h
  | ok a => exact ⟨a, rfl, h⟩

theorem mapM_except_ne_nil {α β ε : Type} (f : α → Except ε β) :
    ∀ (xs : List α) (ys : List β), xs.mapM f = .ok ys → xs ≠ [] → ys ≠ [] := by
  intro xs
  induction xs with
  | nil => intro ys _ hne; exact absurd rfl hne
  | cons x xs ih =>
    intro ys h _
    rw [List.mapM_cons] at h
    simp only [Bind.bind, Except.bind, Pure.pure, Except.pure] at h
    cases e1 : f x with
    | error e => rw [e1] at h; cases h
    | ok y =>
      rw [e1] at h
      cases e2 : xs.mapM f with
      | error e => rw [e2] at h; cases h
      | ok ys' => rw [e2] at h; cases h; simp

theorem mapM_except_mem {α β ε : Type} (f : α → Except ε β) :
    ∀ (xs : List α) (ys : List β), xs.mapM f = .ok ys →
      ∀ y ∈ ys, ∃ x ∈ xs, f x = .ok y := by
  intro xs
  induction xs with
  | nil =>
    intro ys h y hy
    simp only [List.mapM_nil, Pure.pure, Except.pure] at h
    cases h; cases hy
  | cons x xs ih =>
    intro ys h y hy
    rw [List.mapM_cons] at h
    simp only [Bind.bind, Except.bind, Pure.pure, Except.pure] at h
    cases e1 : f x with
    | error e => rw [e1] at h; cases h
    | ok y' =>
      rw [e1] at h
      cases e2 : xs.mapM f with
      | error e => rw [e2] at h; cases h
      | ok ys' =>
        rw [e2] at h; cases h
        rcases List.mem_cons.mp hy with rfl | hmem
        · exact ⟨x, List.mem_cons_self x xs, e1⟩
        · obtain ⟨x', hx', hfx⟩ := ih ys' e2 y hmem
          exact ⟨x', List.mem_cons_of_mem x hx', hfx⟩

theorem parseHostToken_port {dp : Int} {t : GoStr} {a : HostAddress}
    (h : parseHostToken dp t = .ok a) :
    a.Port = dp ∨ ∃ pt, convertToTCPPort pt = .ok a.Port := by
  unfold parseHostToken at h
  simp only [throw_eq_error, Except.map] at h
  repeat' split at h <;> try cases h
  · left; rfl
  · left; rfl
  · exact Or.inr ⟨_, by assumption⟩

theorem splitByte_ne_nil (s : GoStr) (c : Nat) : splitByte s c ≠ [] := by
  induction s with
  | nil => simp [splitByte]
  | cons b bs ih =>
    unfold splitByte
    split
    · simp
    · cases e : splitByte bs c with
      | nil => exact absurd e ih
      | cons hh tt => simp

/-- Invariants of every configuration a successful `parseConnBody`
produces: a non-empty host list; the space/template pairing; TLS mode
resolvability under the same registry; and every port either the
default or the result of a successful port conversion. -/
theorem andThenE_ok {eps alpha beta : Type} {e : Except eps alpha}
    {f : alpha → Except eps beta} {b : beta}
    (h : andThenE e f = .ok b) : ∃ a, e = .ok a ∧ f a = .ok b := by
  cases e with
  | error er => cases h
  | ok a => exact ⟨a, rfl, h⟩

theorem ite_error_ok {eps beta : Type} {c : Prop} [Decidable c] {er : eps}
    {x : Except eps beta} {b : beta}
    (h : (if c then Except.error er else x) = .ok b) : ¬c ∧ x = .ok b := by
  by_cases hc : c
  · rw [if_pos hc] at h; cases h
  · rw [if_neg hc] at h; exact ⟨hc, h⟩

/-- Invariants of every configuration a successful `parseConnBody`
produces: a non-empty host list; the space/template pairing (with a
validated space); TLS-mode resolvability under the same registry; and
every port either the default or a successful port conversion. -/
theorem parseConnBody_ok_inv {reg : Registry} {s : GoStr}
    {C : ConnectionConfig} (h : parseConnBody reg s = .ok C) :
    C.HostAddresses ≠ [] ∧
    ((C.Space ≠ [] ∧ validateSpace C.Space = .ok () ∧
      C.OnAcquireSession = defaultOnAcquireSession) ∨
     (C.Space = [] ∧ C.OnAcquireSession = [])) ∧
    ((C.TLS = [] ∧ C.TLSConfig = none) ∨
      getTLSConfig reg C.TLS = .ok C.TLSConfig) ∧
    (∀ a ∈ C.HostAddresses, a.Port = DEFAULT_PORT ∨
      ∃ t, convertToTCPPort t = .ok a.Port) := by
  unfold parseConnBody at h
  cases e1 : urlParse s with
  | none => rw [e1] at h; cases h
  | some u =>
  rw [e1] at h
  obtain ⟨hsch, h⟩ := ite_error_ok h
  obtain ⟨timeout, hT, h⟩ := andThenE_ok h
  obtain ⟨idle, hI, h⟩ := andThenE_ok h
  obtain ⟨maxc, hMx, h⟩ := andThenE_ok h
  obtain ⟨minc, hMn, h⟩ := andThenE_ok h
  obtain ⟨maxis, hMi, h⟩ := andThenE_ok h
  obtain ⟨dp, hdp, h⟩ := andThenE_ok h
  obtain ⟨so, hso, h⟩ := andThenE_ok h
  obtain ⟨hostAddresses, hHA, h⟩ := andThenE_ok h
  obtain ⟨tc, htc, h⟩ := andThenE_ok h
  cases h
  refine ⟨?_, ?_, ?_, ?_⟩
  · refine mapM_except_ne_nil _ _ _ hHA ?_
    split
    · exact splitByte_ne_nil _ _
    · simp
  · by_cases hsp : removeFirstByte u.path 47 ≠ []
    · rw [if_pos hsp] at hso
      obtain ⟨uu, hval, hso⟩ := andThenE_ok hso
      cases hso
      cases uu
      exact Or.inl ⟨hsp, hval, rfl⟩
    · rw [if_neg hsp] at hso
      cases hso
      exact Or.inr ⟨rfl, rfl⟩
  · by_cases htl : queryGet (parseQueryPairs u.rawQuery) (gs "tls") ≠ []
    · rw [if_pos htl] at htc
      obtain ⟨c, hc, htc⟩ := andThenE_ok htc
      cases htc
      exact Or.inr hc
    · rw [if_neg htl] at htc
      cases htc
      exact Or.inl ⟨rfl, rfl⟩
  · intro a ha
    obtain ⟨t, -, hft⟩ := mapM_except_mem _ _ _ hHA a ha
    rcases parseHostToken_port hft with h1 | h2
    · subst h1
      by_cases hup : urlPort u ≠ []
      · rw [if_pos hup] at hdp
        exact Or.inr ⟨_, hdp⟩
      · rw [if_neg hup] at hdp
        exact Or.inl (Except.ok.inj hdp).symm
    · exact Or.inr h2

theorem parseConnectionString_ok_inv {reg : Registry} {s : GoStr}
    {canRetry : Bool} {C : ConnectionConfig}
    (h : parseConnectionString reg s canRetry = .ok C) :
    ∃ s', parseConnBody reg s' = .ok C := by
  unfold parseConnectionString at h
  split at h
  · exact ⟨_, h⟩
  · exact ⟨_, h⟩

theorem containsSub_nebula_prefixed (s : GoStr) :
    containsSub (NEBULA_SCHEME ++ protocolSeparator ++ s) protocolSeparator =
      true := by
  show containsSub ([110, 101, 98, 117, 108, 97] ++ [58, 47, 47] ++ s)
    [58, 47, 47] = true
  simp only [List.cons_append, List.nil_append]
  rw [containsSub]; simp only [startsWith]
  rw [containsSub]; simp only [startsWith]
  rw [containsSub]; simp only [startsWith]
  rw [containsSub]; simp only [startsWith]
  rw [containsSub]; simp only [startsWith]
  rw [containsSub]; simp only [startsWith]
  rw [containsSub]
  simp [startsWith]

/-! ## C10: the onAcquireSession template -/

/-- C10: whenever parsing succeeds with a non-empty space, the
`onAcquireSession` field is the one fixed literal `"USE %SPACE%;"`
(the `%SPACE%` macro is left unsubstituted at parse time, whatever the
space); with an empty space it is left empty. -/
theorem C10_onAcquireSession (reg : Registry) (s : GoStr)
    (C : ConnectionConfig) (h : parseConnectionString reg s true = .ok C) :
    (C.Space ≠ [] → C.OnAcquireSession = gs "USE %SPACE%;") ∧
    (C.Space = [] → C.OnAcquireSession = []) := by
  obtain ⟨s', h'⟩ := parseConnectionString_ok_inv h
  rcases (parseConnBody_ok_inv h').2.1 with ⟨hne, _, hacq⟩ | ⟨hsp, hacq⟩
  · exact ⟨fun _ => hacq, fun he => absurd he hne⟩
  · exact ⟨fun hne2 => absurd hsp hne2, fun _ => hacq⟩

/-- Witness for C10 at a concrete parse with a space. -/
theorem C10_witness :
    ({ HostAddresses := [{ Host := gs "h", Port := 9669 }],
       Space := gs "sp", OnAcquireSession := gs "USE %SPACE%;" } :
        ConnectionConfig).OnAcquireSession = gs "USE %SPACE%;" :=
  (C10_onAcquireSession [] (gs "nebula://h/sp")
    { HostAddresses := [{ Host := gs "h", Port := 9669 }],
      Space := gs "sp", OnAcquireSession := gs "USE %SPACE%;" }
    (by decide)).1 (by decide)

/-! ## C3 (amended): ports are resolved integers -/

/-- C3 (amended): every port in a successfully parsed configuration is
an integer that is either the default 9669 or the result of a
successful `convertToTCPPort`, which itself only succeeds through a
numeric parse or the service-name table — never an unresolved service
name.  (Positivity fails: ports can be zero or negative, see the
counterexample.) -/
theorem C3_ports_resolved (reg : Registry) (s : GoStr)
    (C : ConnectionConfig) (h : parseConnectionString reg s true = .ok C) :
    ∀ a ∈ C.HostAddresses, a.Port = DEFAULT_PORT ∨
      ∃ t, convertToTCPPort t = .ok a.Port ∧
        (atoi t = some a.Port ∨
         (atoi t = none ∧ netLookupPort t = some a.Port)) := by
  obtain ⟨s', h'⟩ := parseConnectionString_ok_inv h
  have hinv := (parseConnBody_ok_inv h').2.2.2
  intro a ha
  rcases hinv a ha with hdef | ⟨t, ht⟩
  · exact Or.inl hdef
  · refine Or.inr ⟨t, ht, ?_⟩
    unfold convertToTCPPort at ht
    cases e : atoi t with
    | some p =>
      rw [e] at ht
      exact Or.inl (congrArg some (Except.ok.inj ht))
    | none =>
      rw [e] at ht
      cases e2 : netLookupPort t with
      | some p =>
        rw [e2] at ht
        exact Or.inr ⟨rfl, congrArg some (Except.ok.inj ht)⟩
      | none => rw [e2] at ht; cases ht

/-- Witness for C3 (amended) at a concrete parse. -/
theorem C3_witness :
    (9001 : Int) = DEFAULT_PORT ∨
      ∃ t, convertToTCPPort t = .ok (9001 : Int) ∧
        (atoi t = some (9001 : Int) ∨
         (atoi t = none ∧ netLookupPort t = some (9001 : Int))) := by
  have h := C3_ports_resolved [] (gs "nebula://h:9001")
    { HostAddresses := [{ Host := gs "h", Port := 9001 }] } (by decide)
    { Host := gs "h", Port := 9001 } (by decide)
  exact h

/-! ## C4 (amended): scheme normalization and its failure modes -/

/-- C4 (amended): a string without `"://"` is parsed exactly as
`"nebula://" + s` is — and the normalization is applied exactly once
(both reduce to the parser body on the prefixed string, which is never
prefixed again).  `"myhost"` parses to host `myhost`, port 9669, no
credentials, no space.  A string containing `"://"` that URL-parses
with a scheme other than `nebula` fails with the scheme-mismatch error
and is never retried; one whose scheme part is not even valid URL
syntax fails with the malformed-URL error instead (this last case is
where the claim as stated fails). -/
theorem C4_scheme_normalization (reg : Registry) :
    (∀ s : GoStr, containsSub s protocolSeparator = false →
       parseConnectionString reg s true =
         parseConnBody reg (NEBULA_SCHEME ++ protocolSeparator ++ s) ∧
       parseConnectionString reg (NEBULA_SCHEME ++ protocolSeparator ++ s)
           true =
         parseConnBody reg (NEBULA_SCHEME ++ protocolSeparator ++ s)) ∧
    (parseConnectionString reg (gs "myhost") true =
       .ok { HostAddresses := [{ Host := gs "myhost", Port := 9669 }] }) ∧
    (∀ s u, containsSub s protocolSeparator = true → urlParse s = some u →
       u.scheme ≠ NEBULA_SCHEME →
       parseConnectionString reg s true = .error (.schemeMismatch u.scheme)) ∧
    (∀ s, containsSub s protocolSeparator = true → urlParse s = none →
       parseConnectionString reg s true = .error (.malformedURL s)) := by
  refine ⟨?_, ?_, ?_, ?_⟩
  · intro s hs
    constructor
    · unfold parseConnectionString
      rw [if_pos ⟨rfl, fun hcon => by simp [hs] at hcon⟩]
    · unfold parseConnectionString
      rw [if_neg (fun hc => hc.2 (containsSub_nebula_prefixed s))]
  · rfl
  · intro s u hs hu hsch
    unfold parseConnectionString
    rw [if_neg (fun hc => hc.2 hs)]
    unfold parseConnBody
    rw [hu]
    simp [hsch]
  · intro s hs hu
    unfold parseConnectionString
    rw [if_neg (fun hc => hc.2 hs)]
    unfold parseConnBody
    rw [hu]

/-- Witness for C4 (amended) at concrete inputs. -/
theorem C4_witness :
    parseConnectionString [] (gs "myhost") true =
      parseConnBody [] (NEBULA_SCHEME ++ protocolSeparator ++ gs "myhost") ∧
    parseConnectionString [] (gs "bad://x") true =
      .error (.schemeMismatch (gs "bad")) :=
  ⟨((C4_scheme_normalization []).1 (gs "myhost") (by decide)).1,
   (C4_scheme_normalization []).2.2.1 (gs "bad://x")
     { scheme := gs "bad", host := gs "x" } (by decide) (by decide)
     (by decide)⟩

/-! ## C2: the concrete multi-host example -/

/-- C2: parsing `"nebula://alice:secret@h1:9001,h2:9002/mygraph?timeout=2s"`
succeeds with hosts `{h1,9001}`, `{h2,9002}` in order, username `alice`,
password `secret`, space `mygraph`, pool timeout 2s (2·10⁹ ns), and a
non-empty `onAcquireSession` template. -/
theorem C2_concrete_parse :
    parseConnectionString []
        (gs "nebula://alice:secret@h1:9001,h2:9002/mygraph?timeout=2s") true =
      .ok { HostAddresses := [{ Host := gs "h1", Port := 9001 },
                              { Host := gs "h2", Port := 9002 }],
            poolConfig := { TimeOut := 2000000000, IdleTime := 0,
                            MaxConnPoolSize := 10, MinConnPoolSize := 0 },
            sessionPoolConfig := { MaxIdleSessionPoolSize := 0 },
            Username := gs "alice", Password := gs "secret",
            Space := gs "mygraph", TLS := [], TLSConfig := none,
            OnAcquireSession := gs "USE %SPACE%;" } ∧
    gs "USE %SPACE%;" ≠ [] := by decide

/-! ## C7: the TLS profile registry contract -/

/-- C7 fails as stated: registering the empty key does not produce the
reserved-key error; it produces the distinct missing-key error. -/
theorem C7_counterexample :
    RegisterTLSConfig [] [] { insecureSkipVerify := false } =
      .error .missingKey ∧
    ∀ k : GoStr, GoErr.missingKey = GoErr.reservedKey k → False :=
  ⟨by decide, fun _ h => by cases h⟩

/-- C7 (amended): `Register` fails with the reserved-key error exactly
for the five literal tokens, with the distinct missing-key error exactly
for the empty key, and otherwise succeeds, storing the settings under
the key (replacing any prior entry and leaving other keys untouched);
looking up an absent key fails with the profile-not-found error carrying
that key. -/
theorem C7_registry_contract (reg : Registry) (key : GoStr) (c : TLSConf) :
    (RegisterTLSConfig reg key c = .error (.reservedKey key) ↔
       key ∈ [gs "true", gs "false", gs "0", gs "1", gs "skip-verify"]) ∧
    (RegisterTLSConfig reg key c = .error .missingKey ↔ key = []) ∧
    (key ≠ [] →
     key ∉ [gs "true", gs "false", gs "0", gs "1", gs "skip-verify"] →
       RegisterTLSConfig reg key c = .ok (regSet reg key c) ∧
       regLookup (regSet reg key c) key = some c ∧
       ∀ k', k' ≠ key → regLookup (regSet reg key c) k' = regLookup reg k') ∧
    (∀ k, regLookup reg k = none →
       getTLSConfigFromRegistry reg k = .error (.profileNotFound k)) := by
  refine ⟨?_, ?_, ?_, ?_⟩
  · by_cases h0 : key = []
    · subst h0
      have hr : RegisterTLSConfig reg [] c = .error .missingKey := by
        simp [RegisterTLSConfig, throw_eq_error]
      rw [hr]; decide
    · by_cases h5 : key = gs "true" ∨ key = gs "false" ∨ key = gs "0" ∨
          key = gs "1" ∨ key = gs "skip-verify"
      · simp only [RegisterTLSConfig, if_neg h0, if_pos h5, throw_eq_error]
        rcases h5 with h | h | h | h | h <;> simp [h]
      · push_neg at h5
        simp [RegisterTLSConfig, h0, h5.1, h5.2.1, h5.2.2.1, h5.2.2.2.1,
              h5.2.2.2.2]
  · by_cases h0 : key = []
    · subst h0; simp [RegisterTLSConfig, throw_eq_error]
    · by_cases h5 : key = gs "true" ∨ key = gs "false" ∨ key = gs "0" ∨
          key = gs "1" ∨ key = gs "skip-verify"
      · rcases h5 with h | h | h | h | h <;> subst h <;>
          simp [RegisterTLSConfig, throw_eq_error]
      · push_neg at h5
        simp [RegisterTLSConfig, h0, h5.1, h5.2.1, h5.2.2.1, h5.2.2.2.1,
              h5.2.2.2.2]
  · intro h0 h5
    simp only [List.mem_cons, List.mem_singleton, not_or] at h5
    obtain ⟨h1, h2, h3, h4, h5'⟩ := h5
    refine ⟨by simp [RegisterTLSConfig, h0, h1, h2, h3, h4, h5', tlsClone],
      regLookup_regSet_self reg key c,
      fun k' hk => regLookup_regSet_other reg key k' c hk⟩
  · intro k hk
    simp [getTLSConfigFromRegistry, hk, throw_eq_error]

/-- Witness for C7 (amended) at a concrete key and registry. -/
theorem C7_registry_contract_witness :
    RegisterTLSConfig [] (gs "custom") { insecureSkipVerify := true } =
      .ok (regSet [] (gs "custom") { insecureSkipVerify := true }) ∧
    regLookup (regSet [] (gs "custom") { insecureSkipVerify := true })
      (gs "custom") = some { insecureSkipVerify := true } := by
  have h := (C7_registry_contract [] (gs "custom")
    { insecureSkipVerify := true }).2.2.1 (by decide) (by decide)
  exact ⟨h.1, h.2.1⟩

/-! ## C8: `skip-verify` resolution is registry-independent -/

/-- C8: resolving `"skip-verify"` yields TLS settings with certificate
verification disabled; all five literal modes resolve without consulting
the registry (the result is the same for any two registry states); and
parsing `"nebula://host?tls=skip-verify"` under any registry yields that
same verification-disabled configuration. -/
theorem C8_skip_verify_registry_independent :
    (∀ reg : Registry,
       getTLSConfig reg (gs "skip-verify") =
         .ok (some { insecureSkipVerify := true })) ∧
    (∀ reg reg' : Registry, ∀ m : GoStr,
       m ∈ [gs "false", gs "0", gs "true", gs "1", gs "skip-verify"] →
       getTLSConfig reg m = getTLSConfig reg' m) ∧
    (∀ reg : Registry,
       parseConnectionString reg (gs "nebula://host?tls=skip-verify") true =
         .ok { HostAddresses := [{ Host := gs "host", Port := 9669 }],
               TLS := gs "skip-verify",
               TLSConfig := some { insecureSkipVerify := true } }) := by
  refine ⟨fun reg => rfl, ?_, fun reg => rfl⟩
  intro reg reg' m hm
  simp only [List.mem_cons, List.not_mem_nil, or_false] at hm
  rcases hm with h | h | h | h | h <;> subst h <;> rfl

/-- Witness for C8 at two concrete, different registries. -/
theorem C8_witness :
    getTLSConfig [(gs "prof", { insecureSkipVerify := false })] (gs "true") =
      getTLSConfig [] (gs "true") :=
  C8_skip_verify_registry_independent.2.1
    [(gs "prof", { insecureSkipVerify := false })] [] (gs "true") (by decide)

/-! ## C5 (amended): host/port rendering -/

/-- C5 (amended): with a non-empty host list, if at least two hosts have
different ports each host is rendered with `net.JoinHostPort` (which
brackets any host containing a colon) inside one pair of brackets with
no shared trailing port; if every host shares the first host's port and
there is more than one host, the compact `[h1,...]:port` form is used;
a single host is rendered with `net.JoinHostPort`, i.e. as plain
`host:port` without brackets exactly when the host contains no colon. -/
theorem hostPortOfConfig_cons (cfg : ConnectionConfig) (a : HostAddress)
    (tl : List HostAddress) (hH : cfg.HostAddresses = a :: tl) :
    hostPortOfConfig cfg =
      if ((a :: tl).any fun hp => decide (hp.Port ≠ a.Port)) = true then
        [91] ++ List.intercalate [44]
          ((a :: tl).map (fun hp => netJoinHostPort hp.Host (itoa hp.Port)))
          ++ [93]
      else if (a :: tl).length > 1 then
        [91] ++ List.intercalate [44] ((a :: tl).map (·.Host)) ++ [93, 58] ++
          itoa a.Port
      else netJoinHostPort a.Host (itoa a.Port) := by
  unfold hostPortOfConfig
  rw [hH]

theorem C5_hostport_rendering (cfg : ConnectionConfig) (a : HostAddress)
    (tl : List HostAddress) (hH : cfg.HostAddresses = a :: tl) :
    ((∃ b ∈ cfg.HostAddresses, b.Port ≠ a.Port) →
       hostPortOfConfig cfg =
         [91] ++ List.intercalate [44]
           (cfg.HostAddresses.map
             (fun hp => netJoinHostPort hp.Host (itoa hp.Port))) ++ [93]) ∧
    ((∀ b ∈ cfg.HostAddresses, b.Port = a.Port) → tl ≠ [] →
       hostPortOfConfig cfg =
         [91] ++ List.intercalate [44] (cfg.HostAddresses.map (·.Host)) ++
           [93, 58] ++ itoa a.Port) ∧
    (tl = [] →
       hostPortOfConfig cfg = netJoinHostPort a.Host (itoa a.Port) ∧
       (containsByte a.Host 58 = false →
          hostPortOfConfig cfg = a.Host ++ [58] ++ itoa a.Port)) := by
  have hred := hostPortOfConfig_cons cfg a tl hH
  refine ⟨?_, ?_, ?_⟩
  · intro ⟨b, hb, hbp⟩
    rw [hred, if_pos ?_, hH]
    exact List.any_eq_true.mpr ⟨b, hH ▸ hb, by simpa using hbp⟩
  · intro hall htl
    rw [hred, if_neg ?_, if_pos ?_, hH]
    · cases tl with
      | nil => exact absurd rfl htl
      | cons x xs => simp only [List.length_cons]; omega
    · refine fun hcon => ?_
      obtain ⟨b, hb, hbp⟩ := List.any_eq_true.mp hcon
      exact absurd (hall b (hH ▸ hb)) (of_decide_eq_true hbp)
  · intro htl
    subst htl
    have h1 : hostPortOfConfig cfg = netJoinHostPort a.Host (itoa a.Port) := by
      rw [hred, if_neg (by simp), if_neg (by simp)]
    refine ⟨h1, fun hcol => ?_⟩
    rw [h1]
    unfold netJoinHostPort
    rw [if_neg (by simp [hcol])]

/-- Witness for C5 (amended) at concrete configurations. -/
theorem C5_witness :
    hostPortOfConfig
        { HostAddresses := [{ Host := gs "h1", Port := 9669 },
                            { Host := gs "h2", Port := 9669 }] } =
      [91] ++ List.intercalate [44]
        (([{ Host := gs "h1", Port := (9669 : Int) },
           { Host := gs "h2", Port := 9669 }] :
            List HostAddress).map (·.Host)) ++ [93, 58] ++ itoa 9669 :=
  (C5_hostport_rendering
    { HostAddresses := [{ Host := gs "h1", Port := 9669 },
                        { Host := gs "h2", Port := 9669 }] }
    { Host := gs "h1", Port := 9669 } [{ Host := gs "h2", Port := 9669 }]
    rfl).2.1 (by decide) (by decide)

/-! ## C6: minimal query emission -/

set_option maxHeartbeats 2000000 in
/-- C6: each of the five tuning query parameters appears among the
serializer's query values exactly when the configuration value differs
from the system default used at parse start; the `tls` parameter
appears exactly when the TLS mode string is non-empty, and then carries
it verbatim. -/
theorem C6_query_emission (cfg : ConnectionConfig) :
    ((∃ v, (gs "timeout", v) ∈ queryOfConfig cfg) ↔
       cfg.poolConfig.TimeOut ≠ GetDefaultConf.TimeOut) ∧
    ((∃ v, (gs "idle_time", v) ∈ queryOfConfig cfg) ↔
       cfg.poolConfig.IdleTime ≠ GetDefaultConf.IdleTime) ∧
    ((∃ v, (gs "max_conn_pool_size", v) ∈ queryOfConfig cfg) ↔
       cfg.poolConfig.MaxConnPoolSize ≠ GetDefaultConf.MaxConnPoolSize) ∧
    ((∃ v, (gs "min_conn_pool_size", v) ∈ queryOfConfig cfg) ↔
       cfg.poolConfig.MinConnPoolSize ≠ GetDefaultConf.MinConnPoolSize) ∧
    ((∃ v, (gs "max_idle_session_pool_size", v) ∈ queryOfConfig cfg) ↔
       cfg.sessionPoolConfig.MaxIdleSessionPoolSize ≠
         GetDefaultSessionPoolConfig.MaxIdleSessionPoolSize) ∧
    ((∃ v, (gs "tls", v) ∈ queryOfConfig cfg) ↔ cfg.TLS ≠ []) ∧
    (cfg.TLS ≠ [] → (gs "tls", cfg.TLS) ∈ queryOfConfig cfg) := by
  unfold queryOfConfig
  split_ifs <;> simp_all +decide [Prod.ext_iff]

/-- Witness for C6 at a concrete configuration. -/
theorem C6_witness :
    (∃ v, (gs "timeout", v) ∈
      queryOfConfig { poolConfig := { TimeOut := 5, IdleTime := 0,
                                      MaxConnPoolSize := 10,
                                      MinConnPoolSize := 0 } }) :=
  (C6_query_emission
    { poolConfig := { TimeOut := 5, IdleTime := 0, MaxConnPoolSize := 10,
                      MinConnPoolSize := 0 } }).1.mpr (by decide)

/-! ## Counterexamples for C1, C3, C4, C5, C9 -/

/-- C1 fails as stated: `"nebula://:pw@h"` parses successfully to a
configuration with empty username and password `"pw"`, but serializing
drops the credentials entirely, so re-parsing yields an empty password. -/
theorem C1_counterexample :
    (parseConnectionString [] (gs "nebula://:pw@h") true).toOption.map
        (fun C => C.Password) = some (gs "pw") ∧
    ((parseConnectionString [] (gs "nebula://:pw@h") true).toOption.bind
        (fun C => (parseConnectionString [] (configString C) true).toOption.map
          (fun C' => C'.Password))) = some [] := by decide

/-- C3 fails as stated: `"nebula://h:0"` parses successfully and the
resulting port is `0`, which is not positive. -/
theorem C3_counterexample :
    parseConnectionString [] (gs "nebula://h:0") true =
      .ok { HostAddresses := [{ Host := gs "h", Port := 0 }] } ∧
    ¬ ((0 : Int) > 0) := by decide

/-- C4 fails as stated: `"1bad://x"` contains the separator and its
scheme is not `nebula`, yet parsing fails with the malformed-URL error
(the scheme part is not valid URL syntax), not with a scheme-mismatch
error. -/
theorem C4_counterexample :
    containsSub (gs "1bad://x") protocolSeparator = true ∧
    parseConnectionString [] (gs "1bad://x") true =
      .error (.malformedURL (gs "1bad://x")) ∧
    ∀ sch : GoStr, GoErr.malformedURL (gs "1bad://x") = .schemeMismatch sch →
      False :=
  ⟨by decide, by decide, fun _ h => by cases h⟩

/-- C5 fails as stated: a single IPv6-style host is not rendered as
plain `host:port`; `net.JoinHostPort` adds brackets around any host
containing a colon. -/
theorem C5_counterexample :
    hostPortOfConfig { HostAddresses := [{ Host := gs "::1", Port := 9669 }] } =
      gs "[::1]:9669" ∧
    gs "[::1]:9669" ≠ gs "::1" ++ [58] ++ itoa 9669 := by decide

/-- C9 fails as stated: with username `alice` and password `secret`, a
configuration whose host is also the string `secret` yields a redacted
rendering that still contains `secret`. -/
theorem C9_counterexample :
    containsSub
      (Redacted { HostAddresses := [{ Host := gs "secret", Port := 9669 }],
                  Username := gs "alice", Password := gs "secret" })
      (gs "secret") = true := by decide

end NebulaGo

/-! ## Serialization byte-level lemmas and the redaction theorem -/

namespace NebulaGo

theorem containsSub_nil (pat : GoStr) :
    containsSub [] pat = startsWith [] pat := by
  rw [containsSub.eq_def]
  cases e : startsWith [] pat with
  | true => simp [e]
  | false => simp [e]

theorem containsSub_cons (x : Nat) (xs pat : GoStr) :
    containsSub (x :: xs) pat =
      (startsWith (x :: xs) pat || containsSub xs pat) := by
  rw [containsSub.eq_def]
  cases e : startsWith (x :: xs) pat with
  | true => simp [e]
  | false => simp [e]

theorem startsWith_ex : ∀ {pat s : GoStr},
    startsWith s pat = true ↔ ∃ r, s = pat ++ r := by
  intro pat
  induction pat with
  | nil => intro s; simp [startsWith]
  | cons p ps ih =>
    intro s
    cases s with
    | nil => simp [startsWith]
    | cons x xs =>
      simp only [startsWith, Bool.and_eq_true, decide_eq_true_eq, ih,
        List.cons_append]
      constructor
      · rintro ⟨rfl, r, rfl⟩; exact ⟨r, rfl⟩
      · rintro ⟨r, he⟩
        injection he with h1 h2
        exact ⟨h1, r, h2⟩

theorem containsSub_ex : ∀ {s pat : GoStr},
    containsSub s pat = true ↔ ∃ l r, s = l ++ (pat ++ r) := by
  intro s
  induction s with
  | nil =>
    intro pat
    rw [containsSub_nil, startsWith_ex]
    constructor
    · rintro ⟨r, hr⟩; exact ⟨[], r, by simpa using hr⟩
    · rintro ⟨l, r, he⟩
      rw [List.nil_eq, List.append_eq_nil] at he
      obtain ⟨rfl, he2⟩ := he
      rw [List.append_eq_nil] at he2
      exact ⟨[], by simp [he2.1, he2.2]⟩
  | cons x xs ih =>
    intro pat
    rw [containsSub_cons, Bool.or_eq_true, startsWith_ex, ih]
    constructor
    · rintro (⟨r, hr⟩ | ⟨l, r, hr⟩)
      · exact ⟨[], r, by simpa using hr⟩
      · exact ⟨x :: l, r, by simp [hr]⟩
    · rintro ⟨l, r, he⟩
      cases l with
      | nil => exact Or.inl ⟨r, by simpa using he⟩
      | cons y l2 =>
        injection he with h1 h2
        exact Or.inr ⟨l2, r, h2⟩

theorem containsSub_of_parts (l pat r : GoStr) :
    containsSub (l ++ (pat ++ r)) pat = true :=
  containsSub_ex.mpr ⟨l, r, rfl⟩

theorem mem_of_containsSub {s pat : GoStr}
    (h : containsSub s pat = true) : ∀ c ∈ pat, c ∈ s := by
  obtain ⟨l, r, rfl⟩ := containsSub_ex.mp h
  intro c hc
  simp [hc]

/-- If some byte of the pattern does not occur in `s`, then `s` cannot
contain the pattern. -/
theorem not_containsSub_of_missing_byte {s pat : GoStr} {c : Nat}
    (hc : c ∈ pat) (hs : c ∉ s) : containsSub s pat = false := by
  cases e : containsSub s pat with
  | false => rfl
  | true => exact absurd (mem_of_containsSub e c hc) hs

theorem pat_through_append : ∀ (pat a : GoStr) {b r : GoStr} {c : Nat},
    a ++ c :: b = pat ++ r → c ∉ pat → ∃ t, a = pat ++ t := by
  intro pat
  induction pat with
  | nil => intro a _ _ _ _ _; exact ⟨a, rfl⟩
  | cons p ps ih =>
    intro a b r c he hc
    cases a with
    | nil =>
      simp only [List.nil_append, List.cons_append, List.cons.injEq] at he
      exact absurd (he.1 ▸ List.mem_cons_self p ps) hc
    | cons x xs =>
      simp only [List.cons_append, List.cons.injEq] at he
      obtain ⟨rfl, he2⟩ := he
      obtain ⟨t, ht⟩ := ih xs he2 (fun hm => hc (List.mem_cons_of_mem _ hm))
      exact ⟨t, by simp [ht]⟩

/-- Containment elimination across a separator byte that does not occur
in the pattern. -/
theorem containsSub_append_sep {pat : GoStr} {c : Nat} (hpat : pat ≠ [])
    (hc : c ∉ pat) :
    ∀ {a b : GoStr}, containsSub (a ++ c :: b) pat = true →
      containsSub a pat = true ∨ containsSub b pat = true := by
  intro a b h
  obtain ⟨l, r, he⟩ := containsSub_ex.mp h
  rcases List.append_eq_append_iff.mp he with ⟨l2, hl2, hr2⟩ | ⟨l2, hl2, hr2⟩
  · -- l = a ++ l2, so the occurrence lies after the separator
    cases l2 with
    | nil =>
      -- c :: b = pat ++ r with c ∉ pat: pat would start with c
      cases pat with
      | nil => exact absurd rfl hpat
      | cons p ps =>
        simp only [List.nil_append] at hr2
        injection hr2 with h1 h2
        exact absurd (h1 ▸ List.mem_cons_self p ps) hc
    | cons y l3 =>
      injection hr2 with h1 h2
      exact Or.inr (containsSub_ex.mpr ⟨l3, r, h2⟩)
  · -- a = l ++ l2 and l2 ++ (c :: b) = pat ++ r
    obtain ⟨t, ht⟩ := pat_through_append pat l2 (by simpa using hr2.symm) hc
    exact Or.inl (containsSub_ex.mpr ⟨l, t, by simp [hl2, ht]⟩)

end NebulaGo

namespace NebulaGo

theorem containsSub_nil_pat {pat : GoStr} (h : pat ≠ []) :
    containsSub [] pat = false := by
  rw [containsSub_nil]
  cases pat with
  | nil => exact absurd rfl h
  | cons p ps => rfl

theorem intercalate_cons₂ (sep a b : GoStr) (t : List GoStr) :
    List.intercalate sep (a :: b :: t) =
      a ++ sep ++ List.intercalate sep (b :: t) := by
  simp [List.intercalate, List.intersperse]

theorem containsSub_intercalate {pat : GoStr} {c : Nat} (hpat : pat ≠ [])
    (hc : c ∉ pat) :
    ∀ (ps : List GoStr),
      containsSub (List.intercalate [c] ps) pat = true →
        ∃ p ∈ ps, containsSub p pat = true := by
  intro ps
  induction ps with
  | nil =>
    intro h
    rw [show List.intercalate [c] [] = [] by simp [List.intercalate],
      containsSub_nil_pat hpat] at h
    cases h
  | cons a t ih =>
    intro h
    cases t with
    | nil =>
      rw [show List.intercalate [c] [a] = a by simp [List.intercalate]] at h
      exact ⟨a, by simp, h⟩
    | cons b t2 =>
      rw [intercalate_cons₂] at h
      rw [List.append_assoc] at h
      rcases containsSub_append_sep hpat hc h with h1 | h1
      · exact ⟨a, by simp, h1⟩
      · obtain ⟨p, hp, hcp⟩ := ih h1
        exact ⟨p, List.mem_cons_of_mem _ hp, hcp⟩

theorem escapeWith_plain {mode : EncMode} : ∀ {s : GoStr},
    (∀ c ∈ s, shouldEsc c mode = false) → escapeWith mode s = s := by
  intro s
  induction s with
  | nil => intro _; rfl
  | cons x xs ih =>
    intro h
    have hx := h x (by simp)
    simp only [escapeWith, List.flatMap_cons, hx, Bool.false_eq_true,
      if_false, List.singleton_append]
    congr 1
    exact ih (fun c hcm => h c (List.mem_cons_of_mem _ hcm))

theorem natDigitsAux_bytes : ∀ (fuel n : Nat), ∀ b ∈ natDigitsAux fuel n,
    isDigit b = true := by
  intro fuel
  induction fuel with
  | zero => intro n b hb; cases hb
  | succ f ih =>
    intro n b hb
    unfold natDigitsAux at hb
    split at hb
    · rename_i hn
      simp only [List.mem_singleton] at hb
      subst hb
      simp only [isDigit, Bool.and_eq_true, decide_eq_true_eq]
      omega
    · rename_i hn
      rcases List.mem_append.mp hb with h1 | h1
      · exact ih _ b h1
      · simp only [List.mem_singleton] at h1
        subst h1
        simp only [isDigit, Bool.and_eq_true, decide_eq_true_eq]
        have := Nat.mod_lt n (show 0 < 10 by omega)
        omega

theorem natDigits_bytes (n : Nat) : ∀ b ∈ natDigits n, isDigit b = true :=
  natDigitsAux_bytes (n + 1) n

theorem itoa_bytes (p : Int) : ∀ b ∈ itoa p, isDigit b = true ∨ b = 45 := by
  intro b hb
  unfold itoa at hb
  split at hb
  · rcases List.mem_cons.mp hb with h1 | h1
    · exact Or.inr h1
    · exact Or.inl (natDigits_bytes _ b h1)
  · exact Or.inl (natDigits_bytes _ b hb)

theorem fmtFracAux_bytes : ∀ (prec v : Nat) (pr : Bool),
    ∀ b ∈ (fmtFracAux prec v pr).1, isDigit b = true := by
  intro prec
  induction prec with
  | zero => intro v pr b hb; cases hb
  | succ f ih =>
    intro v pr b hb
    unfold fmtFracAux at hb
    simp only at hb
    split at hb
    · rcases List.mem_append.mp hb with h1 | h1
      · exact ih _ _ b h1
      · simp only [List.mem_singleton] at h1
        subst h1
        simp only [isDigit, Bool.and_eq_true, decide_eq_true_eq]
        have := Nat.mod_lt v (show 0 < 10 by omega)
        omega
    · exact ih _ _ b hb

theorem fmtFrac_bytes (v prec : Nat) :
    ∀ b ∈ (fmtFrac v prec).1, isDigit b = true ∨ b = 46 := by
  intro b hb
  unfold fmtFrac at hb
  simp only at hb
  split at hb
  · rcases List.mem_cons.mp hb with h1 | h1
    · exact Or.inr h1
    · exact Or.inl (fmtFracAux_bytes _ _ _ b h1)
  · exact Or.inl (fmtFracAux_bytes _ _ _ b hb)

/-- The bytes a rendered duration can use: digits, `-`, `.`, `n`, `s`,
`m`, `h`, and the two bytes of `µ`. -/
theorem durString_bytes (d : Int) : ∀ b ∈ durString d,
    isDigit b = true ∨ b ∈ [45, 46, 110, 115, 109, 104, 194, 181] := by
  have hApp : ∀ {A B : GoStr},
      (∀ x ∈ A, isDigit x = true ∨ x ∈ [45, 46, 110, 115, 109, 104, 194, 181]) →
      (∀ x ∈ B, isDigit x = true ∨ x ∈ [45, 46, 110, 115, 109, 104, 194, 181]) →
      ∀ x ∈ A ++ B, isDigit x = true ∨ x ∈ [45, 46, 110, 115, 109, 104, 194, 181] := by
    intro A B hA hB x hx
    rcases List.mem_append.mp hx with h | h
    exacts [hA x h, hB x h]
  have hD : ∀ (n : Nat), ∀ x ∈ natDigits n,
      isDigit x = true ∨ x ∈ [45, 46, 110, 115, 109, 104, 194, 181] :=
    fun n x hx => Or.inl (natDigits_bytes n x hx)
  have hF : ∀ (u p : Nat), ∀ x ∈ (fmtFrac u p).1,
      isDigit x = true ∨ x ∈ [45, 46, 110, 115, 109, 104, 194, 181] := by
    intro u p x hx
    rcases fmtFrac_bytes u p x hx with h | h
    · exact Or.inl h
    · exact Or.inr (by simp [h])
  have hsec : ∀ x ∈ natDigits ((fmtFrac d.natAbs 9).2 % 60) ++
      (fmtFrac d.natAbs 9).1 ++ [115],
      isDigit x = true ∨ x ∈ [45, 46, 110, 115, 109, 104, 194, 181] :=
    hApp (hApp (hD _) (hF _ _)) (by decide)
  have hmin : ∀ x ∈ natDigits (((fmtFrac d.natAbs 9).2 / 60) % 60) ++ [109] ++
      (natDigits ((fmtFrac d.natAbs 9).2 % 60) ++
        (fmtFrac d.natAbs 9).1 ++ [115]),
      isDigit x = true ∨ x ∈ [45, 46, 110, 115, 109, 104, 194, 181] :=
    hApp (hApp (hD _) (by decide)) hsec
  have hBody : ∀ x ∈ (if d.natAbs < 1000000000 then
      (natDigits (fmtFrac d.natAbs
          (if d.natAbs < 1000 then ((0 : Nat), gs "ns")
           else if d.natAbs < 1000000 then (3, [0xC2, 0xB5, 115])
           else (6, gs "ms")).1).2 ++
        (fmtFrac d.natAbs
          (if d.natAbs < 1000 then ((0 : Nat), gs "ns")
           else if d.natAbs < 1000000 then (3, [0xC2, 0xB5, 115])
           else (6, gs "ms")).1).1 ++
        (if d.natAbs < 1000 then ((0 : Nat), gs "ns")
         else if d.natAbs < 1000000 then (3, [0xC2, 0xB5, 115])
         else (6, gs "ms")).2)
    else
      (if (fmtFrac d.natAbs 9).2 / 60 = 0 then
        natDigits ((fmtFrac d.natAbs 9).2 % 60) ++
          (fmtFrac d.natAbs 9).1 ++ [115]
      else if (fmtFrac d.natAbs 9).2 / 60 / 60 = 0 then
        natDigits (((fmtFrac d.natAbs 9).2 / 60) % 60) ++ [109] ++
          (natDigits ((fmtFrac d.natAbs 9).2 % 60) ++
            (fmtFrac d.natAbs 9).1 ++ [115])
      else
        natDigits ((fmtFrac d.natAbs 9).2 / 60 / 60) ++ [104] ++
          (natDigits (((fmtFrac d.natAbs 9).2 / 60) % 60) ++ [109] ++
            (natDigits ((fmtFrac d.natAbs 9).2 % 60) ++
              (fmtFrac d.natAbs 9).1 ++ [115])))),
      isDigit x = true ∨ x ∈ [45, 46, 110, 115, 109, 104, 194, 181] := by
    intro x hx
    split at hx
    · refine hApp (hApp (hD _) (hF _ _)) ?_ x hx
      by_cases h1 : d.natAbs < 1000 <;> by_cases h2 : d.natAbs < 1000000 <;>
        simp only [h1, h2, if_true, if_false] <;> decide
    · split at hx
      · exact hsec x hx
      · split at hx
        · exact hmin x hx
        · exact hApp (hApp (hD _) (by decide)) hmin x hx
  intro b hb
  unfold durString at hb
  simp only [] at hb
  split at hb
  · have hb2 : b ∈ ([48, 115] : GoStr) := hb
    rcases List.mem_cons.mp hb2 with h | h
    · subst h; simp [isDigit]
    · simp only [List.mem_singleton] at h; subst h; simp
  · split at hb
    · rcases List.mem_cons.mp hb with h1 | h1
      · subst h1; simp
      · exact hBody b h1
    · exact hBody b hb

end NebulaGo

namespace NebulaGo

theorem mem_intercalate {c : Nat} : ∀ {ps : List GoStr} {x : Nat},
    x ∈ List.intercalate [c] ps → x = c ∨ ∃ p ∈ ps, x ∈ p := by
  intro ps
  induction ps with
  | nil => intro x hx; rw [show List.intercalate [c] [] = [] by simp [List.intercalate]] at hx; cases hx
  | cons a t ih =>
    intro x hx
    cases t with
    | nil =>
      rw [show List.intercalate [c] [a] = a by simp [List.intercalate]] at hx
      exact Or.inr ⟨a, by simp, hx⟩
    | cons b t2 =>
      rw [intercalate_cons₂] at hx
      rcases List.mem_append.mp hx with h1 | h1
      · rcases List.mem_append.mp h1 with h2 | h2
        · exact Or.inr ⟨a, by simp, h2⟩
        · simp only [List.mem_singleton] at h2; exact Or.inl h2
      · rcases ih h1 with h2 | ⟨p, hp, hxp⟩
        · exact Or.inl h2
        · exact Or.inr ⟨p, List.mem_cons_of_mem _ hp, hxp⟩

theorem plainHostByte_facts {b : Nat} (h : plainHostByte b = true) :
    shouldEsc b .host = false ∧ b ≠ 91 ∧ b ≠ 93 ∧ b ≠ 58 ∧ b ≠ 44 := by
  simp only [plainHostByte, Bool.and_eq_true, Bool.not_eq_true',
    List.mem_cons, List.mem_singleton, decide_eq_false_iff_not, not_or,
    List.not_mem_nil, or_false] at h
  exact ⟨h.1, h.2.1, h.2.2.1, h.2.2.2.1, h.2.2.2.2⟩

theorem itoa_host_plain (p : Int) : ∀ b ∈ itoa p, shouldEsc b .host = false := by
  intro b hb
  rcases itoa_bytes p b hb with h | h
  · simp only [isDigit, Bool.and_eq_true, decide_eq_true_eq] at h
    simp [shouldEsc, isAlphaNum, isAlpha, isDigit]
    omega
  · subst h; decide

theorem netJoinHostPort_bytes_plain {h : GoStr} {p : Int}
    (hh : ∀ b ∈ h, plainHostByte b = true) :
    ∀ b ∈ netJoinHostPort h (itoa p), shouldEsc b .host = false := by
  intro b hb
  unfold netJoinHostPort at hb
  split at hb
  · -- ((([91] ++ h) ++ [93, 58]) ++ itoa p)
    rcases List.mem_append.mp hb with h1 | h1
    · rcases List.mem_append.mp h1 with h2 | h2
      · rcases List.mem_append.mp h2 with h3 | h3
        · simp only [List.mem_singleton] at h3; subst h3; decide
        · exact (plainHostByte_facts (hh b h3)).1
      · rcases List.mem_cons.mp h2 with h3 | h3
        · subst h3; decide
        · simp only [List.mem_singleton] at h3; subst h3; decide
    · exact itoa_host_plain p b h1
  · -- ((h ++ [58]) ++ itoa p)
    rcases List.mem_append.mp hb with h1 | h1
    · rcases List.mem_append.mp h1 with h2 | h2
      · exact (plainHostByte_facts (hh b h2)).1
      · simp only [List.mem_singleton] at h2; subst h2; decide
    · exact itoa_host_plain p b h1

theorem hostPortOfConfig_nil (cfg : ConnectionConfig)
    (hH : cfg.HostAddresses = []) : hostPortOfConfig cfg = [] := by
  unfold hostPortOfConfig
  rw [hH]

theorem hostPortOfConfig_bytes (cfg : ConnectionConfig)
    (hhost : ∀ a ∈ cfg.HostAddresses, ∀ b ∈ a.Host, plainHostByte b = true) :
    ∀ b ∈ hostPortOfConfig cfg, shouldEsc b .host = false := by
  intro b hb
  cases e : cfg.HostAddresses with
  | nil => rw [hostPortOfConfig_nil cfg e] at hb; cases hb
  | cons first tail =>
  rw [hostPortOfConfig_cons cfg first tail e] at hb
  split at hb
  · -- (([91] ++ intercalate) ++ [93])
    rcases List.mem_append.mp hb with h1 | h1
    · rcases List.mem_append.mp h1 with h2 | h2
      · simp only [List.mem_singleton] at h2; subst h2; decide
      · rcases mem_intercalate h2 with h3 | ⟨piece, hpm, h3⟩
        · subst h3; decide
        · obtain ⟨hp2, hmem, rfl⟩ := List.mem_map.mp hpm
          exact netJoinHostPort_bytes_plain (hhost hp2 (e ▸ hmem)) b h3
    · simp only [List.mem_singleton] at h1; subst h1; decide
  · split at hb
    · -- ((([91] ++ intercalate hosts) ++ [93, 58]) ++ itoa port)
      rcases List.mem_append.mp hb with h1 | h1
      · rcases List.mem_append.mp h1 with h2 | h2
        · rcases List.mem_append.mp h2 with h3 | h3
          · simp only [List.mem_singleton] at h3; subst h3; decide
          · rcases mem_intercalate h3 with h4 | ⟨piece, hpm, h4⟩
            · subst h4; decide
            · obtain ⟨hp2, hmem, rfl⟩ := List.mem_map.mp hpm
              exact (plainHostByte_facts (hhost hp2 (e ▸ hmem) b h4)).1
        · rcases List.mem_cons.mp h2 with h3 | h3
          · subst h3; decide
          · simp only [List.mem_singleton] at h3; subst h3; decide
      · exact itoa_host_plain _ b h1
    · exact netJoinHostPort_bytes_plain
        (hhost first (e ▸ List.mem_cons_self first tail)) b hb

end NebulaGo

namespace NebulaGo

theorem containsByte_iff {s : GoStr} {c : Nat} :
    containsByte s c = true ↔ c ∈ s := by
  simp [containsByte, List.contains, List.elem_iff]

theorem spaceByte_path_plain {b : Nat} (h : spaceByteValid b = true) :
    shouldEsc b .path = false := by
  simp only [spaceByteValid, Bool.or_eq_true, decide_eq_true_eq] at h
  rcases h with h | h
  · simp [shouldEsc, h]
  · subst h; decide

theorem hostPortOfConfig_ne_nil (cfg : ConnectionConfig)
    (h : cfg.HostAddresses ≠ []) : hostPortOfConfig cfg ≠ [] := by
  cases e : cfg.HostAddresses with
  | nil => exact absurd e h
  | cons first tail =>
  rw [hostPortOfConfig_cons cfg first tail e]
  split
  · simp
  · split
    · simp
    · unfold netJoinHostPort
      split <;> simp

theorem path_escape_id (cfg : ConnectionConfig)
    (hsp : ∀ b ∈ cfg.Space, spaceByteValid b = true) :
    escapeWith .path (if cfg.Space ≠ [] then 47 :: cfg.Space else []) =
      (if cfg.Space ≠ [] then 47 :: cfg.Space else []) := by
  split
  · exact escapeWith_plain (fun c hc => by
      rcases List.mem_cons.mp hc with h | h
      · subst h; decide
      · exact spaceByte_path_plain (hsp c h))
  · rfl

/-- The serialized string of a configuration URL, in explicit
concatenated form, for any userinfo value (covers both `String` and
`Redacted`). -/
theorem configURL_string (cfg : ConnectionConfig) (user : Option Userinfo)
    (hhost : cfg.HostAddresses ≠ [])
    (hsp : ∀ b ∈ cfg.Space, spaceByteValid b = true) :
    urlString { toURI cfg with user := user } =
      gs "nebula://" ++
      (match user with
       | some ui => userinfoString ui ++ [64]
       | none => []) ++
      escapeWith .host (hostPortOfConfig cfg) ++
      (if cfg.Space ≠ [] then 47 :: cfg.Space else []) ++
      (if encodeValues (queryOfConfig cfg) ≠ [] then
         63 :: encodeValues (queryOfConfig cfg) else []) := by
  have hne := hostPortOfConfig_ne_nil cfg hhost
  have hpre : gs "nebula://" = gs "nebula" ++ [58, 47, 47] := by rfl
  unfold urlString toURI
  simp only []
  rw [if_pos (by decide : gs "nebula" ≠ ([] : GoStr))]
  rw [if_neg (by simp : ¬ (([] : GoStr) ≠ []))]
  rw [if_pos (Or.inl (by decide : gs "nebula" ≠ ([] : GoStr)))]
  rw [if_pos (Or.inl hne)]
  rw [if_pos hne]
  rw [path_escape_id cfg hsp, hpre]
  by_cases hs : cfg.Space = [] <;>
    by_cases hq : encodeValues (queryOfConfig cfg) = [] <;>
      cases user <;>
        simp [hs, hq, hne, List.append_assoc]

end NebulaGo

namespace NebulaGo

theorem containsSub_append_sep₂ {pat : GoStr} {c : Nat} (hpat : pat ≠ [])
    (hc : c ∉ pat) {a b : GoStr}
    (h : containsSub (a ++ [c] ++ b) pat = true) :
    containsSub a pat = true ∨ containsSub b pat = true := by
  rw [List.append_assoc, List.singleton_append] at h
  exact containsSub_append_sep hpat hc h

theorem containsSub_cons_elim {pat : GoStr} {c : Nat} (hpat : pat ≠ [])
    (hc : c ∉ pat) {b : GoStr} (h : containsSub (c :: b) pat = true) :
    containsSub b pat = true := by
  rcases containsSub_append_sep (a := []) hpat hc (by simpa using h) with h1 | h1
  · rw [containsSub_nil_pat hpat] at h1; cases h1
  · exact h1

theorem itoa_no_secret (p : Int) :
    containsSub (itoa p) (gs "secret") = false := by
  refine not_containsSub_of_missing_byte (c := 99) (by decide) ?_
  intro hm
  rcases itoa_bytes p 99 hm with h | h
  · exact absurd h (by decide)
  · cases h

theorem durString_no_secret (d : Int) :
    containsSub (durString d) (gs "secret") = false := by
  refine not_containsSub_of_missing_byte (c := 99) (by decide) ?_
  intro hm
  rcases durString_bytes d 99 hm with h | h
  · exact absurd h (by decide)
  · simp at h

theorem netJoinHostPort_no_secret {h : GoStr} {p : Int}
    (hplain : ∀ b ∈ h, plainHostByte b = true)
    (hns : containsSub h (gs "secret") = false) :
    containsSub (netJoinHostPort h (itoa p)) (gs "secret") = false := by
  have h58 : containsByte h 58 = false := by
    cases e : containsByte h 58 with
    | false => rfl
    | true =>
      exact absurd rfl (plainHostByte_facts
        (hplain 58 (containsByte_iff.mp e))).2.2.2.1
  unfold netJoinHostPort
  rw [if_neg (by simp [h58])]
  cases e : containsSub (h ++ [58] ++ itoa p) (gs "secret") with
  | false => rfl
  | true =>
    exfalso
    rcases containsSub_append_sep₂ (by decide) (by decide) e with h1 | h1
    · rw [hns] at h1; cases h1
    · rw [itoa_no_secret p] at h1; cases h1

theorem containsSub_append_last {pat : GoStr} {c : Nat} (hpat : pat ≠ [])
    (hc : c ∉ pat) {a : GoStr}
    (h : containsSub (a ++ [c]) pat = true) : containsSub a pat = true := by
  rcases containsSub_append_sep (b := []) hpat hc h with h1 | h1
  · exact h1
  · rw [containsSub_nil_pat hpat] at h1; cases h1

theorem hostPort_no_secret (cfg : ConnectionConfig)
    (hhost : ∀ a ∈ cfg.HostAddresses,
      (∀ b ∈ a.Host, plainHostByte b = true) ∧
      containsSub a.Host (gs "secret") = false) :
    containsSub (hostPortOfConfig cfg) (gs "secret") = false := by
  cases e : cfg.HostAddresses with
  | nil =>
    rw [hostPortOfConfig_nil cfg e]
    exact containsSub_nil_pat (by decide)
  | cons first tail =>
  rw [hostPortOfConfig_cons cfg first tail e]
  split
  · -- (([91] ++ intercalate joined) ++ [93])
    cases e2 : containsSub
        ([91] ++ List.intercalate [44]
          ((first :: tail).map (fun hp => netJoinHostPort hp.Host (itoa hp.Port)))
          ++ [93]) (gs "secret") with
    | false => rfl
    | true =>
      exfalso
      have e3 := containsSub_append_last (by decide) (by decide) e2
      have e3b : containsSub (91 :: List.intercalate [44]
          ((first :: tail).map (fun hp => netJoinHostPort hp.Host (itoa hp.Port))))
          (gs "secret") = true := by
        simpa only [List.singleton_append] using e3
      have e4 := containsSub_cons_elim (by decide) (by decide) e3b
      obtain ⟨piece, hpm, hcp⟩ :=
        containsSub_intercalate (by decide) (by decide) _ e4
      obtain ⟨hp2, hmem, rfl⟩ := List.mem_map.mp hpm
      have hres := netJoinHostPort_no_secret (p := hp2.Port)
        (hhost hp2 (e ▸ hmem)).1 (hhost hp2 (e ▸ hmem)).2
      rw [hres] at hcp; cases hcp
  · split
    · -- ((([91] ++ intercalate hosts) ++ [93, 58]) ++ itoa port)
      cases e2 : containsSub
          ([91] ++ List.intercalate [44] ((first :: tail).map (·.Host))
            ++ [93, 58] ++ itoa first.Port) (gs "secret") with
      | false => rfl
      | true =>
        exfalso
        have e2b : containsSub (91 ::
            (List.intercalate [44] ((first :: tail).map (·.Host)) ++
              93 :: (58 :: itoa first.Port))) (gs "secret") = true := by
          simpa only [List.append_assoc, List.cons_append,
            List.singleton_append, List.nil_append] using e2
        have e3 : containsSub
            (List.intercalate [44] ((first :: tail).map (·.Host)) ++
              93 :: (58 :: itoa first.Port)) (gs "secret") = true :=
          containsSub_cons_elim (by decide) (by decide) e2b
        rcases containsSub_append_sep (by decide) (by decide) e3 with h1 | h1
        · obtain ⟨piece, hpm, hcp⟩ :=
            containsSub_intercalate (by decide) (by decide) _ h1
          obtain ⟨hp2, hmem, rfl⟩ := List.mem_map.mp hpm
          rw [(hhost hp2 (e ▸ hmem)).2] at hcp; cases hcp
        · have h1b : containsSub (58 :: itoa first.Port) (gs "secret") = true := h1
          have h2 := containsSub_cons_elim (by decide) (by decide) h1b
          rw [itoa_no_secret first.Port] at h2; cases h2
    · exact netJoinHostPort_no_secret
        (hhost first (e ▸ List.mem_cons_self first tail)).1
        (hhost first (e ▸ List.mem_cons_self first tail)).2

end NebulaGo

namespace NebulaGo

theorem mem_insertSorted (p : GoStr × GoStr) :
    ∀ (l : List (GoStr × GoStr)) (q : GoStr × GoStr),
      q ∈ insertSorted p l → q = p ∨ q ∈ l := by
  intro l
  induction l with
  | nil => intro q hq; simp only [insertSorted, List.mem_singleton] at hq; exact Or.inl hq
  | cons x xs ih =>
    intro q hq
    unfold insertSorted at hq
    split at hq
    · rcases List.mem_cons.mp hq with h | h
      · exact Or.inl h
      · exact Or.inr h
    · rcases List.mem_cons.mp hq with h | h
      · exact Or.inr (h ▸ List.mem_cons_self x xs)
      · rcases ih q h with h2 | h2
        · exact Or.inl h2
        · exact Or.inr (List.mem_cons_of_mem x h2)

theorem mem_sortPairs :
    ∀ (l : List (GoStr × GoStr)) (q : GoStr × GoStr),
      q ∈ sortPairs l → q ∈ l := by
  intro l
  induction l with
  | nil => intro q hq; cases hq
  | cons x xs ih =>
    intro q hq
    unfold sortPairs at hq
    rcases mem_insertSorted x (sortPairs xs) q hq with h | h
    · exact h ▸ List.mem_cons_self x xs
    · exact List.mem_cons_of_mem x (ih q h)

theorem unreservedByte_query_plain {b : Nat} (h : unreservedByte b = true) :
    shouldEsc b .queryComponent = false := by
  simp only [unreservedByte, Bool.or_eq_true, decide_eq_true_eq,
    List.mem_cons, List.mem_singleton, List.not_mem_nil, or_false] at h
  rcases h with h | h | h | h | h
  · simp [shouldEsc, h]
  · subst h; decide
  · subst h; decide
  · subst h; decide
  · subst h; decide

set_option maxHeartbeats 1600000 in
theorem mem_queryOfConfig {cfg : ConnectionConfig} {pr : GoStr × GoStr}
    (h : pr ∈ queryOfConfig cfg) :
    pr = (gs "timeout", durString cfg.poolConfig.TimeOut) ∨
    pr = (gs "idle_time", durString cfg.poolConfig.IdleTime) ∨
    pr = (gs "max_conn_pool_size", itoa cfg.poolConfig.MaxConnPoolSize) ∨
    pr = (gs "min_conn_pool_size", itoa cfg.poolConfig.MinConnPoolSize) ∨
    pr = (gs "max_idle_session_pool_size",
          itoa cfg.sessionPoolConfig.MaxIdleSessionPoolSize) ∨
    pr = (gs "tls", cfg.TLS) := by
  unfold queryOfConfig at h
  split_ifs at h <;> simp_all <;> tauto

theorem escapeWith_byte_mem {mode : EncMode} {c b : Nat} (hc : c < 256)
    (hb : b ∈ (if shouldEsc c mode then
                 if c = 32 && mode = EncMode.queryComponent then [43]
                 else escapeByte c
               else [c])) :
    b = c ∨ b = 37 ∨ b = 43 ∨ isDigit b = true ∨ (65 ≤ b ∧ b ≤ 70) := by
  have hhex : ∀ n : Nat, n < 16 →
      (isDigit (hexUpperDigit n) = true ∨
       (65 ≤ hexUpperDigit n ∧ hexUpperDigit n ≤ 70)) := by
    intro n hn
    unfold hexUpperDigit
    split
    · left; simp only [isDigit, Bool.and_eq_true, decide_eq_true_eq]; omega
    · right; omega
  split at hb
  · split at hb
    · simp only [List.mem_singleton] at hb; subst hb
      exact Or.inr (Or.inr (Or.inl rfl))
    · unfold escapeByte at hb
      rcases List.mem_cons.mp hb with h2 | h2
      · subst h2; exact Or.inr (Or.inl rfl)
      · rcases List.mem_cons.mp h2 with h3 | h3
        · subst h3
          rcases hhex (c / 16) (by omega) with h4 | h4
          · exact Or.inr (Or.inr (Or.inr (Or.inl h4)))
          · exact Or.inr (Or.inr (Or.inr (Or.inr h4)))
        · simp only [List.mem_singleton] at h3; subst h3
          rcases hhex (c % 16) (by omega) with h4 | h4
          · exact Or.inr (Or.inr (Or.inr (Or.inl h4)))
          · exact Or.inr (Or.inr (Or.inr (Or.inr h4)))
  · simp only [List.mem_singleton] at hb; subst hb
    exact Or.inl rfl

theorem escapeWith_bytes {mode : EncMode} : ∀ {s : GoStr},
    (∀ c ∈ s, c < 256) →
    ∀ b ∈ escapeWith mode s,
      b ∈ s ∨ b = 37 ∨ b = 43 ∨ isDigit b = true ∨ (65 ≤ b ∧ b ≤ 70) := by
  intro s
  induction s with
  | nil => intro _ b hb; cases hb
  | cons x xs ih =>
    intro hbound b hb
    unfold escapeWith at hb
    rw [List.flatMap_cons] at hb
    rcases List.mem_append.mp hb with h1 | h1
    · have h2 := @escapeWith_byte_mem mode x b
        (hbound x (List.mem_cons_self x xs)) h1
      rcases h2 with h3 | h3
      · exact Or.inl (h3 ▸ List.mem_cons_self x xs)
      · exact Or.inr h3
    · rcases ih (fun c hc => hbound c (List.mem_cons_of_mem x hc)) b h1 with h2 | h2
      · exact Or.inl (List.mem_cons_of_mem x h2)
      · exact Or.inr h2

end NebulaGo

namespace NebulaGo

theorem durString_bound (d : Int) : ∀ b ∈ durString d, b < 256 := by
  intro b hb
  rcases durString_bytes d b hb with h | h
  · simp only [isDigit, Bool.and_eq_true, decide_eq_true_eq] at h; omega
  · simp only [List.mem_cons, List.not_mem_nil, or_false] at h; omega

theorem itoa_bound (p : Int) : ∀ b ∈ itoa p, b < 256 := by
  intro b hb
  rcases itoa_bytes p b hb with h | h
  · simp only [isDigit, Bool.and_eq_true, decide_eq_true_eq] at h; omega
  · omega

theorem escQuery_no_secret_of_bytes {s : GoStr}
    (hbound : ∀ c ∈ s, c < 256) (h99 : 99 ∉ s) :
    containsSub (escapeWith .queryComponent s) (gs "secret") = false := by
  refine not_containsSub_of_missing_byte (c := 99) (by decide) ?_
  intro hm
  rcases escapeWith_bytes hbound 99 hm with h | h | h | h | h
  · exact h99 h
  · exact absurd h (by decide)
  · exact absurd h (by decide)
  · exact absurd h (by decide)
  · omega

theorem escQuery_durString_no_secret (d : Int) :
    containsSub (escapeWith .queryComponent (durString d)) (gs "secret") = false := by
  refine escQuery_no_secret_of_bytes (durString_bound d) ?_
  intro hm
  rcases durString_bytes d 99 hm with h | h
  · exact absurd h (by decide)
  · exact absurd h (by decide)

theorem escQuery_itoa_no_secret (p : Int) :
    containsSub (escapeWith .queryComponent (itoa p)) (gs "secret") = false := by
  refine escQuery_no_secret_of_bytes (itoa_bound p) ?_
  intro hm
  rcases itoa_bytes p 99 hm with h | h
  · exact absurd h (by decide)
  · exact absurd h (by decide)

theorem encodeValues_queryOfConfig_no_secret (cfg : ConnectionConfig)
    (htls : ∀ b ∈ cfg.TLS, unreservedByte b = true)
    (htlsns : containsSub cfg.TLS (gs "secret") = false) :
    containsSub (encodeValues (queryOfConfig cfg)) (gs "secret") = false := by
  cases e : containsSub (encodeValues (queryOfConfig cfg)) (gs "secret") with
  | false => rfl
  | true =>
    exfalso
    unfold encodeValues at e
    obtain ⟨piece, hpm, hcp⟩ :=
      containsSub_intercalate (by decide) (by decide) _ e
    obtain ⟨pr, hmem, rfl⟩ := List.mem_map.mp hpm
    have hmem2 := mem_sortPairs _ _ hmem
    rcases containsSub_append_sep₂ (by decide) (by decide) hcp with h1 | h1
    · rcases mem_queryOfConfig hmem2 with h | h | h | h | h | h <;>
        rw [h] at h1 <;> simp only [] at h1 <;> exact absurd h1 (by decide)
    · rcases mem_queryOfConfig hmem2 with h | h | h | h | h | h <;>
        rw [h] at h1 <;> simp only [] at h1
      · rw [escQuery_durString_no_secret] at h1; cases h1
      · rw [escQuery_durString_no_secret] at h1; cases h1
      · rw [escQuery_itoa_no_secret] at h1; cases h1
      · rw [escQuery_itoa_no_secret] at h1; cases h1
      · rw [escQuery_itoa_no_secret] at h1; cases h1
      · rw [escapeWith_plain
          (fun c hc => unreservedByte_query_plain (htls c hc))] at h1
        rw [htlsns] at h1; cases h1

theorem Redacted_eq (cfg : ConnectionConfig)
    (hU : cfg.Username ≠ []) (hP : cfg.Password ≠ []) :
    Redacted cfg =
      urlString { toURI cfg with user := some (cfg.Username, some (gs "xxxxx")) } := by
  have huser : (toURI cfg).user = some (cfg.Username, some cfg.Password) := by
    unfold toURI
    simp only []
    rw [if_pos hU, if_pos hP]
  unfold Redacted
  simp only []
  rw [huser]

end NebulaGo

namespace NebulaGo

theorem serialized_no_secret (cfg : ConnectionConfig)
    (hhostb : ∀ a ∈ cfg.HostAddresses,
      (∀ b ∈ a.Host, plainHostByte b = true) ∧
      containsSub a.Host (gs "secret") = false)
    (hspns : containsSub cfg.Space (gs "secret") = false)
    (htls : ∀ b ∈ cfg.TLS, unreservedByte b = true)
    (htlsns : containsSub cfg.TLS (gs "secret") = false) :
    containsSub
      ((((gs "nebula://alice:xxxxx" ++ [64]) ++ hostPortOfConfig cfg) ++
        (if cfg.Space ≠ [] then 47 :: cfg.Space else [])) ++
        (if encodeValues (queryOfConfig cfg) ≠ [] then
           63 :: encodeValues (queryOfConfig cfg) else []))
      (gs "secret") = false := by
  cases e : containsSub
      ((((gs "nebula://alice:xxxxx" ++ [64]) ++ hostPortOfConfig cfg) ++
        (if cfg.Space ≠ [] then 47 :: cfg.Space else [])) ++
        (if encodeValues (queryOfConfig cfg) ≠ [] then
           63 :: encodeValues (queryOfConfig cfg) else []))
      (gs "secret") with
  | false => rfl
  | true =>
    exfalso
    have e1 : containsSub
        (((gs "nebula://alice:xxxxx" ++ [64]) ++ hostPortOfConfig cfg) ++
          (if cfg.Space ≠ [] then 47 :: cfg.Space else []))
        (gs "secret") = true := by
      by_cases hq : encodeValues (queryOfConfig cfg) = []
      · have hqn : ¬ (encodeValues (queryOfConfig cfg) ≠ []) := by simp [hq]
        rw [if_neg hqn, List.append_nil] at e; exact e
      · rw [if_pos hq] at e
        rcases containsSub_append_sep (by decide) (by decide) e with h | h
        · exact h
        · rw [encodeValues_queryOfConfig_no_secret cfg htls htlsns] at h
          cases h
    have e2 : containsSub
        ((gs "nebula://alice:xxxxx" ++ [64]) ++ hostPortOfConfig cfg)
        (gs "secret") = true := by
      by_cases hs : cfg.Space = []
      · have hsn : ¬ (cfg.Space ≠ []) := by simp [hs]
        rw [if_neg hsn, List.append_nil] at e1; exact e1
      · rw [if_pos hs] at e1
        rcases containsSub_append_sep (by decide) (by decide) e1 with h | h
        · exact h
        · rw [hspns] at h; cases h
    rw [List.append_assoc, List.singleton_append] at e2
    rcases containsSub_append_sep (by decide) (by decide) e2 with h | h
    · exact absurd h (by decide)
    · rw [hostPort_no_secret cfg hhostb] at h; cases h

/-- C9 (amended): when the username is "alice" and the password "secret",
and secret material occurs nowhere but the password (hosts are plain and
secret-free, the space is alphanumeric and secret-free, the TLS value is
unreserved and secret-free), `Redacted` masks the password: its output
never contains "secret" and always contains "alice:xxxxx@". -/
theorem C9_redacted_amended (cfg : ConnectionConfig)
    (hU : cfg.Username = gs "alice")
    (hP : cfg.Password = gs "secret")
    (hhost : cfg.HostAddresses ≠ [])
    (hhostb : ∀ a ∈ cfg.HostAddresses,
      (∀ b ∈ a.Host, plainHostByte b = true) ∧
      containsSub a.Host (gs "secret") = false)
    (hsp : ∀ b ∈ cfg.Space, spaceByteValid b = true)
    (hspns : containsSub cfg.Space (gs "secret") = false)
    (htls : ∀ b ∈ cfg.TLS, unreservedByte b = true)
    (htlsns : containsSub cfg.TLS (gs "secret") = false) :
    containsSub (Redacted cfg) (gs "secret") = false ∧
    containsSub (Redacted cfg) (gs "alice:xxxxx@") = true := by
  have hUne : cfg.Username ≠ [] := by rw [hU]; decide
  have hPne : cfg.Password ≠ [] := by rw [hP]; decide
  have hred := Redacted_eq cfg hUne hPne
  have happ := configURL_string cfg (some (cfg.Username, some (gs "xxxxx")))
    hhost hsp
  rw [hU] at hred happ
  simp only [] at happ
  have hui : userinfoString (gs "alice", some (gs "xxxxx")) = gs "alice:xxxxx" := by
    decide
  rw [hui] at happ
  have hA : gs "nebula://" ++ (gs "alice:xxxxx" ++ ([64] : GoStr)) =
      gs "nebula://alice:xxxxx" ++ [64] := by decide
  rw [hA] at happ
  have hhostid : escapeWith .host (hostPortOfConfig cfg) = hostPortOfConfig cfg :=
    escapeWith_plain (hostPortOfConfig_bytes cfg (fun a ha => (hhostb a ha).1))
  rw [hhostid] at happ
  rw [happ] at hred
  constructor
  · rw [hred]
    exact serialized_no_secret cfg hhostb hspns htls htlsns
  · rw [hred]
    have hpre2 : (gs "nebula://alice:xxxxx" ++ [64] : GoStr) =
        gs "nebula://" ++ gs "alice:xxxxx@" := by decide
    have hsplit :
        ((((gs "nebula://alice:xxxxx" ++ [64]) ++ hostPortOfConfig cfg) ++
          (if cfg.Space ≠ [] then 47 :: cfg.Space else [])) ++
          (if encodeValues (queryOfConfig cfg) ≠ [] then
             63 :: encodeValues (queryOfConfig cfg) else [])) =
        gs "nebula://" ++ (gs "alice:xxxxx@" ++
          ((hostPortOfConfig cfg ++
            (if cfg.Space ≠ [] then 47 :: cfg.Space else [])) ++
            (if encodeValues (queryOfConfig cfg) ≠ [] then
               63 :: encodeValues (queryOfConfig cfg) else []))) := by
      rw [hpre2]
      simp [List.append_assoc]
    rw [hsplit]
    exact containsSub_of_parts _ _ _

theorem C9_redacted_amended_witness :
    containsSub
      (Redacted { HostAddresses := [⟨gs "db1", 9669⟩], Username := gs "alice",
                  Password := gs "secret", Space := gs "s1" })
      (gs "secret") = false ∧
    containsSub
      (Redacted { HostAddresses := [⟨gs "db1", 9669⟩], Username := gs "alice",
                  Password := gs "secret", Space := gs "s1" })
      (gs "alice:xxxxx@") = true :=
  C9_redacted_amended _ (by decide) (by decide) (by decide) (by decide)
    (by decide) (by decide) (by decide) (by decide)

theorem indexByte_not_mem {c : Nat} : ∀ {s : GoStr}, c ∉ s → indexByte s c = none := by
  intro s
  induction s with
  | nil => intro _; rfl
  | cons b bs ih =>
    intro h
    have hne : ¬ (b = c) := fun hbc => h (hbc ▸ List.mem_cons_self b bs)
    unfold indexByte
    rw [if_neg hne, ih (fun hm => h (List.mem_cons_of_mem b hm))]
    rfl

theorem indexByte_first {c : Nat} :
    ∀ (a : GoStr) {b : GoStr}, c ∉ a → indexByte (a ++ c :: b) c = some a.length := by
  intro a
  induction a with
  | nil =>
    intro b _
    show indexByte (c :: b) c = some 0
    unfold indexByte
    rw [if_pos rfl]
  | cons x xs ih =>
    intro b h
    have hne : ¬ (x = c) := fun hbc => h (hbc ▸ List.mem_cons_self x xs)
    rw [List.cons_append]
    unfold indexByte
    rw [if_neg hne, ih (fun hm => h (List.mem_cons_of_mem x hm))]
    rfl

theorem lastIndexByte_not_mem {c : Nat} {s : GoStr} (h : c ∉ s) :
    lastIndexByte s c = none := by
  unfold lastIndexByte
  rw [indexByte_not_mem (fun hm => h (List.mem_reverse.mp hm))]
  rfl

theorem lastIndexByte_last {c : Nat} (a : GoStr) {b : GoStr} (hb : c ∉ b) :
    lastIndexByte (a ++ c :: b) c = some a.length := by
  unfold lastIndexByte
  have hrev : (a ++ c :: b).reverse = b.reverse ++ c :: a.reverse := by
    simp [List.reverse_append]
  rw [hrev, indexByte_first b.reverse
    (fun hm => hb (List.mem_reverse.mp hm))]
  show some ((a ++ c :: b).length - 1 - b.reverse.length) = some a.length
  congr 1
  simp only [List.length_append, List.length_cons, List.length_reverse]
  omega

theorem cutByte_not_mem {c : Nat} : ∀ {s : GoStr}, c ∉ s →
    cutByte s c = (s, [], false) := by
  intro s
  induction s with
  | nil => intro _; rfl
  | cons b bs ih =>
    intro h
    have hne : ¬ (b = c) := fun hbc => h (hbc ▸ List.mem_cons_self b bs)
    unfold cutByte
    rw [if_neg hne, ih (fun hm => h (List.mem_cons_of_mem b hm))]

theorem cutByte_first {c : Nat} :
    ∀ (a : GoStr) {b : GoStr}, c ∉ a → cutByte (a ++ c :: b) c = (a, b, true) := by
  intro a
  induction a with
  | nil => intro b _; simp [cutByte]
  | cons x xs ih =>
    intro b h
    have hne : ¬ (x = c) := fun hbc => h (hbc ▸ List.mem_cons_self x xs)
    rw [List.cons_append]
    unfold cutByte
    rw [if_neg hne, ih (fun hm => h (List.mem_cons_of_mem x hm))]

theorem splitByte_no_sep {c : Nat} : ∀ {s : GoStr}, c ∉ s →
    splitByte s c = [s] := by
  intro s
  induction s with
  | nil => intro _; rfl
  | cons b bs ih =>
    intro h
    have hne : ¬ (b = c) := fun hbc => h (hbc ▸ List.mem_cons_self b bs)
    unfold splitByte
    rw [if_neg hne, ih (fun hm => h (List.mem_cons_of_mem b hm))]

theorem splitByte_sep {c : Nat} :
    ∀ (a : GoStr) {b : GoStr}, c ∉ a →
      splitByte (a ++ c :: b) c = a :: splitByte b c := by
  intro a
  induction a with
  | nil => intro b _; simp [splitByte]
  | cons x xs ih =>
    intro b h
    have hne : ¬ (x = c) := fun hbc => h (hbc ▸ List.mem_cons_self x xs)
    have hih := ih (b := b) (fun hm => h (List.mem_cons_of_mem x hm))
    rw [List.cons_append]
    conv_lhs => rw [splitByte.eq_def]
    simp only []
    rw [if_neg hne, hih]

theorem splitByte_intercalate {c : Nat} :
    ∀ {ps : List GoStr}, (∀ p ∈ ps, c ∉ p) → ps ≠ [] →
      splitByte (List.intercalate [c] ps) c = ps := by
  intro ps
  induction ps with
  | nil => intro _ h; exact absurd rfl h
  | cons a t ih =>
    intro hps _
    cases t with
    | nil =>
      rw [show List.intercalate [c] [a] = a by simp [List.intercalate]]
      exact splitByte_no_sep (hps a (List.mem_cons_self a []))
    | cons b t2 =>
      rw [intercalate_cons₂, List.append_assoc, List.singleton_append,
        splitByte_sep a (hps a (List.mem_cons_self a _)),
        ih (fun p hp => hps p (List.mem_cons_of_mem a hp)) (by simp)]

theorem startsWith_append (pat r : GoStr) :
    startsWith (pat ++ r) pat = true :=
  startsWith_ex.mpr ⟨r, rfl⟩

theorem endsWith_single_iff {s : GoStr} {c : Nat} :
    endsWith s [c] = true ↔ ∃ t, s = t ++ [c] := by
  unfold endsWith
  rw [show ([c] : GoStr).reverse = [c] from rfl, startsWith_ex]
  constructor
  · rintro ⟨r, hr⟩
    refine ⟨r.reverse, ?_⟩
    have := congrArg List.reverse hr
    simpa using this
  · rintro ⟨t, rfl⟩
    exact ⟨t.reverse, by simp⟩

theorem endsWith_false_of_not_mem {s : GoStr} {c : Nat} (h : c ∉ s) :
    endsWith s [c] = false := by
  cases e : endsWith s [c] with
  | false => rfl
  | true =>
    obtain ⟨t, rfl⟩ := endsWith_single_iff.mp e
    exact absurd (by simp : c ∈ t ++ [c]) h

theorem head?_append_left {a : GoStr} (b : GoStr) (h : a ≠ []) :
    (a ++ b).head? = a.head? := by
  cases a with
  | nil => exact absurd rfl h
  | cons x xs => rfl

end NebulaGo

namespace NebulaGo

theorem digitsVal_append : ∀ (a b : GoStr) (acc : Nat),
    digitsVal (a ++ b) acc = digitsVal b (digitsVal a acc) := by
  intro a
  induction a with
  | nil => intro b acc; rfl
  | cons x xs ih => intro b acc; exact ih b (acc * 10 + (x - 48))

theorem natDigitsAux_val : ∀ (fuel n : Nat), n < fuel → ∀ acc : Nat,
    digitsVal (natDigitsAux fuel n) acc =
      acc * 10 ^ (natDigitsAux fuel n).length + n := by
  intro fuel
  induction fuel with
  | zero => intro n hn; omega
  | succ f ih =>
    intro n hn acc
    unfold natDigitsAux
    by_cases h : n < 10
    · rw [if_pos h]
      show digitsVal [] (acc * 10 + (48 + n - 48)) = acc * 10 ^ 1 + n
      unfold digitsVal
      omega
    · rw [if_neg h]
      have hlt : n / 10 < f := by omega
      rw [digitsVal_append, ih (n / 10) hlt acc]
      simp only [digitsVal, List.length_append, List.length_cons,
        List.length_nil, pow_succ]
      generalize (10 : Nat) ^ (natDigitsAux f (n / 10)).length = M
      have h10 : 48 + n % 10 - 48 = n % 10 := by omega
      rw [h10]
      have hrw : (acc * M + n / 10) * 10 + n % 10 =
          acc * (M * 10) + (n / 10 * 10 + n % 10) := by ring
      rw [hrw]
      exact congrArg (fun t => acc * (M * 10) + t) (by omega)

theorem natDigits_val (n : Nat) : digitsVal (natDigits n) 0 = n := by
  have := natDigitsAux_val (n + 1) n (Nat.lt_succ_self n) 0
  simpa [natDigits] using this

theorem natDigits_ne_nil (n : Nat) : natDigits n ≠ [] := by
  unfold natDigits natDigitsAux
  split <;> simp

theorem atoi_digits (s : GoStr) (hne : s ≠ [])
    (hd : ∀ b ∈ s, isDigit b = true) :
    atoi s = some ((digitsVal s 0 : Nat) : Int) := by
  cases s with
  | nil => exact absurd rfl hne
  | cons d rest =>
    have hdd := hd d (List.mem_cons_self d rest)
    simp only [isDigit, Bool.and_eq_true, decide_eq_true_eq] at hdd
    have hall : (d :: rest).all isDigit = true := List.all_eq_true.mpr hd
    have h48 : 48 ≤ d := hdd.1
    have h57 : d ≤ 57 := hdd.2
    interval_cases d <;>
      · simp only [atoi]
        rw [if_neg (by simp), if_pos hall]
        simp

theorem atoi_itoa_nonneg (p : Int) (hp : 0 ≤ p) : atoi (itoa p) = some p := by
  unfold itoa
  rw [if_neg (by omega)]
  rw [atoi_digits (natDigits p.toNat) (natDigits_ne_nil _)
    (natDigits_bytes p.toNat), natDigits_val]
  rw [Int.toNat_of_nonneg hp]

end NebulaGo

namespace NebulaGo

theorem hexUpperDigit_isHex (n : Nat) (hn : n < 16) :
    isHexDigit (hexUpperDigit n) = true := by
  unfold hexUpperDigit isHexDigit isDigit
  split <;> simp <;> omega

theorem unhex_hexUpperDigit (n : Nat) (hn : n < 16) :
    unhex (hexUpperDigit n) = n := by
  unfold hexUpperDigit
  split
  · have h1 : isDigit (48 + n) = true := by simp [isDigit]; omega
    unfold unhex
    rw [if_pos h1]
    omega
  · have h1 : isDigit (55 + n) = false := by simp [isDigit]; omega
    have h2 : ¬ (97 ≤ 55 + n) := by omega
    unfold unhex
    rw [if_neg (by simp [h1]), if_neg h2]
    omega

theorem shouldEsc_37 (mode : EncMode) : shouldEsc 37 mode = true := by
  cases mode <;> decide

theorem ctl_shouldEsc {b : Nat} (mode : EncMode) (h : ctlByte b = true) :
    shouldEsc b mode = true := by
  simp only [ctlByte, Bool.or_eq_true, decide_eq_true_eq] at h
  unfold shouldEsc
  split_ifs with h1 h2 h3 h4 h5
  · exfalso
    simp only [isAlphaNum, isAlpha, isDigit, Bool.or_eq_true,
      Bool.and_eq_true, decide_eq_true_eq] at h1
    omega
  · exfalso
    simp only [Bool.and_eq_true, decide_eq_true_eq, List.mem_cons,
      List.not_mem_nil, or_false] at h2
    omega
  · exfalso
    simp only [List.mem_cons, List.not_mem_nil, or_false] at h3
    omega
  · exfalso
    simp only [List.mem_cons, List.not_mem_nil, or_false] at h4
    omega
  · exfalso
    simp only [Bool.and_eq_true, decide_eq_true_eq, List.mem_cons,
      List.not_mem_nil, or_false] at h5
    omega
  · rfl

theorem escapeWith_byte_mem_strong {mode : EncMode} {c b : Nat} (hc : c < 256)
    (hb : b ∈ (if shouldEsc c mode then
                 if c = 32 && mode = EncMode.queryComponent then [43]
                 else escapeByte c
               else [c])) :
    (b = c ∧ shouldEsc c mode = false) ∨
      b = 37 ∨ b = 43 ∨ isDigit b = true ∨ (65 ≤ b ∧ b ≤ 70) := by
  have hhex : ∀ n : Nat, n < 16 →
      (isDigit (hexUpperDigit n) = true ∨
       (65 ≤ hexUpperDigit n ∧ hexUpperDigit n ≤ 70)) := by
    intro n hn
    unfold hexUpperDigit
    split
    · left; simp only [isDigit, Bool.and_eq_true, decide_eq_true_eq]; omega
    · right; omega
  split at hb
  · split at hb
    · simp only [List.mem_singleton] at hb; subst hb
      exact Or.inr (Or.inr (Or.inl rfl))
    · unfold escapeByte at hb
      rcases List.mem_cons.mp hb with h2 | h2
      · subst h2; exact Or.inr (Or.inl rfl)
      · rcases List.mem_cons.mp h2 with h3 | h3
        · subst h3
          rcases hhex (c / 16) (by omega) with h4 | h4
          · exact Or.inr (Or.inr (Or.inr (Or.inl h4)))
          · exact Or.inr (Or.inr (Or.inr (Or.inr h4)))
        · simp only [List.mem_singleton] at h3; subst h3
          rcases hhex (c % 16) (by omega) with h4 | h4
          · exact Or.inr (Or.inr (Or.inr (Or.inl h4)))
          · exact Or.inr (Or.inr (Or.inr (Or.inr h4)))
  · simp only [List.mem_singleton] at hb; subst hb
    rename_i hraw
    exact Or.inl ⟨rfl, by simpa using hraw⟩

theorem escapeWith_bytes_strong {mode : EncMode} : ∀ {s : GoStr},
    (∀ c ∈ s, c < 256) →
    ∀ b ∈ escapeWith mode s,
      (b ∈ s ∧ shouldEsc b mode = false) ∨
        b = 37 ∨ b = 43 ∨ isDigit b = true ∨ (65 ≤ b ∧ b ≤ 70) := by
  intro s
  induction s with
  | nil => intro _ b hb; cases hb
  | cons x xs ih =>
    intro hbound b hb
    unfold escapeWith at hb
    rw [List.flatMap_cons] at hb
    rcases List.mem_append.mp hb with h1 | h1
    · have h2 := @escapeWith_byte_mem_strong mode x b
        (hbound x (List.mem_cons_self x xs)) h1
      rcases h2 with ⟨h3, h4⟩ | h3
      · exact Or.inl ⟨h3 ▸ List.mem_cons_self x xs, h3 ▸ h4⟩
      · exact Or.inr h3
    · rcases ih (fun c hc => hbound c (List.mem_cons_of_mem x hc)) b h1 with h2 | h2
      · exact Or.inl ⟨List.mem_cons_of_mem x h2.1, h2.2⟩
      · exact Or.inr h2

theorem unescapeIn_cons_other {c : Nat} (h37 : c ≠ 37) (h43 : c ≠ 43)
    (rest : GoStr) (mode : EncMode) :
    unescapeIn (c :: rest) mode =
      if (mode = EncMode.host) && c < 0x80 && shouldEsc c mode then none
      else (unescapeIn rest mode).map (fun t => c :: t) := by
  rw [unescapeIn.eq_def]
  split
  · rename_i heq; cases heq
  · rename_i tail heq; injection heq with h1 _; exact absurd h1 h37
  · rename_i tail heq; injection heq with h1 _; exact absurd h1 h43
  · rename_i c2 tail heq; injection heq with h1 h2; rw [h1, h2]

end NebulaGo

namespace NebulaGo

theorem unescapeIn_cons_43 (rest : GoStr) (mode : EncMode) :
    unescapeIn (43 :: rest) mode =
      (unescapeIn rest mode).map
        (fun t => (if mode = EncMode.queryComponent then 32 else 43) :: t) := rfl

theorem unescapeIn_cons_37 (h1 h2 : Nat) (rest2 : GoStr) (mode : EncMode) :
    unescapeIn (37 :: h1 :: h2 :: rest2) mode =
      (if isHexDigit h1 && isHexDigit h2 then
        if mode = EncMode.host && unhex h1 < 8 && ¬(h1 = 50 ∧ h2 = 53) then none
        else (unescapeIn rest2 mode).map
          (fun t => (unhex h1 * 16 + unhex h2) :: t)
      else none) := rfl

theorem unescapeIn_id {mode : EncMode} (hq : mode ≠ EncMode.queryComponent)
    (hh : mode ≠ EncMode.host) :
    ∀ {s : GoStr}, 37 ∉ s → unescapeIn s mode = some s := by
  intro s
  induction s with
  | nil => intro _; rfl
  | cons c rest ih =>
    intro h37
    have hrest := ih (fun hm => h37 (List.mem_cons_of_mem c hm))
    by_cases e43 : c = 43
    · subst e43
      rw [unescapeIn_cons_43, hrest, if_neg hq]
      rfl
    · rw [unescapeIn_cons_other
        (fun hc => h37 (hc ▸ List.mem_cons_self c rest)) e43 rest mode]
      rw [if_neg (by simp [hh]), hrest]
      rfl

theorem escapeWith_cons (mode : EncMode) (c : Nat) (rest : GoStr) :
    escapeWith mode (c :: rest) =
      (if shouldEsc c mode then
         if c = 32 && mode = EncMode.queryComponent then [43] else escapeByte c
       else [c]) ++ escapeWith mode rest := by
  unfold escapeWith
  rw [List.flatMap_cons]

theorem unescape_escape {mode : EncMode}
    (hm : mode = EncMode.userPassword ∨ mode = EncMode.queryComponent) :
    ∀ {s : GoStr}, (∀ c ∈ s, c < 256) →
      unescapeIn (escapeWith mode s) mode = some s := by
  have hnh : mode ≠ EncMode.host := by
    rcases hm with h | h <;> subst h <;> decide
  intro s
  induction s with
  | nil => intro _; rfl
  | cons c rest ih =>
    intro hb
    have hc := hb c (List.mem_cons_self c rest)
    have hrest := ih (fun x hx => hb x (List.mem_cons_of_mem c hx))
    rw [escapeWith_cons]
    by_cases he : shouldEsc c mode = true
    · rw [if_pos he]
      by_cases hsp : c = 32 ∧ mode = EncMode.queryComponent
      · rw [if_pos (by simp [hsp.1, hsp.2]), List.singleton_append,
          unescapeIn_cons_43, hrest, if_pos hsp.2, hsp.1]
        rfl
      · rw [if_neg (by
          intro hcon
          simp only [Bool.and_eq_true, decide_eq_true_eq] at hcon
          exact hsp hcon)]
        unfold escapeByte
        rw [List.cons_append, List.cons_append, List.cons_append,
          List.nil_append, unescapeIn_cons_37,
          if_pos (by
            rw [hexUpperDigit_isHex (c / 16) (by omega),
              hexUpperDigit_isHex (c % 16) (by omega)]
            rfl),
          if_neg (by simp [hnh]), hrest,
          unhex_hexUpperDigit (c / 16) (by omega),
          unhex_hexUpperDigit (c % 16) (by omega)]
        have hv : c / 16 * 16 + c % 16 = c := by omega
        rw [hv]
        rfl
    · rw [if_neg he, List.singleton_append]
      have h37 : c ≠ 37 := by
        intro hc37
        rw [hc37, shouldEsc_37 mode] at he
        exact he rfl
      by_cases e43 : c = 43
      · subst e43
        have hup : mode = EncMode.userPassword := by
          rcases hm with h | h
          · exact h
          · subst h; exact absurd (by decide : shouldEsc 43 .queryComponent = true) he
        rw [unescapeIn_cons_43, hrest, if_neg (by rw [hup]; decide)]
        rfl
      · rw [unescapeIn_cons_other h37 e43 _ mode,
          if_neg (by simp [hnh]), hrest]
        rfl

end NebulaGo

namespace NebulaGo

theorem shouldEsc_up_valid {b : Nat}
    (h : shouldEsc b EncMode.userPassword = false) :
    validUserinfoByte b = true := by
  unfold shouldEsc at h
  split_ifs at h with h1 h2 h3 h4 h5
  · simp [validUserinfoByte, h1]
  · simp only [Bool.and_eq_true, decide_eq_true_eq] at h2
    exact absurd h2.1 (by decide)
  · simp only [List.mem_cons, List.not_mem_nil, or_false] at h3
    rcases h3 with h | h | h | h <;> subst h <;> decide
  · simp only [List.mem_cons, List.not_mem_nil, or_false] at h4
    have hne : (b ≠ 64 ∧ b ≠ 47) ∧ b ≠ 63 := by
      simpa [not_or] using h
    rcases h4 with h | h | h | h | h | h | h | h | h | h <;> subst h <;>
      first
        | decide
        | (exact absurd rfl hne.1.1)
        | (exact absurd rfl hne.1.2)
        | (exact absurd rfl hne.2)
  · simp only [Bool.and_eq_true, decide_eq_true_eq] at h5
    exact absurd h5.1 (by decide)

theorem validUserinfo_escape {s : GoStr} (hb : ∀ c ∈ s, c < 256) :
    validUserinfo (escapeWith EncMode.userPassword s) = true := by
  rw [validUserinfo, List.all_eq_true]
  intro b hbm
  rcases escapeWith_bytes_strong hb b hbm with ⟨_, hesc⟩ | h | h | h | h
  · exact shouldEsc_up_valid hesc
  · subst h; decide
  · subst h; decide
  · simp only [isDigit, Bool.and_eq_true, decide_eq_true_eq] at h
    simp only [validUserinfoByte, isAlphaNum, isAlpha, isDigit,
      Bool.or_eq_true, Bool.and_eq_true, decide_eq_true_eq]
    left; right; omega
  · simp only [validUserinfoByte, isAlphaNum, isAlpha, isDigit,
      Bool.or_eq_true, Bool.and_eq_true, decide_eq_true_eq]
    left; left; right; omega

theorem escapeWith_not_mem_esc {mode : EncMode} {s : GoStr} {d : Nat}
    (hbound : ∀ c ∈ s, c < 256)
    (hesc : shouldEsc d mode = true) (h37 : d ≠ 37) (h43 : d ≠ 43)
    (hdig : isDigit d = false) (hhex : ¬ (65 ≤ d ∧ d ≤ 70)) :
    d ∉ escapeWith mode s := by
  intro hmem
  rcases escapeWith_bytes_strong hbound d hmem with ⟨_, h⟩ | h | h | h | h
  · rw [hesc] at h; cases h
  · exact h37 h
  · exact h43 h
  · rw [hdig] at h; cases h
  · exact hhex h

end NebulaGo

namespace NebulaGo

theorem not_mem_append₂ {c : Nat} {a b : GoStr} (ha : c ∉ a) (hb : c ∉ b) :
    c ∉ a ++ b := by
  intro hm
  rcases List.mem_append.mp hm with h | h
  exacts [ha h, hb h]

theorem endsWith_sep_false {x enc : GoStr} {c : Nat}
    (hne : enc ≠ []) (hc : c ∉ enc) : endsWith (x ++ c :: enc) [c] = false := by
  cases e : endsWith (x ++ c :: enc) [c] with
  | false => rfl
  | true =>
    exfalso
    obtain ⟨t, ht⟩ := endsWith_single_iff.mp e
    have h1 : (x ++ c :: enc).getLast? = enc.getLast? := by
      rw [List.getLast?_append_of_ne_nil x (by simp),
        show (c :: enc : GoStr) = [c] ++ enc from rfl,
        List.getLast?_append_of_ne_nil [c] hne]
    have h2 : (t ++ [c]).getLast? = some c := by simp
    rw [ht, h2] at h1
    exact hc (List.mem_of_getLast?_eq_some h1.symm)

theorem getScheme_nebula (r : GoStr) :
    getSchemeAux [] (gs "nebula" ++ 58 :: r) = .found (gs "nebula") r := rfl

theorem not_mem_of_host_esc {H : GoStr} {d : Nat}
    (hH : ∀ b ∈ H, shouldEsc b EncMode.host = false)
    (hd : shouldEsc d EncMode.host = true) : d ∉ H := by
  intro hm
  rw [hH d hm] at hd
  cases hd

theorem spaceByte_classes {b : Nat} (h : spaceByteValid b = true) :
    b ≠ 35 ∧ b ≠ 47 ∧ b ≠ 63 ∧ b ≠ 64 ∧ b ≠ 37 ∧ ctlByte b = false := by
  simp only [spaceByteValid, isAlphaNum, isAlpha, isDigit, Bool.or_eq_true,
    Bool.and_eq_true, decide_eq_true_eq] at h
  simp only [ctlByte, Bool.or_eq_true, decide_eq_true_eq]
  constructor; · omega
  constructor; · omega
  constructor; · omega
  constructor; · omega
  constructor; · omega
  · simp only [Bool.or_eq_false_iff, decide_eq_false_iff_not]
    omega

theorem escapeWith_58_not_mem {s : GoStr} (hb : ∀ c ∈ s, c < 256)
    (h58 : 58 ∉ s) : 58 ∉ escapeWith EncMode.userPassword s := by
  intro hm
  rcases escapeWith_bytes_strong hb 58 hm with ⟨h, _⟩ | h | h | h | h
  · exact h58 h
  · cases h
  · cases h
  · exact absurd h (by decide)
  · omega

theorem userinfoString_not_mem {ui : Userinfo} {d : Nat}
    (hu : ∀ c ∈ ui.1, c < 256)
    (hp : ∀ q, ui.2 = some q → ∀ c ∈ q, c < 256)
    (hesc : shouldEsc d EncMode.userPassword = true)
    (h37 : d ≠ 37) (h43 : d ≠ 43) (h58 : d ≠ 58)
    (hdig : isDigit d = false) (hhex : ¬ (65 ≤ d ∧ d ≤ 70)) :
    d ∉ userinfoString ui := by
  intro hm
  unfold userinfoString at hm
  rcases List.mem_append.mp hm with h | h
  · exact escapeWith_not_mem_esc hu hesc h37 h43 hdig hhex h
  · match e : ui.2 with
    | none => rw [e] at h; cases h
    | some q =>
      rw [e] at h
      rcases List.mem_cons.mp h with h2 | h2
      · exact h58 h2
      · exact escapeWith_not_mem_esc (hp q e) hesc h37 h43 hdig hhex h2

theorem mem_encodeValues_piece {q : List (GoStr × GoStr)} {b : Nat}
    (hm : b ∈ encodeValues q) :
    b = 38 ∨ ∃ p ∈ sortPairs q,
      b ∈ escapeWith EncMode.queryComponent p.1 ++ [61] ++
           escapeWith EncMode.queryComponent p.2 := by
  unfold encodeValues at hm
  rcases mem_intercalate hm with h | ⟨piece, hpm, hbp⟩
  · exact Or.inl h
  · obtain ⟨pr, hpr, rfl⟩ := List.mem_map.mp hpm
    exact Or.inr ⟨pr, hpr, hbp⟩

theorem encodeValues_not_mem {q : List (GoStr × GoStr)} {d : Nat}
    (hb : ∀ p ∈ q, (∀ c ∈ p.1, c < 256) ∧ (∀ c ∈ p.2, c < 256))
    (hesc : shouldEsc d EncMode.queryComponent = true)
    (h37 : d ≠ 37) (h43 : d ≠ 43) (h38 : d ≠ 38) (h61 : d ≠ 61)
    (hdig : isDigit d = false) (hhex : ¬ (65 ≤ d ∧ d ≤ 70)) :
    d ∉ encodeValues q := by
  intro hm
  rcases mem_encodeValues_piece hm with h | ⟨p, hpm, hbp⟩
  · exact h38 h
  · have hpq := hb p (mem_sortPairs q p hpm)
    rcases List.mem_append.mp hbp with h1 | h1
    · rcases List.mem_append.mp h1 with h2 | h2
      · exact escapeWith_not_mem_esc hpq.1 hesc h37 h43 hdig hhex h2
      · simp only [List.mem_singleton] at h2; exact h61 h2
    · exact escapeWith_not_mem_esc hpq.2 hesc h37 h43 hdig hhex h1

end NebulaGo

namespace NebulaGo

theorem unescapeIn_host_id : ∀ {s : GoStr},
    (∀ b ∈ s, shouldEsc b EncMode.host = false) →
      unescapeIn s EncMode.host = some s := by
  intro s
  induction s with
  | nil => intro _; rfl
  | cons c rest ih =>
    intro h
    have hc := h c (List.mem_cons_self c rest)
    have hrest := ih (fun x hx => h x (List.mem_cons_of_mem c hx))
    have h37 : c ≠ 37 := by
      intro he; rw [he, shouldEsc_37] at hc; cases hc
    by_cases e43 : c = 43
    · subst e43
      rw [unescapeIn_cons_43, hrest]
      rfl
    · rw [unescapeIn_cons_other h37 e43 _ _, if_neg (by simp [hc]), hrest]
      rfl

theorem shouldEsc_false_not_ctl {b : Nat} {mode : EncMode}
    (h : shouldEsc b mode = false) : ctlByte b = false := by
  cases e : ctlByte b with
  | false => rfl
  | true => rw [ctl_shouldEsc mode e] at h; cases h

theorem userinfoString_ctl {ui : Userinfo}
    (hu : ∀ c ∈ ui.1, c < 256)
    (hp : ∀ q, ui.2 = some q → ∀ c ∈ q, c < 256) :
    ∀ b ∈ userinfoString ui, ctlByte b = false := by
  intro b hm
  unfold userinfoString at hm
  have hesc : ∀ {t : GoStr}, (∀ c ∈ t, c < 256) →
      b ∈ escapeWith EncMode.userPassword t → ctlByte b = false := by
    intro t hbt hmt
    rcases escapeWith_bytes_strong hbt b hmt with ⟨_, h⟩ | h | h | h | h
    · exact shouldEsc_false_not_ctl h
    · subst h; rfl
    · subst h; rfl
    · simp only [isDigit, Bool.and_eq_true, decide_eq_true_eq] at h
      simp only [ctlByte, Bool.or_eq_false_iff, decide_eq_false_iff_not]
      omega
    · simp only [ctlByte, Bool.or_eq_false_iff, decide_eq_false_iff_not]
      omega
  rcases List.mem_append.mp hm with h | h
  · exact hesc hu h
  · match e : ui.2 with
    | none => rw [e] at h; cases h
    | some q =>
      rw [e] at h
      rcases List.mem_cons.mp h with h2 | h2
      · subst h2; rfl
      · exact hesc (hp q e) h2

end NebulaGo

namespace NebulaGo

theorem parseAuthority_serialized (ui : Option Userinfo) (U H : GoStr)
    (hUdef : U = (match ui with
      | some p => userinfoString p ++ [64]
      | none => []))
    (hH : ∀ b ∈ H, shouldEsc b EncMode.host = false)
    (hph : parseHost H = some H)
    (hui : ∀ p : Userinfo, ui = some p →
      (∀ c ∈ p.1, c < 256) ∧ 58 ∉ p.1 ∧
        ∀ q, p.2 = some q → ∀ c ∈ q, c < 256) :
    parseAuthority (U ++ H) = some (ui, H) := by
  have hH64 : 64 ∉ H := not_mem_of_host_esc hH (by decide)
  cases ui with
  | none =>
    simp only [] at hUdef
    subst hUdef
    rw [List.nil_append]
    unfold parseAuthority
    rw [lastIndexByte_not_mem hH64, hph]
    rfl
  | some p =>
    simp only [] at hUdef
    subst hUdef
    obtain ⟨hu256, hu58, hp256⟩ := hui p rfl
    have hU64 : 64 ∉ userinfoString p :=
      userinfoString_not_mem hu256 hp256 (by decide) (by decide) (by decide)
        (by decide) (by decide) (by decide)
    have hshape : (userinfoString p ++ [64]) ++ H =
        userinfoString p ++ 64 :: H := by
      simp [List.append_assoc]
    rw [hshape]
    unfold parseAuthority
    rw [lastIndexByte_last (userinfoString p) hH64]
    simp only []
    have hdrop : (userinfoString p ++ 64 :: H).drop
        ((userinfoString p).length + 1) = H := by
      rw [show userinfoString p ++ 64 :: H =
          (userinfoString p ++ [64]) ++ H by simp [List.append_assoc],
        show (userinfoString p).length + 1 =
          (userinfoString p ++ [64]).length by simp]
      exact List.drop_left _ _
    have htake : (userinfoString p ++ 64 :: H).take
        ((userinfoString p).length) = userinfoString p :=
      List.take_left _ _
    rw [hdrop, hph, htake]
    simp only []
    have hvalid : validUserinfo (userinfoString p) = true := by
      unfold userinfoString validUserinfo
      rw [List.all_append]
      rw [show (escapeWith EncMode.userPassword p.1).all validUserinfoByte =
        validUserinfo (escapeWith EncMode.userPassword p.1) from rfl,
        validUserinfo_escape hu256]
      match e : p.2 with
      | none => rfl
      | some q =>
        simp only [List.all_cons]
        rw [show (escapeWith EncMode.userPassword q).all validUserinfoByte =
          validUserinfo (escapeWith EncMode.userPassword q) from rfl,
          validUserinfo_escape (hp256 q e)]
        rfl
    show (if ¬validUserinfo (userinfoString p) = true then none
          else
            if ¬containsByte (userinfoString p) 58 = true then
              Option.map (fun u => (some (u, none), H))
                (unescapeIn (userinfoString p) EncMode.userPassword)
            else
              match unescapeIn (cutByte (userinfoString p) 58).1
                  EncMode.userPassword,
                unescapeIn (cutByte (userinfoString p) 58).2.1
                  EncMode.userPassword with
              | some u, some pw => some (some (u, some pw), H)
              | _, _ => none) = some (some p, H)
    rw [if_neg (by rw [hvalid]; simp)]
    match e : p.2 with
    | none =>
      have hus : userinfoString p = escapeWith EncMode.userPassword p.1 := by
        unfold userinfoString
        rw [e, List.append_nil]
      have h58 : containsByte (userinfoString p) 58 = false := by
        cases e2 : containsByte (userinfoString p) 58 with
        | false => rfl
        | true =>
          exfalso
          exact escapeWith_58_not_mem hu256 hu58
            (hus ▸ containsByte_iff.mp e2)
      rw [if_pos (by rw [h58]; simp), hus,
        unescape_escape (Or.inl rfl) hu256]
      have hpe : p = (p.1, none) := by
        cases p with
        | mk a b => simp at e; rw [e]
      exact congrArg (fun ui => some (some ui, H)) hpe.symm
    | some q =>
      have hus : userinfoString p = escapeWith EncMode.userPassword p.1 ++
          58 :: escapeWith EncMode.userPassword q := by
        unfold userinfoString
        rw [e]
      have h58m : (58 : Nat) ∈ userinfoString p := by
        rw [hus]
        simp
      rw [if_neg (by rw [containsByte_iff.mpr h58m]; simp), hus,
        cutByte_first _ (escapeWith_58_not_mem hu256 hu58),
        unescape_escape (Or.inl rfl) hu256,
        unescape_escape (Or.inl rfl) (hp256 q e)]
      have hpe : p = (p.1, some q) := by
        cases p with
        | mk a b => simp at e; rw [e]
      exact congrArg (fun ui => some (some ui, H)) hpe.symm

end NebulaGo

namespace NebulaGo

theorem parseNoFrag_serialized (ui : Option Userinfo) (H Sp enc : GoStr)
    (hH : ∀ b ∈ H, shouldEsc b EncMode.host = false)
    (hHne : H ≠ [])
    (hph : parseHost H = some H)
    (hui : ∀ p : Userinfo, ui = some p →
      (∀ c ∈ p.1, c < 256) ∧ 58 ∉ p.1 ∧
        ∀ q, p.2 = some q → ∀ c ∈ q, c < 256)
    (hsp : ∀ b ∈ Sp, spaceByteValid b = true)
    (hqb : ∀ b ∈ enc, ctlByte b = false ∧ b ≠ 63) :
    parseNoFrag (gs "nebula" ++ 58 :: 47 :: 47 ::
        ((match ui with
          | some p => userinfoString p ++ [64]
          | none => []) ++ (H ++
         ((if Sp ≠ [] then 47 :: Sp else []) ++
          (if enc ≠ [] then 63 :: enc else []))))) =
      some { scheme := gs "nebula", user := ui, host := H,
             path := (if Sp ≠ [] then 47 :: Sp else []),
             rawQuery := enc } := by
  -- abbreviations for the pieces
  have hU63 : 63 ∉ (match ui with
      | some p => userinfoString p ++ [64]
      | none => ([] : GoStr)) := by
    match ui with
    | none => simp
    | some p =>
      obtain ⟨hu256, hu58, hp256⟩ := hui p rfl
      intro hm
      rcases List.mem_append.mp hm with h | h
      · exact userinfoString_not_mem hu256 hp256 (by decide) (by decide)
          (by decide) (by decide) (by decide) (by decide) h
      · simp at h
  have hU47 : 47 ∉ (match ui with
      | some p => userinfoString p ++ [64]
      | none => ([] : GoStr)) := by
    match ui with
    | none => simp
    | some p =>
      obtain ⟨hu256, hu58, hp256⟩ := hui p rfl
      intro hm
      rcases List.mem_append.mp hm with h | h
      · exact userinfoString_not_mem hu256 hp256 (by decide) (by decide)
          (by decide) (by decide) (by decide) (by decide) h
      · simp at h
  have hUctl : ∀ b ∈ (match ui with
      | some p => userinfoString p ++ [64]
      | none => ([] : GoStr)), ctlByte b = false := by
    match ui with
    | none => simp
    | some p =>
      obtain ⟨hu256, hu58, hp256⟩ := hui p rfl
      intro b hm
      rcases List.mem_append.mp hm with h | h
      · exact userinfoString_ctl hu256 hp256 b h
      · simp only [List.mem_singleton] at h; subst h; rfl
  have hH63 : 63 ∉ H := not_mem_of_host_esc hH (by decide)
  have hH47 : 47 ∉ H := not_mem_of_host_esc hH (by decide)
  have hHctl : ∀ b ∈ H, ctlByte b = false :=
    fun b hb => shouldEsc_false_not_ctl (hH b hb)
  have hP63 : 63 ∉ (if Sp ≠ [] then 47 :: Sp else ([] : GoStr)) := by
    split
    · intro hm
      rcases List.mem_cons.mp hm with h | h
      · cases h
      · exact (spaceByte_classes (hsp 63 h)).2.2.1 rfl
    · simp
  have hPctl : ∀ b ∈ (if Sp ≠ [] then 47 :: Sp else ([] : GoStr)),
      ctlByte b = false := by
    split
    · intro b hm
      rcases List.mem_cons.mp hm with h | h
      · subst h; rfl
      · exact (spaceByte_classes (hsp b h)).2.2.2.2.2
    · simp
  have hctl : (gs "nebula" ++ 58 :: 47 :: 47 ::
      ((match ui with
        | some p => userinfoString p ++ [64]
        | none => []) ++ (H ++
       ((if Sp ≠ [] then 47 :: Sp else []) ++
        (if enc ≠ [] then 63 :: enc else []))))).any ctlByte = false := by
    rw [List.any_eq_false]
    intro b hb
    simp only [List.mem_append, List.mem_cons] at hb
    rcases hb with h | h | h | h | h | h | h
    · have h2 : b ∈ ([110, 101, 98, 117, 108, 97] : GoStr) := h
      simp only [List.mem_cons, List.not_mem_nil, or_false] at h2
      simp only [ctlByte, Bool.or_eq_true, decide_eq_true_eq, not_or]
      omega
    · subst h; decide
    · subst h; decide
    · subst h; decide
    · simp [hUctl b h]
    · simp [hHctl b h]
    · rcases h with h2 | h2
      · simp [hPctl b h2]
      · split at h2
        · rcases List.mem_cons.mp h2 with h3 | h3
          · subst h3; decide
          · simp [(hqb b h3).1]
        · simp at h2
  unfold parseNoFrag
  rw [if_neg (by rw [hctl]; simp)]
  rw [if_neg (by
    intro h42
    have hlen := congrArg List.length h42
    simp [List.length_append] at hlen
    rw [show (gs "nebula").length = 6 from rfl] at hlen
    omega)]
  rw [getScheme_nebula]
  simp only []
  have hstart : ∀ Y : GoStr, startsWith (47 :: 47 :: Y) [47] = true := by
    intro Y; simp [startsWith]
  have hstart2 : ∀ Y : GoStr, startsWith (47 :: 47 :: Y) (gs "//") = true := by
    intro Y; exact startsWith_ex.mpr ⟨Y, rfl⟩
  have hpa := parseAuthority_serialized ui
    (match ui with
     | some p => userinfoString p ++ [64]
     | none => []) H rfl hH hph hui
  have h63X : 63 ∉ 47 :: 47 ::
      ((match ui with
        | some p => userinfoString p ++ [64]
        | none => []) ++
       (H ++ (if Sp ≠ [] then 47 :: Sp else []))) := by
    intro hm
    rcases List.mem_cons.mp hm with h | hm2
    · cases h
    rcases List.mem_cons.mp hm2 with h | hm3
    · cases h
    rcases List.mem_append.mp hm3 with h | h
    · exact hU63 h
    rcases List.mem_append.mp h with h2 | h2
    · exact hH63 h2
    · exact hP63 h2
  by_cases hq : enc = []
  · have hqn : ¬ (enc ≠ []) := by simp [hq]
    rw [if_neg hqn, List.append_nil]
    have hend : endsWith (47 :: 47 ::
        ((match ui with
          | some p => userinfoString p ++ [64]
          | none => []) ++
         (H ++ (if Sp ≠ [] then 47 :: Sp else [])))) [63] = false :=
      endsWith_false_of_not_mem h63X
    rw [hend]
    rw [Bool.false_and, if_neg Bool.false_ne_true]
    rw [cutByte_not_mem h63X]
    simp only []
    rw [if_neg (by simp [hstart]), if_neg (by simp [hstart]),
      if_pos ⟨Or.inl (by decide), hstart2 _⟩]
    simp only [List.drop_succ_cons, List.drop_zero]
    by_cases hs : Sp = []
    · have hsn : ¬ (Sp ≠ []) := by simp [hs]
      rw [if_neg hsn, List.append_nil, hq]
      rw [indexByte_not_mem (not_mem_append₂ hU47 hH47)]
      simp only []
      rw [hpa]
      rfl
    · rw [if_pos hs, hq]
      have h37P : 37 ∉ 47 :: Sp := by
        intro hm
        rcases List.mem_cons.mp hm with h | h
        · cases h
        · exact (spaceByte_classes (hsp 37 h)).2.2.2.2.1 rfl
      have hsplit : (match ui with
          | some p => userinfoString p ++ [64]
          | none => []) ++ (H ++ 47 :: Sp) =
          ((match ui with
            | some p => userinfoString p ++ [64]
            | none => []) ++ H) ++ 47 :: Sp := by
        simp [List.append_assoc]
      rw [hsplit]
      rw [indexByte_first _ (not_mem_append₂ hU47 hH47)]
      simp only []
      rw [List.take_left, List.drop_left]
      rw [hpa]
      simp only []
      rw [unescapeIn_id (by decide) (by decide) h37P]
      rfl
  · have hq2 : enc ≠ [] := hq
    rw [if_pos hq2]
    have h63enc : 63 ∉ enc := fun hm => (hqb 63 hm).2 rfl
    have hXshape : (47 : Nat) :: 47 ::
        ((match ui with
          | some p => userinfoString p ++ [64]
          | none => []) ++
         (H ++ ((if Sp ≠ [] then 47 :: Sp else []) ++ 63 :: enc))) =
        (47 :: 47 ::
          ((match ui with
            | some p => userinfoString p ++ [64]
            | none => []) ++
           (H ++ (if Sp ≠ [] then 47 :: Sp else [])))) ++ 63 :: enc := by
      simp [List.append_assoc]
    rw [hXshape]
    rw [endsWith_sep_false hq2 h63enc]
    rw [Bool.false_and, if_neg Bool.false_ne_true]
    rw [cutByte_first _ h63X]
    simp only []
    rw [if_neg (by simp [hstart]), if_neg (by simp [hstart]),
      if_pos ⟨Or.inl (by decide), hstart2 _⟩]
    simp only [List.drop_succ_cons, List.drop_zero]
    by_cases hs : Sp = []
    · have hsn : ¬ (Sp ≠ []) := by simp [hs]
      rw [if_neg hsn, List.append_nil]
      rw [indexByte_not_mem (not_mem_append₂ hU47 hH47)]
      simp only []
      rw [hpa]
      rfl
    · rw [if_pos hs]
      have h37P : 37 ∉ 47 :: Sp := by
        intro hm
        rcases List.mem_cons.mp hm with h | h
        · cases h
        · exact (spaceByte_classes (hsp 37 h)).2.2.2.2.1 rfl
      have hsplit : (match ui with
          | some p => userinfoString p ++ [64]
          | none => []) ++ (H ++ 47 :: Sp) =
          ((match ui with
            | some p => userinfoString p ++ [64]
            | none => []) ++ H) ++ 47 :: Sp := by
        simp [List.append_assoc]
      rw [hsplit]
      rw [indexByte_first _ (not_mem_append₂ hU47 hH47)]
      simp only []
      rw [List.take_left, List.drop_left]
      rw [hpa]
      simp only []
      rw [unescapeIn_id (by decide) (by decide) h37P]
      rfl

end NebulaGo

namespace NebulaGo

theorem urlParse_serialized (ui : Option Userinfo) (H Sp enc : GoStr)
    (hH : ∀ b ∈ H, shouldEsc b EncMode.host = false)
    (hHne : H ≠ [])
    (hph : parseHost H = some H)
    (hui : ∀ p : Userinfo, ui = some p →
      (∀ c ∈ p.1, c < 256) ∧ 58 ∉ p.1 ∧
        ∀ q, p.2 = some q → ∀ c ∈ q, c < 256)
    (hsp : ∀ b ∈ Sp, spaceByteValid b = true)
    (hqb : ∀ b ∈ enc, ctlByte b = false ∧ b ≠ 63 ∧ b ≠ 35) :
    urlParse (gs "nebula" ++ 58 :: 47 :: 47 ::
        ((match ui with
          | some p => userinfoString p ++ [64]
          | none => []) ++ (H ++
         ((if Sp ≠ [] then 47 :: Sp else []) ++
          (if enc ≠ [] then 63 :: enc else []))))) =
      some { scheme := gs "nebula", user := ui, host := H,
             path := (if Sp ≠ [] then 47 :: Sp else []),
             rawQuery := enc } := by
  have h35 : 35 ∉ gs "nebula" ++ 58 :: 47 :: 47 ::
      ((match ui with
        | some p => userinfoString p ++ [64]
        | none => []) ++ (H ++
       ((if Sp ≠ [] then 47 :: Sp else []) ++
        (if enc ≠ [] then 63 :: enc else [])))) := by
    intro hm
    simp only [List.mem_append, List.mem_cons] at hm
    rcases hm with h | h | h | h | h | h | h
    · have h2 : (35 : Nat) ∈ ([110, 101, 98, 117, 108, 97] : GoStr) := h
      simp only [List.mem_cons, List.not_mem_nil, or_false] at h2
      omega
    · cases h
    · cases h
    · cases h
    · revert h
      match ui with
      | none => simp
      | some p =>
        obtain ⟨hu256, hu58, hp256⟩ := hui p rfl
        intro h
        rcases List.mem_append.mp h with h2 | h2
        · exact userinfoString_not_mem hu256 hp256 (by decide) (by decide)
            (by decide) (by decide) (by decide) (by decide) h2
        · simp at h2
    · exact not_mem_of_host_esc hH (by decide) h
    · rcases h with h2 | h2
      · split at h2
        · rcases List.mem_cons.mp h2 with h3 | h3
          · cases h3
          · exact (spaceByte_classes (hsp 35 h3)).1 rfl
        · simp at h2
      · split at h2
        · rcases List.mem_cons.mp h2 with h3 | h3
          · cases h3
          · exact (hqb 35 h3).2.2 rfl
        · simp at h2
  unfold urlParse
  simp only []
  rw [cutByte_not_mem h35]
  rw [parseNoFrag_serialized ui H Sp enc hH hHne hph hui hsp
    (fun b hb => ⟨(hqb b hb).1, (hqb b hb).2.1⟩)]
  rfl

end NebulaGo

namespace NebulaGo

theorem indexByte_decomp {c : Nat} : ∀ {s : GoStr} {i : Nat},
    indexByte s c = some i →
      ∃ a b, s = a ++ c :: b ∧ c ∉ a ∧ a.length = i := by
  intro s
  induction s with
  | nil => intro i h; cases h
  | cons x xs ih =>
    intro i h
    unfold indexByte at h
    by_cases e : x = c
    · rw [if_pos e] at h
      injection h with h1
      exact ⟨[], xs, by simp [e], by simp, by simp [← h1]⟩
    · rw [if_neg e] at h
      match e2 : indexByte xs c with
      | none => rw [e2] at h; cases h
      | some j =>
        rw [e2] at h
        injection h with h1
        obtain ⟨a, b, hab, hca, hal⟩ := ih e2
        refine ⟨x :: a, b, by rw [List.cons_append, hab], ?_, ?_⟩
        · intro hm
          rcases List.mem_cons.mp hm with h2 | h2
          · exact e h2.symm
          · exact hca h2
        · simp [hal, h1]

theorem lastIndexByte_decomp {c : Nat} {s : GoStr} {i : Nat}
    (h : lastIndexByte s c = some i) :
    ∃ a b, s = a ++ c :: b ∧ c ∉ b ∧ a.length = i := by
  unfold lastIndexByte at h
  match e : indexByte s.reverse c with
  | none => rw [e] at h; cases h
  | some j =>
    rw [e] at h
    injection h with h1
    obtain ⟨a, b, hab, hca, hal⟩ := indexByte_decomp e
    have hs : s = b.reverse ++ c :: a.reverse := by
      have := congrArg List.reverse hab
      simpa [List.reverse_append] using this
    refine ⟨b.reverse, a.reverse, hs, ?_, ?_⟩
    · intro hm; exact hca (List.mem_reverse.mp hm)
    · have hlen := congrArg List.length hs
      have hsl := congrArg List.length hab
      simp only [List.length_append, List.length_cons,
        List.length_reverse] at hlen hsl
      simp only [] at h1
      simp only [List.length_reverse]
      omega

theorem drop_at_append {a : GoStr} (x : GoStr) :
    (a ++ x).drop a.length = x := List.drop_left a x

theorem startsWith_single_false {h : GoStr} {b c : Nat}
    (hh : h.head? = some b) (hbc : b ≠ c) : startsWith h [c] = false := by
  cases h with
  | nil => cases hh
  | cons x xs =>
    injection hh with h1
    have hxc : x ≠ c := by rw [h1]; exact hbc
    show (decide (x = c) && startsWith xs []) = false
    simp [hxc]

theorem mapM_ok_of_all {eps alpha beta : Type} (f : alpha → Except eps beta)
    (g : alpha → beta) :
    ∀ (l : List alpha), (∀ x ∈ l, f x = .ok (g x)) →
      l.mapM f = .ok (l.map g) := by
  intro l
  induction l with
  | nil => intro _; rfl
  | cons x xs ih =>
    intro h
    rw [List.mapM_cons, h x (List.mem_cons_self x xs),
      ih (fun y hy => h y (List.mem_cons_of_mem x hy))]
    rfl

end NebulaGo

namespace NebulaGo

theorem itoa_nonneg_eq {p : Int} (hp : 0 ≤ p) : itoa p = natDigits p.toNat := by
  unfold itoa
  rw [if_neg (by omega)]

theorem validOptionalPort_cons (d : GoStr) :
    validOptionalPort (58 :: d) = d.all (fun b => isDigit b) := rfl

theorem plain_not_mem {h : GoStr} (hps : ∀ b ∈ h, plainHostByte b = true)
    {d : Nat} (hd : plainHostByte d = false) : d ∉ h := by
  intro hm
  rw [hps d hm] at hd
  cases hd

theorem single_host_facts {h : GoStr} {p : Int}
    (hps : ∀ b ∈ h, plainHostByte b = true) (hne : h ≠ []) (hp : 0 ≤ p) :
    58 ∉ h ∧ 58 ∉ itoa p ∧ 91 ∉ h ++ 58 :: itoa p ∧ 93 ∉ h ++ 58 :: itoa p ∧
      (∃ b, (h ++ 58 :: itoa p).head? = some b ∧ b ≠ 91) := by
  have hdig : ∀ b ∈ itoa p, isDigit b = true := by
    rw [itoa_nonneg_eq hp]
    exact natDigits_bytes p.toNat
  have hdignot : ∀ d : Nat, isDigit d = false → d ∉ itoa p := by
    intro d hd hm
    rw [hdig d hm] at hd
    cases hd
  refine ⟨plain_not_mem hps (by decide), hdignot 58 (by decide), ?_, ?_, ?_⟩
  · intro hm
    rcases List.mem_append.mp hm with h1 | h1
    · exact plain_not_mem hps (by decide) h1
    · rcases List.mem_cons.mp h1 with h2 | h2
      · cases h2
      · exact hdignot 91 (by decide) h2
  · intro hm
    rcases List.mem_append.mp hm with h1 | h1
    · exact plain_not_mem hps (by decide) h1
    · rcases List.mem_cons.mp h1 with h2 | h2
      · cases h2
      · exact hdignot 93 (by decide) h2
  · cases h with
    | nil => exact absurd rfl hne
    | cons b rest =>
      exact ⟨b, rfl, (plainHostByte_facts
        (hps b (List.mem_cons_self b rest))).2.1⟩

theorem hostport_single_bytes {h : GoStr} {p : Int}
    (hps : ∀ b ∈ h, plainHostByte b = true) (hp : 0 ≤ p) :
    ∀ b ∈ h ++ 58 :: itoa p, shouldEsc b EncMode.host = false := by
  intro b hm
  rcases List.mem_append.mp hm with h1 | h1
  · exact (plainHostByte_facts (hps b h1)).1
  · rcases List.mem_cons.mp h1 with h2 | h2
    · subst h2; decide
    · exact itoa_host_plain p b h2

theorem parseHost_single {h : GoStr} {p : Int}
    (hps : ∀ b ∈ h, plainHostByte b = true) (hne : h ≠ []) (hp : 0 ≤ p) :
    parseHost (h ++ 58 :: itoa p) = some (h ++ 58 :: itoa p) := by
  obtain ⟨h58, hd58, h91, h93, b, hb, hb91⟩ := single_host_facts hps hne hp
  unfold parseHost
  rw [head?_append_left _ hne] at hb ⊢
  rw [if_neg (by rw [hb]; intro hcon; injection hcon with hcc; exact hb91 hcc)]
  rw [lastIndexByte_last h hd58]
  simp only []
  rw [drop_at_append (a := h) (58 :: itoa p), validOptionalPort_cons,
    List.all_eq_true.mpr (by rw [itoa_nonneg_eq hp]; exact natDigits_bytes _)]
  rw [if_pos rfl]
  exact unescapeIn_host_id (hostport_single_bytes hps hp)

theorem urlSplitHostPort_single {h : GoStr} {p : Int}
    (hps : ∀ b ∈ h, plainHostByte b = true) (hne : h ≠ []) (hp : 0 ≤ p) :
    urlSplitHostPort (h ++ 58 :: itoa p) = (h, itoa p) := by
  obtain ⟨h58, hd58, h91, h93, b, hb, hb91⟩ := single_host_facts hps hne hp
  rw [head?_append_left _ hne] at hb
  unfold urlSplitHostPort
  rw [lastIndexByte_last h hd58]
  simp only []
  rw [drop_at_append (a := h) (58 :: itoa p), validOptionalPort_cons,
    List.all_eq_true.mpr (by rw [itoa_nonneg_eq hp]; exact natDigits_bytes _)]
  rw [if_pos rfl]
  have hdrop1 : (h ++ 58 :: itoa p).drop (h.length + 1) = itoa p := by
    rw [show h ++ 58 :: itoa p = (h ++ [58]) ++ itoa p by simp,
      show h.length + 1 = (h ++ [58]).length by simp]
    exact List.drop_left _ _
  rw [List.take_left, hdrop1]
  simp only []
  rw [startsWith_single_false hb hb91]
  rw [Bool.false_and, if_neg Bool.false_ne_true]

theorem netSplitHostPort_single {h : GoStr} {p : Int}
    (hps : ∀ b ∈ h, plainHostByte b = true) (hne : h ≠ []) (hp : 0 ≤ p) :
    netSplitHostPort (h ++ 58 :: itoa p) = .ok (h, itoa p) := by
  obtain ⟨h58, hd58, h91, h93, b, hb, hb91⟩ := single_host_facts hps hne hp
  rw [head?_append_left _ hne] at hb
  unfold netSplitHostPort
  rw [lastIndexByte_last h hd58]
  simp only []
  have hcond : ¬ (h ++ 58 :: itoa p).head? = some 91 := by
    rw [head?_append_left _ hne, hb]
    intro hcon
    injection hcon with hcc
    exact hb91 hcc
  rw [if_neg hcond]
  rw [List.take_left]
  rw [show containsByte h 58 = false by
    cases e : containsByte h 58 with
    | false => rfl
    | true => exact absurd (containsByte_iff.mp e) h58]
  rw [show containsByte (h ++ 58 :: itoa p) 91 = false by
    cases e : containsByte (h ++ 58 :: itoa p) 91 with
    | false => rfl
    | true => exact absurd (containsByte_iff.mp e) h91]
  rw [show containsByte (h ++ 58 :: itoa p) 93 = false by
    cases e : containsByte (h ++ 58 :: itoa p) 93 with
    | false => rfl
    | true => exact absurd (containsByte_iff.mp e) h93]
  simp only [Bool.false_eq_true, if_false]
  have hdrop1 : (h ++ 58 :: itoa p).drop (h.length + 1) = itoa p := by
    rw [show h ++ 58 :: itoa p = (h ++ [58]) ++ itoa p by simp,
      show h.length + 1 = (h ++ [58]).length by simp]
    exact List.drop_left _ _
  rw [hdrop1]

theorem parseHostToken_single {h : GoStr} {p : Int} (dp : Int)
    (hps : ∀ b ∈ h, plainHostByte b = true) (hne : h ≠ []) (hp : 0 ≤ p) :
    parseHostToken dp (h ++ 58 :: itoa p) = .ok { Host := h, Port := p } := by
  obtain ⟨h58, hd58, h91, h93, b, hb, hb91⟩ := single_host_facts hps hne hp
  unfold parseHostToken
  rw [if_neg (by
    intro hcon
    have hlen := congrArg List.length hcon
    simp only [List.length_append, List.length_cons,
      List.length_nil] at hlen
    omega)]
  unfold checkTCPPort
  rw [indexByte_not_mem h93]
  simp only []
  rw [show containsByte (h ++ 58 :: itoa p) 58 = true from
    containsByte_iff.mpr (List.mem_append.mpr (Or.inr
      (List.mem_cons_self _ _)))]
  rw [if_neg (by simp)]
  rw [netSplitHostPort_single hps hne hp]
  simp only []
  rw [if_neg (by
    rw [itoa_nonneg_eq hp]
    exact natDigits_ne_nil _)]
  unfold convertToTCPPort
  rw [atoi_itoa_nonneg p hp]
  rfl

end NebulaGo

namespace NebulaGo

theorem bracket_bytes {mid : GoStr}
    (hmid : ∀ b ∈ mid, shouldEsc b EncMode.host = false ∧ b ≠ 93) :
    ∀ b ∈ 91 :: (mid ++ 93 :: 58 :: ([] : GoStr)), True := fun _ _ => trivial

theorem parseHost_bracket_port {mid : GoStr} {p : Int}
    (hmid : ∀ b ∈ mid, shouldEsc b EncMode.host = false)
    (hp : 0 ≤ p) :
    parseHost (91 :: (mid ++ 93 :: 58 :: itoa p)) =
      some (91 :: (mid ++ 93 :: 58 :: itoa p)) := by
  have hdig : ∀ b ∈ itoa p, isDigit b = true := by
    rw [itoa_nonneg_eq hp]; exact natDigits_bytes p.toNat
  have h93d : 93 ∉ 58 :: itoa p := by
    intro hm
    rcases List.mem_cons.mp hm with h | h
    · cases h
    · have := hdig 93 h; exact absurd this (by decide)
  have hshape : (91 : Nat) :: (mid ++ 93 :: 58 :: itoa p) =
      (91 :: mid) ++ 93 :: (58 :: itoa p) := by simp
  unfold parseHost
  rw [if_pos (show ((91 : Nat) :: (mid ++ 93 :: 58 :: itoa p)).head? =
      some 91 from rfl)]
  rw [hshape, lastIndexByte_last (91 :: mid) h93d]
  simp only []
  have hdrop : ((91 :: mid) ++ 93 :: (58 :: itoa p)).drop
      ((91 :: mid).length + 1) = 58 :: itoa p := by
    rw [show (91 :: mid) ++ 93 :: (58 :: itoa p) =
        ((91 :: mid) ++ [93]) ++ (58 :: itoa p) by simp,
      show (91 :: mid).length + 1 = ((91 :: mid) ++ [93]).length by simp]
    exact List.drop_left _ _
  rw [hdrop]
  rw [if_neg (by
    rw [validOptionalPort_cons, List.all_eq_true.mpr hdig]
    simp)]
  refine unescapeIn_host_id ?_
  intro b hm
  rcases List.mem_append.mp hm with h1 | h1
  · rcases List.mem_cons.mp h1 with h2 | h2
    · subst h2; decide
    · exact hmid b h2
  · rcases List.mem_cons.mp h1 with h2 | h2
    · subst h2; decide
    · rcases List.mem_cons.mp h2 with h3 | h3
      · subst h3; decide
      · have hd := hdig b h3
        simp only [isDigit, Bool.and_eq_true, decide_eq_true_eq] at hd
        simp only [shouldEsc, isAlphaNum, isAlpha, isDigit]
        have : (48 ≤ b && b ≤ 57) = true := by
          simp only [Bool.and_eq_true, decide_eq_true_eq]; omega
        rw [show ((97 ≤ b && b ≤ 122) || (65 ≤ b && b ≤ 90) || (48 ≤ b && b ≤ 57)) = true by
          rw [this]; simp]
        rfl

theorem urlSplitHostPort_bracket_port (mid : GoStr) {p : Int}
    (hp : 0 ≤ p) :
    urlSplitHostPort (91 :: (mid ++ 93 :: 58 :: itoa p)) = (mid, itoa p) := by
  have hdig : ∀ b ∈ itoa p, isDigit b = true := by
    rw [itoa_nonneg_eq hp]; exact natDigits_bytes p.toNat
  have h58d : 58 ∉ itoa p := by
    intro hm
    have := hdig 58 hm; exact absurd this (by decide)
  have hshape : (91 : Nat) :: (mid ++ 93 :: 58 :: itoa p) =
      ((91 :: mid) ++ [93]) ++ 58 :: itoa p := by simp
  unfold urlSplitHostPort
  rw [hshape, lastIndexByte_last ((91 :: mid) ++ [93]) h58d]
  simp only []
  rw [drop_at_append (a := (91 :: mid) ++ [93]) (58 :: itoa p),
    validOptionalPort_cons, List.all_eq_true.mpr hdig]
  rw [if_pos rfl]
  have hdrop1 : (((91 :: mid) ++ [93]) ++ 58 :: itoa p).drop
      (((91 :: mid) ++ [93]).length + 1) = itoa p := by
    have hsh : ((91 :: mid) ++ [93]) ++ 58 :: itoa p =
        (((91 :: mid) ++ [93]) ++ [58]) ++ itoa p := by simp
    have hlen : (((91 :: mid) ++ [93]) : GoStr).length + 1 =
        ((((91 :: mid) ++ [93]) ++ [58]) : GoStr).length := by simp
    rw [hsh, hlen]
    exact List.drop_left _ _
  rw [List.take_left, hdrop1]
  simp only []
  have hsw : startsWith ((91 :: mid) ++ [93]) [91] = true := by
    simp [startsWith]
  have hew : endsWith ((91 :: mid) ++ [93]) [93] = true :=
    endsWith_single_iff.mpr ⟨91 :: mid, rfl⟩
  have hcond : (startsWith ((91 :: mid) ++ [93]) [91] &&
      endsWith ((91 :: mid) ++ [93]) [93]) = true := by
    rw [hsw, hew]; rfl
  rw [if_pos hcond]
  simp only [List.cons_append, List.drop_succ_cons, List.drop_zero,
    List.dropLast_concat]

end NebulaGo

namespace NebulaGo

theorem parseHost_bracket_only {mid : GoStr}
    (hmid : ∀ b ∈ mid, shouldEsc b EncMode.host = false) :
    parseHost (91 :: (mid ++ [93])) = some (91 :: (mid ++ [93])) := by
  have h93 : 93 ∉ ([] : GoStr) := by simp
  have hshape : (91 : Nat) :: (mid ++ [93]) = (91 :: mid) ++ 93 :: [] := by simp
  unfold parseHost
  rw [if_pos (show ((91 : Nat) :: (mid ++ [93])).head? = some 91 from rfl)]
  rw [hshape, lastIndexByte_last (91 :: mid) h93]
  simp only []
  have hdrop : ((91 :: mid) ++ 93 :: ([] : GoStr)).drop
      ((91 :: mid).length + 1) = [] := by
    have hsh : (91 :: mid) ++ 93 :: ([] : GoStr) = ((91 :: mid) ++ [93]) ++ [] := by
      simp
    have hlen : ((91 :: mid) : GoStr).length + 1 =
        (((91 :: mid) ++ [93]) : GoStr).length := by simp
    rw [hsh, hlen]
    exact List.drop_left _ _
  rw [hdrop]
  rw [if_neg (by simp [validOptionalPort])]
  refine unescapeIn_host_id ?_
  intro b hm
  rcases List.mem_append.mp hm with h1 | h1
  · rcases List.mem_cons.mp h1 with h2 | h2
    · subst h2; decide
    · exact hmid b h2
  · rcases List.mem_cons.mp h1 with h2 | h2
    · subst h2; decide
    · simp at h2

theorem urlSplitHostPort_bracket_only (mid : GoStr) :
    urlSplitHostPort (91 :: (mid ++ [93])) = (mid, []) := by
  have hstrip : (if (startsWith (91 :: (mid ++ [93])) [91] &&
        endsWith (91 :: (mid ++ [93])) [93]) = true then
      (((91 :: (mid ++ [93])).drop 1).dropLast, ([] : GoStr))
      else (91 :: (mid ++ [93]), [])) = (mid, []) := by
    have hsw : startsWith (91 :: (mid ++ [93])) [91] = true := by
      simp [startsWith]
    have hew : endsWith (91 :: (mid ++ [93])) [93] = true :=
      endsWith_single_iff.mpr ⟨91 :: mid, by simp⟩
    rw [if_pos (by rw [hsw, hew]; rfl)]
    simp only [List.drop_succ_cons, List.drop_zero, List.dropLast_concat]
  unfold urlSplitHostPort
  match e : lastIndexByte (91 :: (mid ++ [93])) 58 with
  | none =>
    simp only []
    exact hstrip
  | some i =>
    simp only []
    obtain ⟨a, b, hab, hcb, hal⟩ := lastIndexByte_decomp e
    have h1 : ((91 : Nat) :: (mid ++ [93])).getLast? = some 93 := by
      rw [show (91 : Nat) :: (mid ++ [93]) = (91 :: mid) ++ [93] by simp]
      exact List.getLast?_concat _
    have hbne : b ≠ [] := by
      intro hbe
      subst hbe
      have hlast := congrArg List.getLast? hab
      have h2 : ((a ++ [58] : GoStr)).getLast? = some 58 :=
        List.getLast?_concat _
      rw [h1, h2] at hlast
      injection hlast with hc
      cases hc
    have h93b : (93 : Nat) ∈ b := by
      have hlast := congrArg List.getLast? hab
      have h2 : (a ++ 58 :: b).getLast? = b.getLast? := by
        rw [show (58 : Nat) :: b = [58] ++ b from rfl, ← List.append_assoc]
        exact List.getLast?_append_of_ne_nil _ hbne
      rw [h1, h2] at hlast
      exact List.mem_of_getLast?_eq_some hlast.symm
    have hdropi : ((91 : Nat) :: (mid ++ [93])).drop i = 58 :: b := by
      rw [hab, ← hal]
      exact drop_at_append (a := a) (58 :: b)
    rw [hdropi, validOptionalPort_cons]
    rw [show b.all (fun x => isDigit x) = false by
      cases e2 : b.all (fun x => isDigit x) with
      | false => rfl
      | true =>
        have := List.all_eq_true.mp e2 93 h93b
        exact absurd this (by decide)]
    rw [if_neg Bool.false_ne_true]
    exact hstrip

theorem parseHostToken_bare {h : GoStr} (dp : Int)
    (hps : ∀ b ∈ h, plainHostByte b = true) (hne : h ≠ []) :
    parseHostToken dp h = .ok { Host := h, Port := dp } := by
  unfold parseHostToken
  rw [if_neg hne]
  unfold checkTCPPort
  rw [indexByte_not_mem (plain_not_mem hps (by decide))]
  simp only []
  have hc58 : containsByte h 58 = false := by
    cases e : containsByte h 58 with
    | false => rfl
    | true =>
      exact absurd (containsByte_iff.mp e) (plain_not_mem hps (by decide))
  rw [hc58]
  rw [if_pos (by simp)]

end NebulaGo

namespace NebulaGo

theorem itoa_ne_nil (n : Int) : itoa n ≠ [] := by
  unfold itoa
  split
  · simp
  · exact natDigits_ne_nil _

theorem hostTokenByte_facts {b : Nat} (h : hostTokenByte b = true) :
    shouldEsc b .host = false ∧ b ≠ 91 ∧ b ≠ 93 ∧ b ≠ 44 := by
  simp only [hostTokenByte, Bool.and_eq_true, Bool.not_eq_true',
    List.mem_cons, List.mem_singleton, decide_eq_false_iff_not, not_or,
    List.not_mem_nil, or_false] at h
  exact ⟨h.1, h.2.1, h.2.2.1, h.2.2.2⟩

theorem hostTokenByte_plain {b : Nat} (h : hostTokenByte b = true)
    (h58 : b ≠ 58) : plainHostByte b = true := by
  obtain ⟨he, h91, h93, h44⟩ := hostTokenByte_facts h
  simp only [plainHostByte, Bool.and_eq_true, Bool.not_eq_true',
    List.mem_cons, List.mem_singleton, decide_eq_false_iff_not, not_or,
    List.not_mem_nil, or_false]
  exact ⟨he, h91, h93, h58, h44⟩

theorem tok_not_mem {h : GoStr} (hps : ∀ b ∈ h, hostTokenByte b = true)
    {d : Nat} (hd : hostTokenByte d = false) : d ∉ h := by
  intro hm
  rw [hps d hm] at hd
  cases hd

theorem netJoinHostPort_bytes_tok {h : GoStr} {p : Int}
    (hh : ∀ b ∈ h, hostTokenByte b = true) :
    ∀ b ∈ netJoinHostPort h (itoa p),
      shouldEsc b EncMode.host = false ∧ b ≠ 44 := by
  intro b hb
  have hit : ∀ c ∈ itoa p, shouldEsc c EncMode.host = false ∧ c ≠ 44 := by
    intro c hc
    refine ⟨itoa_host_plain p c hc, ?_⟩
    rcases itoa_bytes p c hc with hd | hd
    · simp only [isDigit, Bool.and_eq_true, decide_eq_true_eq] at hd
      omega
    · subst hd; decide
  unfold netJoinHostPort at hb
  split at hb
  · rw [show ([91] : GoStr) ++ h ++ [93, 58] ++ itoa p =
      91 :: (h ++ 93 :: 58 :: itoa p) by simp] at hb
    rcases List.mem_cons.mp hb with h1 | h1
    · subst h1
      exact ⟨by decide, by decide⟩
    rcases List.mem_append.mp h1 with h2 | h2
    · obtain ⟨he, _, _, h44⟩ := hostTokenByte_facts (hh b h2)
      exact ⟨he, h44⟩
    rcases List.mem_cons.mp h2 with h3 | h3
    · subst h3
      exact ⟨by decide, by decide⟩
    rcases List.mem_cons.mp h3 with h4 | h4
    · subst h4
      exact ⟨by decide, by decide⟩
    · exact hit b h4
  · rw [show h ++ ([58] : GoStr) ++ itoa p = h ++ 58 :: itoa p by simp] at hb
    rcases List.mem_append.mp hb with h1 | h1
    · obtain ⟨he, _, _, h44⟩ := hostTokenByte_facts (hh b h1)
      exact ⟨he, h44⟩
    rcases List.mem_cons.mp h1 with h2 | h2
    · subst h2
      exact ⟨by decide, by decide⟩
    · exact hit b h2

theorem hostPortOfConfig_bytes_tok (cfg : ConnectionConfig)
    (hhost : ∀ a ∈ cfg.HostAddresses, ∀ b ∈ a.Host, hostTokenByte b = true) :
    ∀ b ∈ hostPortOfConfig cfg, shouldEsc b .host = false := by
  intro b hb
  cases e : cfg.HostAddresses with
  | nil => rw [hostPortOfConfig_nil cfg e] at hb; cases hb
  | cons first tail =>
  rw [hostPortOfConfig_cons cfg first tail e] at hb
  split at hb
  · rcases List.mem_append.mp hb with h1 | h1
    · rcases List.mem_append.mp h1 with h2 | h2
      · simp only [List.mem_singleton] at h2; subst h2; decide
      · rcases mem_intercalate h2 with h3 | ⟨piece, hpm, h3⟩
        · subst h3; decide
        · obtain ⟨hp2, hmem, rfl⟩ := List.mem_map.mp hpm
          exact (netJoinHostPort_bytes_tok (hhost hp2 (e ▸ hmem)) b h3).1
    · simp only [List.mem_singleton] at h1; subst h1; decide
  · split at hb
    · rcases List.mem_append.mp hb with h1 | h1
      · rcases List.mem_append.mp h1 with h2 | h2
        · rcases List.mem_append.mp h2 with h3 | h3
          · simp only [List.mem_singleton] at h3; subst h3; decide
          · rcases mem_intercalate h3 with h4 | ⟨piece, hpm, h4⟩
            · subst h4; decide
            · obtain ⟨hp2, hmem, rfl⟩ := List.mem_map.mp hpm
              exact (hostTokenByte_facts (hhost hp2 (e ▸ hmem) b h4)).1
        · rcases List.mem_cons.mp h2 with h3 | h3
          · subst h3; decide
          · simp only [List.mem_singleton] at h3; subst h3; decide
      · exact itoa_host_plain _ b h1
    · exact (netJoinHostPort_bytes_tok (fun c hc => hhost first
        (e ▸ List.mem_cons_self _ _) c hc) b hb).1

theorem checkTCPPort_bracket {h : GoStr} (p : GoStr)
    (hh : ∀ b ∈ h, hostTokenByte b = true) (hne : h ≠ []) :
    checkTCPPort (91 :: (h ++ 93 :: 58 :: p)) = (h, true) := by
  unfold checkTCPPort
  have h93 : (93 : Nat) ∉ 91 :: h := by
    intro hm
    rcases List.mem_cons.mp hm with h1 | h1
    · cases h1
    · exact (hostTokenByte_facts (hh 93 h1)).2.2.1 rfl
  rw [show (91 : Nat) :: (h ++ 93 :: 58 :: p) =
    (91 :: h) ++ 93 :: (58 :: p) by simp]
  rw [indexByte_first (91 :: h) h93]
  simp only []
  have hlen1 : 1 ≤ h.length := by
    cases h with
    | nil => exact absurd rfl hne
    | cons a l => simp
  rw [if_pos (by simp only [List.length_cons]; omega)]
  simp only []
  have hdrop1 : ((91 :: h) ++ 93 :: (58 :: p)).drop 1 = h ++ 93 :: 58 :: p := by
    simp
  have htake1 : (h ++ 93 :: 58 :: p).take ((91 :: h).length - 1) = h := by
    rw [show (91 :: h : GoStr).length - 1 = h.length by simp]
    exact List.take_left _ _
  have hdrop2 : ((91 :: h) ++ 93 :: (58 :: p)).drop ((91 :: h).length) =
      93 :: 58 :: p := by
    exact drop_at_append (a := 91 :: h) _
  rw [hdrop1, htake1, hdrop2]
  rw [show containsByte (93 :: 58 :: p) 58 = true from
    containsByte_iff.mpr (by simp)]

theorem netSplitHostPort_bracket {h : GoStr} {p : Int}
    (hh : ∀ b ∈ h, hostTokenByte b = true) (hne : h ≠ []) (hp : 0 ≤ p) :
    netSplitHostPort (91 :: (h ++ 93 :: 58 :: itoa p)) = .ok (h, itoa p) := by
  have hdig : ∀ b ∈ itoa p, isDigit b = true := by
    rw [itoa_nonneg_eq hp]; exact natDigits_bytes p.toNat
  have h58d : 58 ∉ itoa p := by
    intro hm
    have := hdig 58 hm
    exact absurd this (by decide)
  have h93h : (93 : Nat) ∉ h := fun hm =>
    (hostTokenByte_facts (hh 93 hm)).2.2.1 rfl
  have h91h : (91 : Nat) ∉ h := fun hm =>
    (hostTokenByte_facts (hh 91 hm)).2.1 rfl
  have h93d : (93 : Nat) ∉ itoa p := by
    intro hm
    have := hdig 93 hm
    exact absurd this (by decide)
  unfold netSplitHostPort
  rw [show (91 : Nat) :: (h ++ 93 :: 58 :: itoa p) =
    ((91 :: h) ++ [93]) ++ 58 :: itoa p by simp]
  rw [lastIndexByte_last ((91 :: h) ++ [93]) h58d]
  simp only []
  have hhd : (((91 :: h) ++ [93]) ++ 58 :: itoa p).head? = some 91 := by
    rw [show ((91 :: h) ++ [93]) ++ 58 :: itoa p =
      91 :: (h ++ [93] ++ 58 :: itoa p) by simp]
    rfl
  simp only [hhd]
  rw [if_pos (trivial : True)]
  rw [show ((91 :: h) ++ [93]) ++ 58 :: itoa p =
    (91 :: h) ++ 93 :: (58 :: itoa p) by simp]
  rw [indexByte_first (91 :: h) (by
    intro hm
    rcases List.mem_cons.mp hm with h1 | h1
    · cases h1
    · exact h93h h1)]
  simp only []
  have hitne : (itoa p).length ≠ 0 := by
    intro hc
    exact itoa_ne_nil p (List.length_eq_zero.mp hc)
  rw [if_neg (show ¬ ((91 :: h : GoStr).length + 1 =
      ((91 :: h) ++ 93 :: (58 :: itoa p) : GoStr).length) from by
    simp only [List.length_cons, List.length_append]
    omega)]
  rw [if_pos (show (91 :: h : GoStr).length + 1 =
      ((91 :: h) ++ [93] : GoStr).length from by simp)]
  have hd1 : ((91 :: h) ++ 93 :: (58 :: itoa p) : GoStr).drop 1 =
      h ++ 93 :: 58 :: itoa p := by simp
  rw [hd1]
  rw [show containsByte (h ++ 93 :: 58 :: itoa p) 91 = false from by
    cases e : containsByte (h ++ 93 :: 58 :: itoa p) 91 with
    | false => rfl
    | true =>
      have hm := containsByte_iff.mp e
      rcases List.mem_append.mp hm with h1 | h1
      · exact absurd h1 h91h
      · rcases List.mem_cons.mp h1 with h2 | h2
        · cases h2
        · rcases List.mem_cons.mp h2 with h3 | h3
          · cases h3
          · have := hdig 91 h3
            exact absurd this (by decide)]
  rw [if_neg (by simp)]
  have hd2 : ((91 :: h) ++ 93 :: (58 :: itoa p) : GoStr).drop
      (((91 :: h) ++ [93] : GoStr).length + 1) = itoa p := by
    rw [show ((91 :: h) ++ 93 :: (58 :: itoa p) : GoStr) =
      (((91 :: h) ++ [93]) ++ [58]) ++ itoa p by simp,
      show (((91 : Nat) :: h) ++ [93] : GoStr).length + 1 =
        ((((91 :: h) ++ [93]) ++ [58]) : GoStr).length by simp]
    exact List.drop_left _ _
  rw [hd2]
  have hd2b : ((91 :: h) ++ 93 :: (58 :: itoa p) : GoStr).drop
      ((91 :: h : GoStr).length + 1) = 58 :: itoa p := by
    rw [show ((91 :: h) ++ 93 :: (58 :: itoa p) : GoStr) =
      ((91 :: h) ++ [93]) ++ (58 :: itoa p) by simp,
      show ((91 : Nat) :: h : GoStr).length + 1 =
        (((91 :: h) ++ [93]) : GoStr).length by simp]
    exact List.drop_left _ _
  rw [hd2b]
  rw [show containsByte (58 :: itoa p) 93 = false from by
    cases e : containsByte (58 :: itoa p) 93 with
    | false => rfl
    | true =>
      have hm := containsByte_iff.mp e
      rcases List.mem_cons.mp hm with h1 | h1
      · cases h1
      · exact absurd h1 h93d]
  rw [if_neg (by simp)]
  have ht : (h ++ 93 :: 58 :: itoa p).take ((91 :: h : GoStr).length - 1) =
      h := by
    rw [show (91 :: h : GoStr).length - 1 = h.length by simp]
    exact List.take_left _ _
  rw [ht]

theorem parseHostToken_bracket {h : GoStr} {p : Int} (dp : Int)
    (hh : ∀ b ∈ h, hostTokenByte b = true) (hne : h ≠ []) (hp : 0 ≤ p) :
    parseHostToken dp (91 :: (h ++ 93 :: 58 :: itoa p)) =
      .ok { Host := h, Port := p } := by
  unfold parseHostToken
  rw [if_neg (by simp)]
  simp only []
  rw [checkTCPPort_bracket (itoa p) hh hne]
  rw [if_neg (by simp)]
  rw [netSplitHostPort_bracket hh hne hp]
  simp only []
  rw [if_neg (by
    intro hc
    exact itoa_ne_nil p hc)]
  unfold convertToTCPPort
  rw [atoi_itoa_nonneg _ hp]
  rfl

theorem parseHostToken_join (dp : Int) {h : GoStr} {p : Int}
    (hh : ∀ b ∈ h, hostTokenByte b = true) (hne : h ≠ []) (hp : 0 ≤ p) :
    parseHostToken dp (netJoinHostPort h (itoa p)) =
      .ok { Host := h, Port := p } := by
  unfold netJoinHostPort
  by_cases hc : containsByte h 58 = true
  · rw [if_pos hc]
    rw [show [91] ++ h ++ [93, 58] ++ itoa p =
      91 :: (h ++ 93 :: 58 :: itoa p) by simp]
    exact parseHostToken_bracket dp hh hne hp
  · rw [if_neg hc]
    have hplain : ∀ b ∈ h, plainHostByte b = true := by
      intro b hb
      refine hostTokenByte_plain (hh b hb) ?_
      intro hb58
      subst hb58
      exact hc (containsByte_iff.mpr hb)
    rw [show h ++ [58] ++ itoa p = h ++ 58 :: itoa p by simp]
    exact parseHostToken_single dp hplain hne hp

theorem mem_insertSorted_self (p : GoStr × GoStr) :
    ∀ l : List (GoStr × GoStr), p ∈ insertSorted p l := by
  intro l
  induction l with
  | nil => exact List.mem_singleton.mpr rfl
  | cons x xs ih =>
    unfold insertSorted
    split
    · exact List.mem_cons_self _ _
    · exact List.mem_cons_of_mem x ih

theorem mem_insertSorted_of_mem (p : GoStr × GoStr) {q : GoStr × GoStr} :
    ∀ {l : List (GoStr × GoStr)}, q ∈ l → q ∈ insertSorted p l := by
  intro l
  induction l with
  | nil => intro h; cases h
  | cons x xs ih =>
    intro h
    unfold insertSorted
    split
    · exact List.mem_cons_of_mem p h
    · rcases List.mem_cons.mp h with h2 | h2
      · exact h2 ▸ List.mem_cons_self x _
      · exact List.mem_cons_of_mem x (ih h2)

theorem mem_sortPairs_of_mem {q : GoStr × GoStr} :
    ∀ {l : List (GoStr × GoStr)}, q ∈ l → q ∈ sortPairs l := by
  intro l
  induction l with
  | nil => intro h; cases h
  | cons x xs ih =>
    intro h
    unfold sortPairs
    rcases List.mem_cons.mp h with h2 | h2
    · exact h2 ▸ mem_insertSorted_self x (sortPairs xs)
    · exact mem_insertSorted_of_mem x (ih h2)

theorem esc_query_not_38 {v : GoStr} (hb : ∀ c ∈ v, c < 256) :
    38 ∉ escapeWith EncMode.queryComponent v :=
  escapeWith_not_mem_esc hb (by decide) (by decide) (by decide) (by decide)
    (by decide)

theorem esc_query_not_59 {v : GoStr} (hb : ∀ c ∈ v, c < 256) :
    59 ∉ escapeWith EncMode.queryComponent v :=
  escapeWith_not_mem_esc hb (by decide) (by decide) (by decide) (by decide)
    (by decide)

theorem esc_query_not_61 {v : GoStr} (hb : ∀ c ∈ v, c < 256) :
    61 ∉ escapeWith EncMode.queryComponent v :=
  escapeWith_not_mem_esc hb (by decide) (by decide) (by decide) (by decide)
    (by decide)

theorem queryPiece_process {k v : GoStr}
    (hk : ∀ c ∈ k, c < 256) (hv : ∀ c ∈ v, c < 256) (acc : List (GoStr × GoStr)) :
    (if containsByte (escapeWith EncMode.queryComponent k ++ [61] ++
          escapeWith EncMode.queryComponent v) 59 = true then acc
     else if (escapeWith EncMode.queryComponent k ++ [61] ++
          escapeWith EncMode.queryComponent v) = [] then acc
     else
       match queryUnescape (cutByte (escapeWith EncMode.queryComponent k ++ [61] ++
               escapeWith EncMode.queryComponent v) 61).1,
         queryUnescape (cutByte (escapeWith EncMode.queryComponent k ++ [61] ++
               escapeWith EncMode.queryComponent v) 61).2.1 with
       | some kk, some vv => (kk, vv) :: acc
       | _, _ => acc) = (k, v) :: acc := by
  have h59 : containsByte (escapeWith EncMode.queryComponent k ++ [61] ++
      escapeWith EncMode.queryComponent v) 59 = false := by
    cases e : containsByte (escapeWith EncMode.queryComponent k ++ [61] ++
        escapeWith EncMode.queryComponent v) 59 with
    | false => rfl
    | true =>
      exfalso
      have hm := containsByte_iff.mp e
      rcases List.mem_append.mp hm with h1 | h1
      · rcases List.mem_append.mp h1 with h2 | h2
        · exact esc_query_not_59 hk h2
        · simp at h2
      · exact esc_query_not_59 hv h1
  rw [h59, if_neg (by simp)]
  have hshape : escapeWith EncMode.queryComponent k ++ [61] ++
      escapeWith EncMode.queryComponent v =
      escapeWith EncMode.queryComponent k ++ 61 ::
        escapeWith EncMode.queryComponent v := by
    simp
  have hnemp : escapeWith EncMode.queryComponent k ++ [61] ++
      escapeWith EncMode.queryComponent v ≠ [] := by
    rw [hshape]
    intro hcon
    rcases List.append_eq_nil.mp hcon with ⟨_, h2⟩
    cases h2
  rw [if_neg hnemp, hshape, cutByte_first _ (esc_query_not_61 hk)]
  unfold queryUnescape
  rw [unescape_escape (Or.inr rfl) hk, unescape_escape (Or.inr rfl) hv]

theorem parseQueryPairs_pieces : ∀ (ps : List (GoStr × GoStr)),
    (∀ p ∈ ps, (∀ c ∈ p.1, c < 256) ∧ (∀ c ∈ p.2, c < 256)) →
    parseQueryPairs (List.intercalate [38]
      (ps.map (fun p => escapeWith EncMode.queryComponent p.1 ++ [61] ++
                        escapeWith EncMode.queryComponent p.2))) = ps := by
  intro ps
  induction ps with
  | nil => intro _; rfl
  | cons p t ih =>
    intro hb
    have hp := hb p (List.mem_cons_self p t)
    have h38 : 38 ∉ escapeWith EncMode.queryComponent p.1 ++ [61] ++
        escapeWith EncMode.queryComponent p.2 := by
      intro hm
      rcases List.mem_append.mp hm with h1 | h1
      · rcases List.mem_append.mp h1 with h2 | h2
        · exact esc_query_not_38 hp.1 h2
        · simp at h2
      · exact esc_query_not_38 hp.2 h1
    cases t with
    | nil =>
      rw [show List.intercalate [38] ([p].map
          (fun p => escapeWith EncMode.queryComponent p.1 ++ [61] ++
                    escapeWith EncMode.queryComponent p.2)) =
          escapeWith EncMode.queryComponent p.1 ++ [61] ++
            escapeWith EncMode.queryComponent p.2 by
        simp [List.intercalate]]
      unfold parseQueryPairs
      rw [splitByte_no_sep h38]
      rw [List.foldr_cons, List.foldr_nil]
      rw [queryPiece_process hp.1 hp.2]
    | cons p2 t2 =>
      rw [List.map_cons, List.map_cons, intercalate_cons₂,
        List.append_assoc, List.singleton_append]
      unfold parseQueryPairs
      rw [splitByte_sep _ h38]
      rw [List.foldr_cons]
      have hih := ih (fun x hx => hb x (List.mem_cons_of_mem p hx))
      unfold parseQueryPairs at hih
      rw [List.map_cons] at hih
      rw [hih]
      rw [queryPiece_process hp.1 hp.2]

theorem parseQueryPairs_encodeValues (q : List (GoStr × GoStr))
    (hb : ∀ p ∈ q, (∀ c ∈ p.1, c < 256) ∧ (∀ c ∈ p.2, c < 256)) :
    parseQueryPairs (encodeValues q) = sortPairs q := by
  unfold encodeValues
  exact parseQueryPairs_pieces (sortPairs q)
    (fun p hp => hb p (mem_sortPairs q p hp))

theorem queryGet_of_mem_unique {prs : List (GoStr × GoStr)} {key v : GoStr}
    (hmem : (key, v) ∈ prs)
    (huniq : ∀ p ∈ prs, p.1 = key → p.2 = v) :
    queryGet prs key = v := by
  unfold queryGet
  match e : prs.find? (fun p => p.1 = key) with
  | none =>
    exfalso
    rw [List.find?_eq_none] at e
    exact absurd (by simp) (e (key, v) hmem)
  | some x =>
    have hx := List.find?_some e
    have hxm := List.mem_of_find?_eq_some e
    simp only [decide_eq_true_eq] at hx
    rw [e]
    exact huniq x hxm hx

theorem queryGet_of_absent {prs : List (GoStr × GoStr)} {key : GoStr}
    (hnone : ∀ p ∈ prs, p.1 ≠ key) :
    queryGet prs key = [] := by
  unfold queryGet
  rw [List.find?_eq_none.mpr (by
    intro p hp
    simp only [decide_eq_true_eq]
    exact hnone p hp)]

end NebulaGo

namespace NebulaGo

set_option maxHeartbeats 1600000 in
theorem mem_queryOfConfig_strong {cfg : ConnectionConfig} {pr : GoStr × GoStr}
    (h : pr ∈ queryOfConfig cfg) :
    (pr = (gs "timeout", durString cfg.poolConfig.TimeOut) ∧ cfg.poolConfig.TimeOut ≠ GetDefaultConf.TimeOut) ∨
    (pr = (gs "idle_time", durString cfg.poolConfig.IdleTime) ∧ cfg.poolConfig.IdleTime ≠ GetDefaultConf.IdleTime) ∨
    (pr = (gs "max_conn_pool_size", itoa cfg.poolConfig.MaxConnPoolSize) ∧ cfg.poolConfig.MaxConnPoolSize ≠ GetDefaultConf.MaxConnPoolSize) ∨
    (pr = (gs "min_conn_pool_size", itoa cfg.poolConfig.MinConnPoolSize) ∧ cfg.poolConfig.MinConnPoolSize ≠ GetDefaultConf.MinConnPoolSize) ∨
    (pr = (gs "max_idle_session_pool_size", itoa cfg.sessionPoolConfig.MaxIdleSessionPoolSize) ∧ cfg.sessionPoolConfig.MaxIdleSessionPoolSize ≠ GetDefaultSessionPoolConfig.MaxIdleSessionPoolSize) ∨
    (pr = (gs "tls", cfg.TLS) ∧ cfg.TLS ≠ []) := by
  unfold queryOfConfig at h
  split_ifs at h <;> simp_all <;> tauto

end NebulaGo

namespace NebulaGo

theorem qoc_timeout_uniq (cfg : ConnectionConfig) :
    ∀ p ∈ queryOfConfig cfg, p.1 = gs "timeout" → p.2 = durString cfg.poolConfig.TimeOut := by
  intro p hp hk
  rcases mem_queryOfConfig hp with h | h | h | h | h | h <;> subst h <;>
    first
      | rfl
      | (simp only [] at hk; exact absurd hk (by decide))

theorem qoc_timeout_mem (cfg : ConnectionConfig)
    (h : cfg.poolConfig.TimeOut ≠ GetDefaultConf.TimeOut) :
    (gs "timeout", durString cfg.poolConfig.TimeOut) ∈ queryOfConfig cfg := by
  unfold queryOfConfig
  split_ifs <;> simp_all

theorem qoc_timeout_not_mem (cfg : ConnectionConfig)
    (h : cfg.poolConfig.TimeOut = GetDefaultConf.TimeOut) :
    ∀ p ∈ queryOfConfig cfg, p.1 ≠ gs "timeout" := by
  intro p hp hk
  rcases mem_queryOfConfig_strong hp with
    ⟨he, hc⟩ | ⟨he, hc⟩ | ⟨he, hc⟩ | ⟨he, hc⟩ | ⟨he, hc⟩ | ⟨he, hc⟩ <;>
    subst he <;> simp only [] at hk <;>
    first
      | (exact absurd hk (by decide))
      | (exact hc h)

theorem qoc_idle_uniq (cfg : ConnectionConfig) :
    ∀ p ∈ queryOfConfig cfg, p.1 = gs "idle_time" → p.2 = durString cfg.poolConfig.IdleTime := by
  intro p hp hk
  rcases mem_queryOfConfig hp with h | h | h | h | h | h <;> subst h <;>
    first
      | rfl
      | (simp only [] at hk; exact absurd hk (by decide))

theorem qoc_idle_mem (cfg : ConnectionConfig)
    (h : cfg.poolConfig.IdleTime ≠ GetDefaultConf.IdleTime) :
    (gs "idle_time", durString cfg.poolConfig.IdleTime) ∈ queryOfConfig cfg := by
  unfold queryOfConfig
  split_ifs <;> simp_all

theorem qoc_idle_not_mem (cfg : ConnectionConfig)
    (h : cfg.poolConfig.IdleTime = GetDefaultConf.IdleTime) :
    ∀ p ∈ queryOfConfig cfg, p.1 ≠ gs "idle_time" := by
  intro p hp hk
  rcases mem_queryOfConfig_strong hp with
    ⟨he, hc⟩ | ⟨he, hc⟩ | ⟨he, hc⟩ | ⟨he, hc⟩ | ⟨he, hc⟩ | ⟨he, hc⟩ <;>
    subst he <;> simp only [] at hk <;>
    first
      | (exact absurd hk (by decide))
      | (exact hc h)

theorem qoc_maxc_uniq (cfg : ConnectionConfig) :
    ∀ p ∈ queryOfConfig cfg, p.1 = gs "max_conn_pool_size" → p.2 = itoa cfg.poolConfig.MaxConnPoolSize := by
  intro p hp hk
  rcases mem_queryOfConfig hp with h | h | h | h | h | h <;> subst h <;>
    first
      | rfl
      | (simp only [] at hk; exact absurd hk (by decide))

theorem qoc_maxc_mem (cfg : ConnectionConfig)
    (h : cfg.poolConfig.MaxConnPoolSize ≠ GetDefaultConf.MaxConnPoolSize) :
    (gs "max_conn_pool_size", itoa cfg.poolConfig.MaxConnPoolSize) ∈ queryOfConfig cfg := by
  unfold queryOfConfig
  split_ifs <;> simp_all

theorem qoc_maxc_not_mem (cfg : ConnectionConfig)
    (h : cfg.poolConfig.MaxConnPoolSize = GetDefaultConf.MaxConnPoolSize) :
    ∀ p ∈ queryOfConfig cfg, p.1 ≠ gs "max_conn_pool_size" := by
  intro p hp hk
  rcases mem_queryOfConfig_strong hp with
    ⟨he, hc⟩ | ⟨he, hc⟩ | ⟨he, hc⟩ | ⟨he, hc⟩ | ⟨he, hc⟩ | ⟨he, hc⟩ <;>
    subst he <;> simp only [] at hk <;>
    first
      | (exact absurd hk (by decide))
      | (exact hc h)

theorem qoc_minc_uniq (cfg : ConnectionConfig) :
    ∀ p ∈ queryOfConfig cfg, p.1 = gs "min_conn_pool_size" → p.2 = itoa cfg.poolConfig.MinConnPoolSize := by
  intro p hp hk
  rcases mem_queryOfConfig hp with h | h | h | h | h | h <;> subst h <;>
    first
      | rfl
      | (simp only [] at hk; exact absurd hk (by decide))

theorem qoc_minc_mem (cfg : ConnectionConfig)
    (h : cfg.poolConfig.MinConnPoolSize ≠ GetDefaultConf.MinConnPoolSize) :
    (gs "min_conn_pool_size", itoa cfg.poolConfig.MinConnPoolSize) ∈ queryOfConfig cfg := by
  unfold queryOfConfig
  split_ifs <;> simp_all

theorem qoc_minc_not_mem (cfg : ConnectionConfig)
    (h : cfg.poolConfig.MinConnPoolSize = GetDefaultConf.MinConnPoolSize) :
    ∀ p ∈ queryOfConfig cfg, p.1 ≠ gs "min_conn_pool_size" := by
  intro p hp hk
  rcases mem_queryOfConfig_strong hp with
    ⟨he, hc⟩ | ⟨he, hc⟩ | ⟨he, hc⟩ | ⟨he, hc⟩ | ⟨he, hc⟩ | ⟨he, hc⟩ <;>
    subst he <;> simp only [] at hk <;>
    first
      | (exact absurd hk (by decide))
      | (exact hc h)

theorem qoc_maxi_uniq (cfg : ConnectionConfig) :
    ∀ p ∈ queryOfConfig cfg, p.1 = gs "max_idle_session_pool_size" → p.2 = itoa cfg.sessionPoolConfig.MaxIdleSessionPoolSize := by
  intro p hp hk
  rcases mem_queryOfConfig hp with h | h | h | h | h | h <;> subst h <;>
    first
      | rfl
      | (simp only [] at hk; exact absurd hk (by decide))

theorem qoc_maxi_mem (cfg : ConnectionConfig)
    (h : cfg.sessionPoolConfig.MaxIdleSessionPoolSize ≠ GetDefaultSessionPoolConfig.MaxIdleSessionPoolSize) :
    (gs "max_idle_session_pool_size", itoa cfg.sessionPoolConfig.MaxIdleSessionPoolSize) ∈ queryOfConfig cfg := by
  unfold queryOfConfig
  split_ifs <;> simp_all

theorem qoc_maxi_not_mem (cfg : ConnectionConfig)
    (h : cfg.sessionPoolConfig.MaxIdleSessionPoolSize = GetDefaultSessionPoolConfig.MaxIdleSessionPoolSize) :
    ∀ p ∈ queryOfConfig cfg, p.1 ≠ gs "max_idle_session_pool_size" := by
  intro p hp hk
  rcases mem_queryOfConfig_strong hp with
    ⟨he, hc⟩ | ⟨he, hc⟩ | ⟨he, hc⟩ | ⟨he, hc⟩ | ⟨he, hc⟩ | ⟨he, hc⟩ <;>
    subst he <;> simp only [] at hk <;>
    first
      | (exact absurd hk (by decide))
      | (exact hc h)

theorem qoc_tls_uniq (cfg : ConnectionConfig) :
    ∀ p ∈ queryOfConfig cfg, p.1 = gs "tls" → p.2 = cfg.TLS := by
  intro p hp hk
  rcases mem_queryOfConfig hp with h | h | h | h | h | h <;> subst h <;>
    first
      | rfl
      | (simp only [] at hk; exact absurd hk (by decide))

theorem qoc_tls_mem (cfg : ConnectionConfig)
    (h : cfg.TLS ≠ []) :
    (gs "tls", cfg.TLS) ∈ queryOfConfig cfg := by
  unfold queryOfConfig
  split_ifs <;> simp_all

theorem qoc_tls_not_mem (cfg : ConnectionConfig)
    (h : cfg.TLS = []) :
    ∀ p ∈ queryOfConfig cfg, p.1 ≠ gs "tls" := by
  intro p hp hk
  rcases mem_queryOfConfig_strong hp with
    ⟨he, hc⟩ | ⟨he, hc⟩ | ⟨he, hc⟩ | ⟨he, hc⟩ | ⟨he, hc⟩ | ⟨he, hc⟩ <;>
    subst he <;> simp only [] at hk <;>
    first
      | (exact absurd hk (by decide))
      | (exact hc h)

end NebulaGo

namespace NebulaGo

theorem queryOfConfig_bytes (cfg : ConnectionConfig)
    (htls : ∀ b ∈ cfg.TLS, b < 256) :
    ∀ p ∈ queryOfConfig cfg, (∀ c ∈ p.1, c < 256) ∧ (∀ c ∈ p.2, c < 256) := by
  intro p hp
  rcases mem_queryOfConfig hp with h | h | h | h | h | h <;> subst h
  · exact ⟨(by decide : ∀ c ∈ gs "timeout", c < 256), durString_bound _⟩
  · exact ⟨(by decide : ∀ c ∈ gs "idle_time", c < 256), durString_bound _⟩
  · exact ⟨(by decide : ∀ c ∈ gs "max_conn_pool_size", c < 256),
      itoa_bound _⟩
  · exact ⟨(by decide : ∀ c ∈ gs "min_conn_pool_size", c < 256),
      itoa_bound _⟩
  · exact ⟨(by decide : ∀ c ∈ gs "max_idle_session_pool_size", c < 256),
      itoa_bound _⟩
  · exact ⟨(by decide : ∀ c ∈ gs "tls", c < 256), htls⟩

theorem durString_ne_nil (d : Int) : durString d ≠ [] := by
  unfold durString
  simp only []
  split
  · decide
  · split
    · simp
    · split
      · exact fun hcon => natDigits_ne_nil _
          (List.append_eq_nil.mp (List.append_eq_nil.mp hcon).1).1
      · split
        · exact fun hcon => natDigits_ne_nil _
            (List.append_eq_nil.mp (List.append_eq_nil.mp hcon).1).1
        · split <;>
            exact fun hcon => natDigits_ne_nil _
              (List.append_eq_nil.mp (List.append_eq_nil.mp hcon).1).1

theorem atoi_itoa_some (n : Int) : ∃ m, atoi (itoa n) = some m := by
  by_cases hn : 0 ≤ n
  · exact ⟨n, atoi_itoa_nonneg n hn⟩
  · refine ⟨-((digitsVal (natDigits (-n).toNat) 0 : Nat) : Int), ?_⟩
    unfold itoa
    rw [if_pos (by omega)]
    show atoi (45 :: natDigits (-n).toNat) = _
    unfold atoi
    simp only []
    rw [if_neg (natDigits_ne_nil _),
      if_pos (List.all_eq_true.mpr (natDigits_bytes _))]
    rfl

theorem queryGet_sorted_tls (cfg : ConnectionConfig) :
    queryGet (sortPairs (queryOfConfig cfg)) (gs "tls") = cfg.TLS := by
  by_cases h : cfg.TLS = []
  · rw [queryGet_of_absent (fun p hp =>
      qoc_tls_not_mem cfg h p (mem_sortPairs _ p hp)), h]
  · exact queryGet_of_mem_unique
      (mem_sortPairs_of_mem (qoc_tls_mem cfg h))
      (fun p hp hk => qoc_tls_uniq cfg p (mem_sortPairs _ p hp) hk)

end NebulaGo

namespace NebulaGo

theorem encodeValues_ctl (q : List (GoStr × GoStr))
    (hb : ∀ p ∈ q, (∀ c ∈ p.1, c < 256) ∧ (∀ c ∈ p.2, c < 256)) :
    ∀ b ∈ encodeValues q, ctlByte b = false := by
  intro b hm
  have hesc : ∀ {t : GoStr}, (∀ c ∈ t, c < 256) →
      b ∈ escapeWith EncMode.queryComponent t → ctlByte b = false := by
    intro t hbt hmt
    rcases escapeWith_bytes_strong hbt b hmt with ⟨_, h⟩ | h | h | h | h
    · exact shouldEsc_false_not_ctl h
    · subst h; rfl
    · subst h; rfl
    · simp only [isDigit, Bool.and_eq_true, decide_eq_true_eq] at h
      simp only [ctlByte, Bool.or_eq_false_iff, decide_eq_false_iff_not]
      omega
    · simp only [ctlByte, Bool.or_eq_false_iff, decide_eq_false_iff_not]
      omega
  rcases mem_encodeValues_piece hm with h | ⟨p, hpm, hbp⟩
  · subst h; rfl
  · have hpq := hb p (mem_sortPairs q p hpm)
    rcases List.mem_append.mp hbp with h1 | h1
    · rcases List.mem_append.mp h1 with h2 | h2
      · exact hesc hpq.1 h2
      · simp only [List.mem_singleton] at h2; subst h2; rfl
    · exact hesc hpq.2 h1

theorem validateSpace_ok_all {s : GoStr} (h : validateSpace s = .ok ()) :
    ∀ b ∈ s, spaceByteValid b = true := by
  unfold validateSpace at h
  split_ifs at h with h1 h2
  · intro b hb; rw [h1] at hb; cases hb
  · exact List.all_eq_true.mp h2

theorem peekDuration_absent {q : List (GoStr × GoStr)} {key : GoStr}
    (dest : Int) (h : queryGet q key = []) :
    peekDurationFromQueryString q key dest = .ok dest := by
  unfold peekDurationFromQueryString
  simp only []
  rw [h]
  rw [if_neg (by simp)]

theorem peekInt_absent {q : List (GoStr × GoStr)} {key : GoStr}
    (dest : Int) (h : queryGet q key = []) :
    peekIntFromQueryString q key dest = .ok dest := by
  unfold peekIntFromQueryString
  simp only []
  rw [h]
  rw [if_neg (by simp)]

theorem netJoinHostPort_plain {h : GoStr} (p : GoStr)
    (hps : ∀ b ∈ h, plainHostByte b = true) :
    netJoinHostPort h p = h ++ 58 :: p := by
  unfold netJoinHostPort
  rw [show containsByte h 58 = false by
    cases e : containsByte h 58 with
    | false => rfl
    | true =>
      exact absurd (containsByte_iff.mp e) (plain_not_mem hps (by decide))]
  simp

theorem mapM_ok_of_all_map {eps alpha beta gamma : Type}
    (f : beta → Except eps gamma) (g : alpha → beta) (k : alpha → gamma) :
    ∀ (l : List alpha), (∀ x ∈ l, f (g x) = .ok (k x)) →
      (l.map g).mapM f = .ok (l.map k) := by
  intro l
  induction l with
  | nil => intro _; rfl
  | cons x xs ih =>
    intro h
    rw [List.map_cons, List.mapM_cons, h x (List.mem_cons_self x xs),
      ih (fun y hy => h y (List.mem_cons_of_mem x hy))]
    rfl

theorem hostAddress_eta_map (l : List HostAddress) :
    l.map (fun hp => { Host := hp.Host, Port := hp.Port : HostAddress }) = l := by
  induction l with
  | nil => rfl
  | cons x xs ih => rw [List.map_cons, ih]

theorem hostAddress_port_map {l : List HostAddress} {p0 : Int}
    (h : ∀ a ∈ l, a.Port = p0) :
    l.map (fun hp => { Host := hp.Host, Port := p0 : HostAddress }) = l := by
  induction l with
  | nil => rfl
  | cons x xs ih =>
    rw [List.map_cons, ih (fun a ha => h a (List.mem_cons_of_mem x ha))]
    have hx : ({ Host := x.Host, Port := p0 } : HostAddress) = x := by
      rw [← h x (List.mem_cons_self x xs)]
    rw [hx]

end NebulaGo

namespace NebulaGo

theorem plain_piece_bytes {hp2 : HostAddress}
    (hfa : ∀ b ∈ hp2.Host, plainHostByte b = true) (hp0 : 0 ≤ hp2.Port) :
    ∀ b ∈ hp2.Host ++ 58 :: itoa hp2.Port,
      shouldEsc b EncMode.host = false ∧ b ≠ 93 ∧ b ≠ 44 := by
  intro b hb
  rcases List.mem_append.mp hb with h1 | h1
  · obtain ⟨he, _, h93, _, h44⟩ := plainHostByte_facts (hfa b h1)
    exact ⟨he, h93, h44⟩
  · rcases List.mem_cons.mp h1 with h2 | h2
    · subst h2; exact ⟨by decide, by decide, by decide⟩
    · have hd : isDigit b = true := by
        rw [itoa_nonneg_eq hp0] at h2
        exact natDigits_bytes _ b h2
      simp only [isDigit, Bool.and_eq_true, decide_eq_true_eq] at hd
      refine ⟨itoa_host_plain hp2.Port b h2, by omega, by omega⟩


theorem leadingIntAux_digits {D R : GoStr}
    (hD : ∀ b ∈ D, isDigit b = true)
    (hR : ∀ t, R.head? = some t → isDigit t = false) :
    ∀ acc, ∃ v, leadingIntAux (D ++ R) acc = (v, R) := by
  induction D with
  | nil =>
    intro acc
    refine ⟨acc, ?_⟩
    cases R with
    | nil => rfl
    | cons r rs =>
      simp only [List.nil_append]
      unfold leadingIntAux
      rw [if_neg (by rw [hR r rfl]; simp)]
  | cons d ds ih =>
    intro acc
    have hd : isDigit d = true := hD d (by simp)
    obtain ⟨v, hv⟩ := ih (fun b hb => hD b (List.mem_cons_of_mem _ hb))
      (acc * 10 + (d - 48))
    refine ⟨v, ?_⟩
    simp only [List.cons_append]
    unfold leadingIntAux
    rw [if_pos hd]
    exact hv

theorem leadingFracAux_digits {D R : GoStr}
    (hD : ∀ b ∈ D, isDigit b = true)
    (hR : ∀ t, R.head? = some t → isDigit t = false) :
    ∀ x sc, ∃ v s2, leadingFracAux (D ++ R) x sc = (v, s2, R) := by
  induction D with
  | nil =>
    intro x sc
    refine ⟨x, sc, ?_⟩
    cases R with
    | nil => rfl
    | cons r rs =>
      simp only [List.nil_append]
      unfold leadingFracAux
      rw [if_neg (by rw [hR r rfl]; simp)]
  | cons d ds ih =>
    intro x sc
    have hd : isDigit d = true := hD d (by simp)
    obtain ⟨v, s2, hv⟩ := ih (fun b hb => hD b (List.mem_cons_of_mem _ hb))
      (x * 10 + (d - 48)) (sc * 10)
    refine ⟨v, s2, ?_⟩
    simp only [List.cons_append]
    unfold leadingFracAux
    rw [if_pos hd]
    exact hv

theorem unitLen_concat {U R : GoStr}
    (hU : ∀ b ∈ U, (decide (b = 46) || isDigit b) = false)
    (hR : ∀ t, R.head? = some t → (decide (t = 46) || isDigit t) = true) :
    unitLen (U ++ R) = U.length := by
  induction U with
  | nil =>
    cases R with
    | nil => rfl
    | cons r rs =>
      show unitLen (r :: rs) = 0
      unfold unitLen
      rw [if_pos (hR r rfl)]
  | cons u us ih =>
    simp only [List.cons_append]
    unfold unitLen
    rw [if_neg (by rw [hU u (by simp)]; simp)]
    rw [ih (fun b hb => hU b (List.mem_cons_of_mem _ hb))]
    simp

theorem fmtFracAux_flag_true : ∀ (i v : Nat),
    (fmtFracAux i v true).2.1 = true := by
  intro i
  induction i with
  | zero => intro v; rfl
  | succ j ih =>
    intro v
    unfold fmtFracAux
    simp only [Bool.true_or]
    exact ih (v / 10)

theorem fmtFracAux_printed : ∀ (i v : Nat),
    (fmtFracAux i v false).2.1 = true → (fmtFracAux i v false).1 ≠ [] := by
  intro i
  induction i with
  | zero => intro v h; cases h
  | succ j ih =>
    intro v h
    unfold fmtFracAux at h ⊢
    simp only [Bool.false_or] at h ⊢
    by_cases hd : (v % 10 = 0)
    · rw [show (decide ¬(v % 10 = 0)) = false by simp [hd]] at h ⊢
      exact ih (v / 10) h
    · rw [show (decide ¬(v % 10 = 0)) = true by simp [hd]]
      simp

theorem fmtFracAux_not_printed : ∀ (i v : Nat) (pr : Bool),
    (fmtFracAux i v pr).2.1 = false → (fmtFracAux i v pr).1 = [] := by
  intro i
  induction i with
  | zero => intro v pr _; rfl
  | succ j ih =>
    intro v pr h
    unfold fmtFracAux at h ⊢
    simp only [] at h ⊢
    by_cases hp2 : (pr || decide ¬(v % 10 = 0)) = true
    · rw [hp2] at h
      have hft := fmtFracAux_flag_true j (v / 10)
      rw [hft] at h
      cases h
    · have hp2f : (pr || decide ¬(v % 10 = 0)) = false := by
        cases e : (pr || decide ¬(v % 10 = 0)) with
        | false => rfl
        | true => exact absurd e hp2
      rw [hp2f] at h ⊢
      simp only [Bool.false_eq_true, if_false]
      exact ih (v / 10) false h

theorem fmtFrac_shape (v p : Nat) :
    (fmtFrac v p).1 = [] ∨ ∃ fd, (fmtFrac v p).1 = 46 :: fd ∧ fd ≠ [] ∧
      ∀ b ∈ fd, isDigit b = true := by
  unfold fmtFrac
  by_cases hpr : (fmtFracAux p v false).2.1 = true
  · refine Or.inr ⟨(fmtFracAux p v false).1, ?_, ?_, ?_⟩
    · simp only [hpr, if_true]
    · exact fmtFracAux_printed p v hpr
    · exact fmtFracAux_bytes p v false
  · refine Or.inl ?_
    have hf : (fmtFracAux p v false).2.1 = false := by
      cases e : (fmtFracAux p v false).2.1 with
      | false => rfl
      | true => exact absurd e hpr
    simp only [hf, Bool.false_eq_true, if_false]
    exact fmtFracAux_not_printed p v false hf

theorem head_digit_of_append {D : GoStr} (X : GoStr)
    (hD : ∀ b ∈ D, isDigit b = true) (hne : D ≠ []) :
    ∀ t, (D ++ X).head? = some t → isDigit t = true := by
  intro t ht
  cases D with
  | nil => exact absurd rfl hne
  | cons d ds =>
    simp only [List.cons_append, List.head?_cons] at ht
    injection ht with ht2
    subst ht2
    exact hD d (by simp)

theorem parseDurLoop_seg {S D F U T : GoStr} {fuel acc : Nat}
    (hS : S = D ++ (F ++ (U ++ T)))
    (hD : ∀ b ∈ D, isDigit b = true) (hDne : D ≠ [])
    (hF : F = [] ∨ ∃ fd, F = 46 :: fd ∧ fd ≠ [] ∧ ∀ b ∈ fd, isDigit b = true)
    (hU : ∀ b ∈ U, (decide (b = 46) || isDigit b) = false) (hUne : U ≠ [])
    (hUv : ∃ uv, unitVal U = some uv)
    (hT : ∀ t, T.head? = some t → isDigit t = true)
    (hf : S.length ≤ fuel) :
    ∃ acc2, parseDurLoop fuel S acc = parseDurLoop (fuel - 1) T acc2 := by
  obtain ⟨d0, D', rfl⟩ : ∃ d0 D', D = d0 :: D' := by
    cases D with
    | nil => exact absurd rfl hDne
    | cons d0 D' => exact ⟨d0, D', rfl⟩
  obtain ⟨u0, U', rfl⟩ : ∃ u0 U', U = u0 :: U' := by
    cases U with
    | nil => exact absurd rfl hUne
    | cons u0 U' => exact ⟨u0, U', rfl⟩
  have hu0 : (decide (u0 = 46) || isDigit u0) = false := hU u0 (by simp)
  obtain ⟨f', rfl⟩ : ∃ f', fuel = f' + 1 := by
    refine ⟨fuel - 1, ?_⟩
    have : 1 ≤ S.length := by
      rw [hS]; simp
    omega
  subst hS
  -- the stop condition for the integer-digit scan
  have hstop : ∀ t, (F ++ ((u0 :: U') ++ T)).head? = some t →
      isDigit t = false := by
    rcases hF with rfl | ⟨fd, rfl, _, _⟩
    · intro t ht
      simp only [List.nil_append, List.cons_append, List.head?_cons] at ht
      injection ht with ht2
      subst ht2
      simpa using And.right (Bool.or_eq_false_iff.mp hu0)
    · intro t ht
      simp only [List.cons_append, List.head?_cons] at ht
      injection ht with ht2
      subst ht2
      decide
  obtain ⟨vi1, hvi⟩ := leadingIntAux_digits hD hstop 0
  have hd0 : isDigit d0 = true := hD d0 (by simp)
  show ∃ acc2, parseDurLoop (f' + 1)
    (d0 :: (D' ++ (F ++ ((u0 :: U') ++ T)))) acc =
    parseDurLoop (f' + 1 - 1) T acc2
  rw [parseDurLoop.eq_def]
  simp only []
  simp only [List.head?_cons]
  have hcnd : ¬ ¬ (d0 = 46 ∨ isDigit d0 = true) := by simp [hd0]
  rw [if_neg hcnd]
  rw [show d0 :: (D' ++ (F ++ ((u0 :: U') ++ T))) =
    (d0 :: D') ++ (F ++ ((u0 :: U') ++ T)) by simp, hvi]
  simp only []
  have hu0stop : ∀ t, ((u0 :: U') ++ T).head? = some t →
      (decide (t = 46) || isDigit t) = false := by
    intro t ht
    simp only [List.cons_append, List.head?_cons] at ht
    injection ht with ht2
    subst ht2
    exact hu0
  have hTstop : ∀ t, T.head? = some t →
      (decide (t = 46) || isDigit t) = true := by
    intro t ht
    rw [hT t ht]
    simp
  have hulen : unitLen (u0 :: (U' ++ T)) = U'.length + 1 := by
    rw [show u0 :: (U' ++ T) = (u0 :: U') ++ T by simp]
    rw [unitLen_concat hU hTstop]
    simp
  have htake : (u0 :: (U' ++ T)).take (U'.length + 1) = u0 :: U' := by
    rw [show u0 :: (U' ++ T) = (u0 :: U') ++ T by simp,
      show U'.length + 1 = (u0 :: U').length by simp]
    exact List.take_left _ _
  have hdrop : (u0 :: (U' ++ T)).drop (U'.length + 1) = T := by
    rw [show u0 :: (U' ++ T) = (u0 :: U') ++ T by simp,
      show U'.length + 1 = (u0 :: U').length by simp]
    exact List.drop_left _ _
  obtain ⟨uv, huv⟩ := hUv
  rcases hF with rfl | ⟨fd, rfl, hfdne, hfd⟩
  · -- no fraction
    simp only [List.nil_append, List.cons_append]
    have hlen2 : decide ((u0 :: (U' ++ T)).length ≠
        (d0 :: (D' ++ (u0 :: (U' ++ T)))).length) = true := by
      simp only [List.length_cons, List.length_append]
      simp only [decide_eq_true_eq]
      omega
    rw [hlen2]
    simp only [Bool.true_or]
    rw [if_neg (by simp)]
    split
    · rename_i heq
      split at heq
      · rename_i rest heq2
        injection heq2 with h1 h2
        rw [h1] at hu0
        simp at hu0
      · rw [hulen] at heq
        exact absurd heq (by omega)
    · rename_i heq
      split
      · rename_i heqn
        split at heqn
        · rename_i rest heq2
          injection heq2 with h1 h2
          rw [h1] at hu0
          simp at hu0
        · rw [hulen, htake, huv] at heqn
          cases heqn
      · rename_i unit hequ
        split
        · rename_i rest heq3
          injection heq3 with h1 h2
          rw [h1] at hu0
          simp at hu0
        · rw [hulen, hdrop]
          exact ⟨_, rfl⟩
  · -- fraction 46 :: fd
    simp only [List.cons_append]
    have hu0stop2 : ∀ t, ((u0 :: U') ++ T).head? = some t →
        isDigit t = false := fun t ht =>
      (Bool.or_eq_false_iff.mp (hu0stop t ht)).2
    obtain ⟨fv, fs, hfr⟩ := leadingFracAux_digits hfd hu0stop2 0 1
    rw [show fd ++ ((u0 :: U') ++ T) = fd ++ (u0 :: (U' ++ T)) by simp] at hfr
    have hlen2 : decide ((46 :: (fd ++ (u0 :: (U' ++ T)))).length ≠
        (d0 :: (D' ++ (46 :: (fd ++ (u0 :: (U' ++ T)))))).length) = true := by
      simp only [List.length_cons, List.length_append]
      simp only [decide_eq_true_eq]
      omega
    rw [hlen2]
    simp only [Bool.true_or]
    rw [if_neg (by simp)]
    split
    · rename_i heq
      replace heq : unitLen
          (leadingFracAux (fd ++ (u0 :: (U' ++ T))) 0 1).2.2 = 0 := heq
      rw [hfr] at heq
      replace heq : unitLen (u0 :: (U' ++ T)) = 0 := heq
      rw [hulen] at heq
      exact absurd heq (by omega)
    · rename_i heq
      split
      · rename_i heqn
        replace heqn : unitVal
            ((leadingFracAux (fd ++ (u0 :: (U' ++ T))) 0 1).2.2.take
              (unitLen (leadingFracAux (fd ++ (u0 :: (U' ++ T))) 0 1).2.2)) =
            none := heqn
        rw [hfr] at heqn
        replace heqn : unitVal ((u0 :: (U' ++ T)).take
            (unitLen (u0 :: (U' ++ T)))) = none := heqn
        rw [hulen, htake, huv] at heqn
        cases heqn
      · rename_i unit hequ
        show ∃ acc2, parseDurLoop f'
            ((leadingFracAux (fd ++ (u0 :: (U' ++ T))) 0 1).2.2.drop
              (unitLen (leadingFracAux (fd ++ (u0 :: (U' ++ T))) 0 1).2.2))
            (acc + vi1 * unit +
              (leadingFracAux (fd ++ (u0 :: (U' ++ T))) 0 1).1 * unit /
                (leadingFracAux (fd ++ (u0 :: (U' ++ T))) 0 1).2.1) =
          parseDurLoop (f' + 1 - 1) T acc2
        rw [hfr]
        show ∃ acc2, parseDurLoop f'
            ((u0 :: (U' ++ T)).drop (unitLen (u0 :: (U' ++ T))))
            (acc + vi1 * unit + fv * unit / fs) =
          parseDurLoop (f' + 1 - 1) T acc2
        rw [hulen, hdrop]
        exact ⟨_, rfl⟩

theorem loopOK_nil : ∀ (fuel acc : Nat), ∃ v, parseDurLoop fuel [] acc = some v := by
  intro fuel acc
  refine ⟨acc, ?_⟩
  cases fuel <;> rfl

theorem loopOK_seg {B D F U T : GoStr}
    (hB : B = D ++ (F ++ (U ++ T)))
    (hD : ∀ b ∈ D, isDigit b = true) (hDne : D ≠ [])
    (hF : F = [] ∨ ∃ fd, F = 46 :: fd ∧ fd ≠ [] ∧ ∀ b ∈ fd, isDigit b = true)
    (hU : ∀ b ∈ U, (decide (b = 46) || isDigit b) = false) (hUne : U ≠ [])
    (hUv : ∃ uv, unitVal U = some uv)
    (hT : ∀ t, T.head? = some t → isDigit t = true)
    (hTOK : ∀ fuel acc, T.length ≤ fuel → ∃ v, parseDurLoop fuel T acc = some v) :
    ∀ fuel acc, B.length ≤ fuel → ∃ v, parseDurLoop fuel B acc = some v := by
  intro fuel acc hf
  obtain ⟨acc2, hstep⟩ := parseDurLoop_seg hB hD hDne hF hU hUne hUv hT hf
  obtain ⟨v, hv⟩ := hTOK (fuel - 1) acc2 (by
    subst hB
    simp only [List.length_append] at hf
    have hD1 : 1 ≤ D.length := by
      cases D with
      | nil => exact absurd rfl hDne
      | cons a l => simp
    omega)
  exact ⟨v, by rw [hstep, hv]⟩

theorem unit_s_facts : (∀ b ∈ ([115] : GoStr), (decide (b = 46) || isDigit b) = false) ∧
    ([115] : GoStr) ≠ [] ∧ ∃ uv, unitVal [115] = some uv :=
  ⟨by decide, by decide, ⟨1000000000, by decide⟩⟩

theorem loopOK_secPart (sec : Nat) (F : GoStr)
    (hF : F = [] ∨ ∃ fd, F = 46 :: fd ∧ fd ≠ [] ∧ ∀ b ∈ fd, isDigit b = true) :
    ∀ fuel acc, (natDigits sec ++ F ++ [115]).length ≤ fuel →
      ∃ v, parseDurLoop fuel (natDigits sec ++ F ++ [115]) acc = some v := by
  refine loopOK_seg (show natDigits sec ++ F ++ [115] =
      natDigits sec ++ (F ++ ([115] ++ [])) by simp)
    (natDigits_bytes sec) (natDigits_ne_nil sec) hF
    unit_s_facts.1 unit_s_facts.2.1 unit_s_facts.2.2 ?_ ?_
  · intro t ht
    cases ht
  · intro fuel acc _
    exact loopOK_nil fuel acc

theorem parseDuration_durString (d : Int) (hd : d ≠ 0) :
    ∃ v, parseDuration (durString d) = some v := by
  have hu : d.natAbs ≠ 0 := Int.natAbs_ne_zero.mpr hd
  have key : ∃ B : GoStr, durString d = (if d < 0 then 45 :: B else B) ∧
      (∀ fuel acc, B.length ≤ fuel → ∃ v, parseDurLoop fuel B acc = some v) ∧
      (∀ t, B.head? = some t → isDigit t = true) ∧ 2 ≤ B.length := by
    unfold durString
    rw [if_neg hu]
    simp only []
    by_cases h9 : d.natAbs < 1000000000
    · rw [if_pos h9]
      by_cases h3 : d.natAbs < 1000
      · rw [if_pos h3]
        simp only []
        refine ⟨_, rfl, ?_, ?_, ?_⟩
        · refine loopOK_seg (show natDigits (fmtFrac d.natAbs 0).2 ++
              (fmtFrac d.natAbs 0).1 ++ gs "ns" =
              natDigits (fmtFrac d.natAbs 0).2 ++
                ((fmtFrac d.natAbs 0).1 ++ (gs "ns" ++ [])) by simp)
            (natDigits_bytes _) (natDigits_ne_nil _)
            (fmtFrac_shape _ _) (by decide) (by decide) ⟨1, by decide⟩ ?_ ?_
          · intro t ht; cases ht
          · intro fuel acc _; exact loopOK_nil fuel acc
        · rw [show natDigits (fmtFrac d.natAbs 0).2 ++ (fmtFrac d.natAbs 0).1 ++ gs "ns" =
            natDigits (fmtFrac d.natAbs 0).2 ++ ((fmtFrac d.natAbs 0).1 ++ gs "ns") by simp]
          exact head_digit_of_append _ (natDigits_bytes _) (natDigits_ne_nil _)
        · have h1 : 1 ≤ (natDigits (fmtFrac d.natAbs 0).2).length := by
            cases e : natDigits (fmtFrac d.natAbs 0).2 with
            | nil => exact absurd e (natDigits_ne_nil _)
            | cons a l => simp
          simp only [List.length_append]
          have : (gs "ns" : GoStr).length = 2 := by decide
          omega
      · rw [if_neg h3]
        by_cases h6 : d.natAbs < 1000000
        · rw [if_pos h6]
          simp only []
          refine ⟨_, rfl, ?_, ?_, ?_⟩
          · refine loopOK_seg (show natDigits (fmtFrac d.natAbs 3).2 ++
                (fmtFrac d.natAbs 3).1 ++ [0xC2, 0xB5, 115] =
                natDigits (fmtFrac d.natAbs 3).2 ++
                  ((fmtFrac d.natAbs 3).1 ++ ([0xC2, 0xB5, 115] ++ [])) by simp)
              (natDigits_bytes _) (natDigits_ne_nil _)
              (fmtFrac_shape _ _) (by decide) (by decide) ⟨1000, by decide⟩ ?_ ?_
            · intro t ht; cases ht
            · intro fuel acc _; exact loopOK_nil fuel acc
          · rw [show natDigits (fmtFrac d.natAbs 3).2 ++ (fmtFrac d.natAbs 3).1 ++ [0xC2, 0xB5, 115] =
              natDigits (fmtFrac d.natAbs 3).2 ++ ((fmtFrac d.natAbs 3).1 ++ [0xC2, 0xB5, 115]) by simp]
            exact head_digit_of_append _ (natDigits_bytes _) (natDigits_ne_nil _)
          · have h1 : 1 ≤ (natDigits (fmtFrac d.natAbs 3).2).length := by
              cases e : natDigits (fmtFrac d.natAbs 3).2 with
              | nil => exact absurd e (natDigits_ne_nil _)
              | cons a l => simp
            simp only [List.length_append, List.length_cons]
            omega
        · rw [if_neg h6]
          simp only []
          refine ⟨_, rfl, ?_, ?_, ?_⟩
          · refine loopOK_seg (show natDigits (fmtFrac d.natAbs 6).2 ++
                (fmtFrac d.natAbs 6).1 ++ gs "ms" =
                natDigits (fmtFrac d.natAbs 6).2 ++
                  ((fmtFrac d.natAbs 6).1 ++ (gs "ms" ++ [])) by simp)
              (natDigits_bytes _) (natDigits_ne_nil _)
              (fmtFrac_shape _ _) (by decide) (by decide) ⟨1000000, by decide⟩ ?_ ?_
            · intro t ht; cases ht
            · intro fuel acc _; exact loopOK_nil fuel acc
          · rw [show natDigits (fmtFrac d.natAbs 6).2 ++ (fmtFrac d.natAbs 6).1 ++ gs "ms" =
              natDigits (fmtFrac d.natAbs 6).2 ++ ((fmtFrac d.natAbs 6).1 ++ gs "ms") by simp]
            exact head_digit_of_append _ (natDigits_bytes _) (natDigits_ne_nil _)
          · have h1 : 1 ≤ (natDigits (fmtFrac d.natAbs 6).2).length := by
              cases e : natDigits (fmtFrac d.natAbs 6).2 with
              | nil => exact absurd e (natDigits_ne_nil _)
              | cons a l => simp
            simp only [List.length_append]
            have : (gs "ms" : GoStr).length = 2 := by decide
            omega
    · rw [if_neg h9]
      by_cases hm : (fmtFrac d.natAbs 9).2 / 60 = 0
      · rw [if_pos hm]
        refine ⟨_, rfl, loopOK_secPart _ _ (fmtFrac_shape _ _), ?_, ?_⟩
        · rw [show natDigits ((fmtFrac d.natAbs 9).2 % 60) ++ (fmtFrac d.natAbs 9).1 ++ [115] =
            natDigits ((fmtFrac d.natAbs 9).2 % 60) ++ ((fmtFrac d.natAbs 9).1 ++ [115]) by simp]
          exact head_digit_of_append _ (natDigits_bytes _) (natDigits_ne_nil _)
        · have h1 : 1 ≤ (natDigits ((fmtFrac d.natAbs 9).2 % 60)).length := by
            cases e : natDigits ((fmtFrac d.natAbs 9).2 % 60) with
            | nil => exact absurd e (natDigits_ne_nil _)
            | cons a l => simp
          simp only [List.length_append, List.length_cons]
          omega
      · rw [if_neg hm]
        have hsecOK := loopOK_secPart ((fmtFrac d.natAbs 9).2 % 60)
          (fmtFrac d.natAbs 9).1 (fmtFrac_shape _ _)
        have hsechead : ∀ t, (natDigits ((fmtFrac d.natAbs 9).2 % 60) ++
            (fmtFrac d.natAbs 9).1 ++ [115]).head? = some t → isDigit t = true := by
          rw [show natDigits ((fmtFrac d.natAbs 9).2 % 60) ++ (fmtFrac d.natAbs 9).1 ++ [115] =
            natDigits ((fmtFrac d.natAbs 9).2 % 60) ++ ((fmtFrac d.natAbs 9).1 ++ [115]) by simp]
          exact head_digit_of_append _ (natDigits_bytes _) (natDigits_ne_nil _)
        have hminOK : ∀ fuel acc,
            (natDigits ((fmtFrac d.natAbs 9).2 / 60 % 60) ++ [109] ++
              (natDigits ((fmtFrac d.natAbs 9).2 % 60) ++ (fmtFrac d.natAbs 9).1 ++ [115])).length ≤ fuel →
            ∃ v, parseDurLoop fuel
              (natDigits ((fmtFrac d.natAbs 9).2 / 60 % 60) ++ [109] ++
                (natDigits ((fmtFrac d.natAbs 9).2 % 60) ++ (fmtFrac d.natAbs 9).1 ++ [115])) acc =
              some v :=
          loopOK_seg (show natDigits ((fmtFrac d.natAbs 9).2 / 60 % 60) ++ [109] ++
              (natDigits ((fmtFrac d.natAbs 9).2 % 60) ++ (fmtFrac d.natAbs 9).1 ++ [115]) =
              natDigits ((fmtFrac d.natAbs 9).2 / 60 % 60) ++ ([] ++ ([109] ++
                (natDigits ((fmtFrac d.natAbs 9).2 % 60) ++ (fmtFrac d.natAbs 9).1 ++ [115]))) by simp)
            (natDigits_bytes _) (natDigits_ne_nil _)
            (Or.inl rfl) (by decide) (by decide) ⟨60000000000, by decide⟩
            hsechead hsecOK
        have hminhead : ∀ t, (natDigits ((fmtFrac d.natAbs 9).2 / 60 % 60) ++ [109] ++
            (natDigits ((fmtFrac d.natAbs 9).2 % 60) ++ (fmtFrac d.natAbs 9).1 ++ [115])).head? =
            some t → isDigit t = true := by
          rw [show natDigits ((fmtFrac d.natAbs 9).2 / 60 % 60) ++ [109] ++
              (natDigits ((fmtFrac d.natAbs 9).2 % 60) ++ (fmtFrac d.natAbs 9).1 ++ [115]) =
            natDigits ((fmtFrac d.natAbs 9).2 / 60 % 60) ++ ([109] ++
              (natDigits ((fmtFrac d.natAbs 9).2 % 60) ++ (fmtFrac d.natAbs 9).1 ++ [115])) by simp]
          exact head_digit_of_append _ (natDigits_bytes _) (natDigits_ne_nil _)
        by_cases hh : (fmtFrac d.natAbs 9).2 / 60 / 60 = 0
        · rw [if_pos hh]
          refine ⟨_, rfl, hminOK, hminhead, ?_⟩
          have h1 : 1 ≤ (natDigits ((fmtFrac d.natAbs 9).2 / 60 % 60)).length := by
            cases e : natDigits ((fmtFrac d.natAbs 9).2 / 60 % 60) with
            | nil => exact absurd e (natDigits_ne_nil _)
            | cons a l => simp
          simp only [List.length_append, List.length_cons]
          omega
        · rw [if_neg hh]
          refine ⟨_, rfl, ?_, ?_, ?_⟩
          · exact loopOK_seg (show natDigits ((fmtFrac d.natAbs 9).2 / 60 / 60) ++ [104] ++
                (natDigits ((fmtFrac d.natAbs 9).2 / 60 % 60) ++ [109] ++
                  (natDigits ((fmtFrac d.natAbs 9).2 % 60) ++ (fmtFrac d.natAbs 9).1 ++ [115])) =
                natDigits ((fmtFrac d.natAbs 9).2 / 60 / 60) ++ ([] ++ ([104] ++
                  (natDigits ((fmtFrac d.natAbs 9).2 / 60 % 60) ++ [109] ++
                    (natDigits ((fmtFrac d.natAbs 9).2 % 60) ++ (fmtFrac d.natAbs 9).1 ++ [115])))) by simp)
              (natDigits_bytes _) (natDigits_ne_nil _)
              (Or.inl rfl) (by decide) (by decide) ⟨3600000000000, by decide⟩
              hminhead hminOK
          · rw [show natDigits ((fmtFrac d.natAbs 9).2 / 60 / 60) ++ [104] ++
                (natDigits ((fmtFrac d.natAbs 9).2 / 60 % 60) ++ [109] ++
                  (natDigits ((fmtFrac d.natAbs 9).2 % 60) ++ (fmtFrac d.natAbs 9).1 ++ [115])) =
              natDigits ((fmtFrac d.natAbs 9).2 / 60 / 60) ++ ([104] ++
                (natDigits ((fmtFrac d.natAbs 9).2 / 60 % 60) ++ [109] ++
                  (natDigits ((fmtFrac d.natAbs 9).2 % 60) ++ (fmtFrac d.natAbs 9).1 ++ [115]))) by simp]
            exact head_digit_of_append _ (natDigits_bytes _) (natDigits_ne_nil _)
          · have h1 : 1 ≤ (natDigits ((fmtFrac d.natAbs 9).2 / 60 / 60)).length := by
              cases e : natDigits ((fmtFrac d.natAbs 9).2 / 60 / 60) with
              | nil => exact absurd e (natDigits_ne_nil _)
              | cons a l => simp
            simp only [List.length_append, List.length_cons]
            omega
  obtain ⟨B, hB, hloop, hhead, hlen⟩ := key
  rw [hB]
  by_cases hneg : d < 0
  · rw [if_pos hneg]
    show ∃ v, parseDuration (45 :: B) = some v
    have hred : parseDuration (45 :: B) =
        (if B = [48] then some 0
         else if B = [] then none
         else (parseDurLoop (B.length + 1) B 0).map
           (fun x => -(x : Int))) := rfl
    rw [hred]
    by_cases h48 : B = [48]
    · rw [if_pos h48]
      exact ⟨0, rfl⟩
    · rw [if_neg h48, if_neg (by
        intro hc
        rw [hc] at hlen
        simp at hlen)]
      obtain ⟨v, hv⟩ := hloop (B.length + 1) 0 (by omega)
      rw [hv]
      exact ⟨_, rfl⟩
  · rw [if_neg hneg]
    obtain ⟨b0, B', rfl⟩ : ∃ b0 B', B = b0 :: B' := by
      cases B with
      | nil => simp at hlen
      | cons b0 B' => exact ⟨b0, B', rfl⟩
    have hb0 : isDigit b0 = true := hhead b0 rfl
    have h45 : b0 ≠ 45 := by
      intro hc
      rw [hc] at hb0
      simp [isDigit] at hb0
    have h43 : b0 ≠ 43 := by
      intro hc
      rw [hc] at hb0
      simp [isDigit] at hb0
    rw [parseDuration.eq_def]
    split
    · rename_i rest heq
      injection heq with h1 h2
      exact absurd h1 h45
    · rename_i rest heq
      injection heq with h1 h2
      exact absurd h1 h43
    · simp only []
      rw [if_neg (by
        intro hc
        rw [hc] at hlen
        simp at hlen)]
      rw [if_neg (by simp)]
      obtain ⟨v, hv⟩ := hloop ((b0 :: B').length + 1) 0 (by omega)
      rw [hv]
      exact ⟨_, rfl⟩

theorem hosts_roundtrip (cfg : ConnectionConfig)
    (hhost : ∀ a ∈ cfg.HostAddresses, a.Host ≠ [] ∧ 0 ≤ a.Port ∧
      ∀ b ∈ a.Host, hostTokenByte b = true)
    (hsame : 1 < cfg.HostAddresses.length →
      (∃ a ∈ cfg.HostAddresses, ∃ a2 ∈ cfg.HostAddresses,
        a.Port ≠ a2.Port) ∨
      ∀ a ∈ cfg.HostAddresses, 58 ∉ a.Host)
    (hne : cfg.HostAddresses ≠ []) :
    parseHost (hostPortOfConfig cfg) = some (hostPortOfConfig cfg) ∧
    ∃ dp, (if (urlSplitHostPort (hostPortOfConfig cfg)).2 ≠ [] then
             convertToTCPPort ((urlSplitHostPort (hostPortOfConfig cfg)).2)
           else .ok DEFAULT_PORT) = .ok dp ∧
      (if containsByte (hostPortOfConfig cfg) 44 = true then
         splitByte ((urlSplitHostPort (hostPortOfConfig cfg)).1) 44
       else [hostPortOfConfig cfg]).mapM (parseHostToken dp) =
        .ok cfg.HostAddresses := by
  cases e : cfg.HostAddresses with
  | nil => exact absurd e hne
  | cons first tail =>
  rw [e] at hhost hsame
  rw [hostPortOfConfig_cons cfg first tail e]
  by_cases hdp : ((first :: tail).any fun hp => decide (hp.Port ≠ first.Port)) = true
  · -- different ports: "[j1,...,jn]" with ji = JoinHostPort(hi, pi)
    rw [if_pos hdp]
    cases tail with
    | nil => simp at hdp
    | cons t0 t1 =>
    have hshape : [91] ++ List.intercalate [44]
        ((first :: t0 :: t1).map (fun hp => netJoinHostPort hp.Host (itoa hp.Port)))
        ++ [93] =
        91 :: (List.intercalate [44]
          ((first :: t0 :: t1).map (fun hp => netJoinHostPort hp.Host (itoa hp.Port)))
          ++ [93]) := by simp
    rw [hshape]
    have hmidL : ∀ b ∈ List.intercalate [44]
        ((first :: t0 :: t1).map (fun hp => netJoinHostPort hp.Host (itoa hp.Port))),
        shouldEsc b EncMode.host = false := by
      intro b hb
      rcases mem_intercalate hb with rfl | ⟨piece, hpm, hbp⟩
      · decide
      · obtain ⟨hp2, hmem, rfl⟩ := List.mem_map.mp hpm
        exact (netJoinHostPort_bytes_tok (hhost hp2 hmem).2.2 b hbp).1
    refine ⟨parseHost_bracket_only hmidL, DEFAULT_PORT, ?_, ?_⟩
    · rw [urlSplitHostPort_bracket_only]
      rw [if_neg (by simp)]
    · rw [urlSplitHostPort_bracket_only]
      have h44 : (44 : Nat) ∈ List.intercalate [44]
          ((first :: t0 :: t1).map (fun hp => netJoinHostPort hp.Host (itoa hp.Port))) := by
        rw [List.map_cons, List.map_cons, intercalate_cons₂]
        simp
      rw [if_pos (by
        rw [containsByte_iff.mpr (List.mem_cons_of_mem 91
          (List.mem_append.mpr (Or.inl h44)))])]
      rw [splitByte_intercalate (by
        intro p hpm hmem44
        obtain ⟨hp2, hm2, rfl⟩ := List.mem_map.mp hpm
        exact (netJoinHostPort_bytes_tok (hhost hp2 hm2).2.2 44 hmem44).2 rfl)
        (by simp)]
      rw [mapM_ok_of_all_map (parseHostToken DEFAULT_PORT)
        (fun hp => netJoinHostPort hp.Host (itoa hp.Port))
        (fun hp => { Host := hp.Host, Port := hp.Port }) _
        (fun a ha => parseHostToken_join DEFAULT_PORT
          (hhost a ha).2.2 (hhost a ha).1 (hhost a ha).2.1)]
      rw [hostAddress_eta_map]
  · rw [if_neg hdp]
    by_cases hlen : (first :: tail).length > 1
    · -- same port, several hosts: "[h1,...,hn]:p" (hosts must be colon-free)
      rw [if_pos hlen]
      cases tail with
      | nil => simp at hlen
      | cons t0 t1 =>
      have hports : ∀ a ∈ first :: t0 :: t1, a.Port = first.Port := by
        intro a ha
        by_contra hcon
        exact hdp (List.any_eq_true.mpr ⟨a, ha, by simp [hcon]⟩)
      have hnocolon : ∀ a ∈ first :: t0 :: t1, 58 ∉ a.Host := by
        rcases hsame (by simp) with ⟨a, ha, a2, ha2, hne2⟩ | hok
        · exact absurd (by rw [hports a ha, hports a2 ha2]) hne2
        · exact hok
      have hplainA : ∀ a ∈ first :: t0 :: t1, ∀ b ∈ a.Host,
          plainHostByte b = true := by
        intro a ha b hb
        refine hostTokenByte_plain ((hhost a ha).2.2 b hb) ?_
        intro h58
        subst h58
        exact hnocolon a ha hb
      have hmidM : ∀ b ∈ List.intercalate [44]
          ((first :: t0 :: t1).map (·.Host)),
          shouldEsc b EncMode.host = false := by
        intro b hb
        rcases mem_intercalate hb with rfl | ⟨piece, hpm, hbp⟩
        · decide
        · obtain ⟨hp2, hmem, rfl⟩ := List.mem_map.mp hpm
          exact (plainHostByte_facts (hplainA hp2 hmem b hbp)).1
      have hp0 : 0 ≤ first.Port :=
        (hhost first (List.mem_cons_self _ _)).2.1
      have hshape : [91] ++ List.intercalate [44]
          ((first :: t0 :: t1).map (·.Host)) ++ [93, 58] ++ itoa first.Port =
          91 :: (List.intercalate [44] ((first :: t0 :: t1).map (·.Host)) ++
            93 :: 58 :: itoa first.Port) := by simp
      rw [hshape]
      refine ⟨parseHost_bracket_port hmidM hp0, first.Port, ?_, ?_⟩
      · rw [urlSplitHostPort_bracket_port _ hp0]
        rw [if_pos (by
          rw [itoa_nonneg_eq hp0]
          exact natDigits_ne_nil _)]
        unfold convertToTCPPort
        rw [atoi_itoa_nonneg _ hp0]
      · rw [urlSplitHostPort_bracket_port _ hp0]
        have h44 : (44 : Nat) ∈ List.intercalate [44]
            ((first :: t0 :: t1).map (·.Host)) := by
          rw [List.map_cons, List.map_cons, intercalate_cons₂]
          simp
        rw [if_pos (by
          rw [containsByte_iff.mpr (List.mem_cons_of_mem 91
            (List.mem_append.mpr (Or.inl h44)))])]
        rw [splitByte_intercalate (by
          intro p hpm hmem44
          obtain ⟨hp2, hm2, rfl⟩ := List.mem_map.mp hpm
          exact (plainHostByte_facts (hplainA hp2 hm2 44 hmem44)).2.2.2.2
            rfl) (by simp)]
        rw [mapM_ok_of_all_map (parseHostToken first.Port)
          (fun hp => hp.Host)
          (fun hp => { Host := hp.Host, Port := first.Port }) _
          (fun a ha => parseHostToken_bare first.Port
            (hplainA a ha) (hhost a ha).1)]
        rw [hostAddress_port_map hports]
    · -- single host
      rw [if_neg hlen]
      cases tail with
      | cons t0 t1 => exact absurd (by simp) hlen
      | nil =>
      have hf := hhost first (List.mem_cons_self _ _)
      by_cases hc : containsByte first.Host 58 = true
      · -- colon-bearing host: "[h]:p"
        rw [show netJoinHostPort first.Host (itoa first.Port) =
          91 :: (first.Host ++ 93 :: 58 :: itoa first.Port) from by
          unfold netJoinHostPort
          rw [if_pos hc]
          simp]
        have hmid1 : ∀ b ∈ first.Host, shouldEsc b EncMode.host = false :=
          fun b hb => (hostTokenByte_facts (hf.2.2 b hb)).1
        refine ⟨parseHost_bracket_port hmid1 hf.2.1, first.Port, ?_, ?_⟩
        · rw [urlSplitHostPort_bracket_port _ hf.2.1]
          rw [if_pos (by
            rw [itoa_nonneg_eq hf.2.1]
            exact natDigits_ne_nil _)]
          unfold convertToTCPPort
          rw [atoi_itoa_nonneg _ hf.2.1]
        · rw [if_neg (show ¬ containsByte
              (91 :: (first.Host ++ 93 :: 58 :: itoa first.Port)) 44 = true from by
            intro hcon
            have hm := containsByte_iff.mp hcon
            rcases List.mem_cons.mp hm with h1 | h1
            · cases h1
            rcases List.mem_append.mp h1 with h2 | h2
            · exact (hostTokenByte_facts (hf.2.2 44 h2)).2.2.2 rfl
            rcases List.mem_cons.mp h2 with h3 | h3
            · cases h3
            rcases List.mem_cons.mp h3 with h4 | h4
            · cases h4
            · rcases itoa_bytes first.Port 44 h4 with hd | hd
              · simp only [isDigit, Bool.and_eq_true, decide_eq_true_eq] at hd
                omega
              · cases hd)]
          rw [show [(91 : Nat) :: (first.Host ++ 93 :: 58 :: itoa first.Port)].mapM
              (parseHostToken first.Port) =
              andThenE (parseHostToken first.Port
                (91 :: (first.Host ++ 93 :: 58 :: itoa first.Port)))
                (fun a => .ok [a]) from rfl]
          rw [parseHostToken_bracket first.Port hf.2.2 hf.1 hf.2.1]
          rfl
      · -- plain host: "h:p"
        have hplain : ∀ b ∈ first.Host, plainHostByte b = true := by
          intro b hb
          refine hostTokenByte_plain (hf.2.2 b hb) ?_
          intro h58
          subst h58
          exact hc (containsByte_iff.mpr hb)
        rw [netJoinHostPort_plain _ hplain]
        refine ⟨parseHost_single hplain hf.1 hf.2.1, first.Port, ?_, ?_⟩
        · rw [urlSplitHostPort_single hplain hf.1 hf.2.1]
          rw [if_pos (by
            rw [itoa_nonneg_eq hf.2.1]
            exact natDigits_ne_nil _)]
          unfold convertToTCPPort
          rw [atoi_itoa_nonneg _ hf.2.1]
        · rw [if_neg (by
            intro hcon
            have hm := containsByte_iff.mp hcon
            exact (plain_piece_bytes hplain hf.2.1 44 hm).2.2 rfl)]
          rw [show [first.Host ++ 58 :: itoa first.Port].mapM
              (parseHostToken first.Port) =
              andThenE (parseHostToken first.Port
                (first.Host ++ 58 :: itoa first.Port))
              (fun a => .ok [a]) from rfl]
          rw [parseHostToken_single first.Port hplain hf.1 hf.2.1]
          rfl

theorem andThenE_ok_red {eps alpha beta : Type} {e : Except eps alpha}
    {a : alpha} (f : alpha → Except eps beta) (h : e = .ok a) :
    andThenE e f = f a := by
  rw [h]
  rfl

theorem removeFirstByte_cons_hit (s : GoStr) (c : Nat) :
    removeFirstByte (c :: s) c = s := by
  unfold removeFirstByte
  simp

theorem andThenE_ok_simp {eps alpha beta : Type} (a : alpha)
    (f : alpha → Except eps beta) : andThenE (.ok a) f = f a := rfl

theorem peekDuration_present {q : List (GoStr × GoStr)} {key val : GoStr}
    (dest : Int) (hq : queryGet q key = val) (hvne : val ≠ [])
    (hp : ∃ v, parseDuration val = some v) :
    ∃ v, peekDurationFromQueryString q key dest = .ok v := by
  obtain ⟨v, hv⟩ := hp
  refine ⟨v, ?_⟩
  unfold peekDurationFromQueryString
  simp only []
  rw [hq, if_pos hvne, hv]

theorem peekInt_present {q : List (GoStr × GoStr)} {key val : GoStr}
    (dest : Int) (hq : queryGet q key = val) (hvne : val ≠ [])
    (hp : ∃ v, atoi val = some v) :
    ∃ v, peekIntFromQueryString q key dest = .ok v := by
  obtain ⟨v, hv⟩ := hp
  refine ⟨v, ?_⟩
  unfold peekIntFromQueryString
  simp only []
  rw [hq, if_pos hvne, hv]

theorem parseConnBody_serialized (reg : Registry) (cfg : ConnectionConfig)
    (ui : Option Userinfo)
    (hurl : urlParse (configString cfg) =
      some { scheme := gs "nebula", user := ui, host := hostPortOfConfig cfg,
             path := (if cfg.Space ≠ [] then 47 :: cfg.Space else []),
             rawQuery := encodeValues (queryOfConfig cfg) })
    (htls256 : ∀ b ∈ cfg.TLS, b < 256)
    (htlsres : cfg.TLS = [] ∨ getTLSConfig reg cfg.TLS = .ok cfg.TLSConfig)
    (hsp : validateSpace cfg.Space = .ok ())
    (hhost : ∀ a ∈ cfg.HostAddresses, a.Host ≠ [] ∧ 0 ≤ a.Port ∧
      ∀ b ∈ a.Host, hostTokenByte b = true)
    (hsame : 1 < cfg.HostAddresses.length →
      (∃ a ∈ cfg.HostAddresses, ∃ a2 ∈ cfg.HostAddresses,
        a.Port ≠ a2.Port) ∨
      ∀ a ∈ cfg.HostAddresses, 58 ∉ a.Host)
    (hne : cfg.HostAddresses ≠ [])
    (hcred : (ui = none ∧ cfg.Username = [] ∧ cfg.Password = []) ∨
             (ui = some (cfg.Username, none) ∧ cfg.Password = []) ∨
             ui = some (cfg.Username, some cfg.Password)) :
    ∃ C', parseConnBody reg (configString cfg) = .ok C' ∧
      C'.HostAddresses = cfg.HostAddresses ∧
      C'.Username = cfg.Username ∧
      C'.Password = cfg.Password ∧
      C'.Space = cfg.Space ∧ C'.TLS = cfg.TLS := by
  obtain ⟨hph, dp, hdp, hmapm⟩ := hosts_roundtrip cfg hhost hsame hne
  have hTO : ∃ v, peekDurationFromQueryString (sortPairs (queryOfConfig cfg))
      (gs "timeout") GetDefaultConf.TimeOut = .ok v := by
    by_cases hct : cfg.poolConfig.TimeOut = GetDefaultConf.TimeOut
    · exact ⟨_, peekDuration_absent _ (queryGet_of_absent
        (fun p hp => qoc_timeout_not_mem cfg hct p (mem_sortPairs _ p hp)))⟩
    · refine peekDuration_present _ (queryGet_of_mem_unique
        (mem_sortPairs_of_mem (qoc_timeout_mem cfg hct))
        (fun p hp hk => qoc_timeout_uniq cfg p (mem_sortPairs _ p hp) hk))
        (durString_ne_nil _) (parseDuration_durString _ ?_)
      intro h0
      exact hct (by rw [h0]; rfl)
  have hID : ∃ v, peekDurationFromQueryString (sortPairs (queryOfConfig cfg))
      (gs "idle_time") GetDefaultConf.IdleTime = .ok v := by
    by_cases hct : cfg.poolConfig.IdleTime = GetDefaultConf.IdleTime
    · exact ⟨_, peekDuration_absent _ (queryGet_of_absent
        (fun p hp => qoc_idle_not_mem cfg hct p (mem_sortPairs _ p hp)))⟩
    · refine peekDuration_present _ (queryGet_of_mem_unique
        (mem_sortPairs_of_mem (qoc_idle_mem cfg hct))
        (fun p hp hk => qoc_idle_uniq cfg p (mem_sortPairs _ p hp) hk))
        (durString_ne_nil _) (parseDuration_durString _ ?_)
      intro h0
      exact hct (by rw [h0]; rfl)
  have hMX : ∃ v, peekIntFromQueryString (sortPairs (queryOfConfig cfg))
      (gs "max_conn_pool_size") GetDefaultConf.MaxConnPoolSize = .ok v := by
    by_cases hct : cfg.poolConfig.MaxConnPoolSize =
        GetDefaultConf.MaxConnPoolSize
    · exact ⟨_, peekInt_absent _ (queryGet_of_absent
        (fun p hp => qoc_maxc_not_mem cfg hct p (mem_sortPairs _ p hp)))⟩
    · exact peekInt_present _ (queryGet_of_mem_unique
        (mem_sortPairs_of_mem (qoc_maxc_mem cfg hct))
        (fun p hp hk => qoc_maxc_uniq cfg p (mem_sortPairs _ p hp) hk))
        (itoa_ne_nil _) (atoi_itoa_some _)
  have hMN : ∃ v, peekIntFromQueryString (sortPairs (queryOfConfig cfg))
      (gs "min_conn_pool_size") GetDefaultConf.MinConnPoolSize = .ok v := by
    by_cases hct : cfg.poolConfig.MinConnPoolSize =
        GetDefaultConf.MinConnPoolSize
    · exact ⟨_, peekInt_absent _ (queryGet_of_absent
        (fun p hp => qoc_minc_not_mem cfg hct p (mem_sortPairs _ p hp)))⟩
    · exact peekInt_present _ (queryGet_of_mem_unique
        (mem_sortPairs_of_mem (qoc_minc_mem cfg hct))
        (fun p hp hk => qoc_minc_uniq cfg p (mem_sortPairs _ p hp) hk))
        (itoa_ne_nil _) (atoi_itoa_some _)
  have hMI : ∃ v, peekIntFromQueryString (sortPairs (queryOfConfig cfg))
      (gs "max_idle_session_pool_size")
      GetDefaultSessionPoolConfig.MaxIdleSessionPoolSize = .ok v := by
    by_cases hct : cfg.sessionPoolConfig.MaxIdleSessionPoolSize =
        GetDefaultSessionPoolConfig.MaxIdleSessionPoolSize
    · exact ⟨_, peekInt_absent _ (queryGet_of_absent
        (fun p hp => qoc_maxi_not_mem cfg hct p (mem_sortPairs _ p hp)))⟩
    · exact peekInt_present _ (queryGet_of_mem_unique
        (mem_sortPairs_of_mem (qoc_maxi_mem cfg hct))
        (fun p hp hk => qoc_maxi_uniq cfg p (mem_sortPairs _ p hp) hk))
        (itoa_ne_nil _) (atoi_itoa_some _)
  obtain ⟨vTO, hvTO⟩ := hTO
  obtain ⟨vID, hvID⟩ := hID
  obtain ⟨vMX, hvMX⟩ := hMX
  obtain ⟨vMN, hvMN⟩ := hMN
  obtain ⟨vMI, hvMI⟩ := hMI
  unfold parseConnBody
  cases e2 : urlParse (configString cfg) with
  | none => rw [hurl] at e2; cases e2
  | some u =>
  rw [hurl] at e2
  injection e2 with e3
  subst e3
  simp only []
  rw [if_neg (by intro hcon; exact hcon rfl)]
  rw [parseQueryPairs_encodeValues _ (queryOfConfig_bytes cfg htls256)]
  rw [andThenE_ok_red _ hvTO]
  rw [andThenE_ok_red _ hvID]
  rw [andThenE_ok_red _ hvMX]
  rw [andThenE_ok_red _ hvMN]
  rw [andThenE_ok_red _ hvMI]
  simp only [urlPort, urlHostname]
  rw [andThenE_ok_red _ hdp]
  rw [queryGet_sorted_tls cfg]
  by_cases hs : cfg.Space = []
  · have hsn : ¬ (cfg.Space ≠ []) := by simp [hs]
    rw [if_neg hsn]
    rw [show removeFirstByte ([] : GoStr) 47 = [] from rfl]
    rw [if_neg (by simp), andThenE_ok_simp]
    rw [andThenE_ok_red _ hmapm]
    by_cases ht : cfg.TLS = []
    · have htn : ¬ (cfg.TLS ≠ []) := by simp [ht]
      rw [if_neg htn, andThenE_ok_simp]
      refine ⟨_, rfl, rfl, ?_, ?_, hs.symm, ht.symm⟩
      · rcases hcred with ⟨rfl, hU, _⟩ | ⟨rfl, _⟩ | rfl
        · exact hU.symm
        · rfl
        · rfl
      · rcases hcred with ⟨rfl, _, hP⟩ | ⟨rfl, hP⟩ | rfl
        · exact hP.symm
        · exact hP.symm
        · rfl
    · rw [if_pos ht]
      rcases htlsres with h | hres
      · exact absurd h ht
      rw [andThenE_ok_red _ hres, andThenE_ok_simp]
      refine ⟨_, rfl, rfl, ?_, ?_, hs.symm, rfl⟩
      · rcases hcred with ⟨rfl, hU, _⟩ | ⟨rfl, _⟩ | rfl
        · exact hU.symm
        · rfl
        · rfl
      · rcases hcred with ⟨rfl, _, hP⟩ | ⟨rfl, hP⟩ | rfl
        · exact hP.symm
        · exact hP.symm
        · rfl
  · rw [if_pos hs, removeFirstByte_cons_hit, if_pos hs]
    rw [andThenE_ok_red _ hsp]
    rw [andThenE_ok_simp]
    rw [andThenE_ok_red _ hmapm]
    by_cases ht : cfg.TLS = []
    · have htn : ¬ (cfg.TLS ≠ []) := by simp [ht]
      rw [if_neg htn, andThenE_ok_simp]
      refine ⟨_, rfl, rfl, ?_, ?_, rfl, ht.symm⟩
      · rcases hcred with ⟨rfl, hU, _⟩ | ⟨rfl, _⟩ | rfl
        · exact hU.symm
        · rfl
        · rfl
      · rcases hcred with ⟨rfl, _, hP⟩ | ⟨rfl, hP⟩ | rfl
        · exact hP.symm
        · exact hP.symm
        · rfl
    · rw [if_pos ht]
      rcases htlsres with h | hres
      · exact absurd h ht
      rw [andThenE_ok_red _ hres, andThenE_ok_simp]
      refine ⟨_, rfl, rfl, ?_, ?_, rfl, rfl⟩
      · rcases hcred with ⟨rfl, hU, _⟩ | ⟨rfl, _⟩ | rfl
        · exact hU.symm
        · rfl
        · rfl
      · rcases hcred with ⟨rfl, _, hP⟩ | ⟨rfl, hP⟩ | rfl
        · exact hP.symm
        · exact hP.symm
        · rfl

/-- Auxiliary assembly step: once the serialized string is known to
re-parse as a URL with the expected components, the full
`ParseConnectionString` round trip preserves the claim-relevant
fields. -/
theorem roundtrip_of_url (reg : Registry) (C : ConnectionConfig)
    (ui : Option Userinfo)
    (hurl : urlParse (configString C) =
      some { scheme := gs "nebula", user := ui, host := hostPortOfConfig C,
             path := (if C.Space ≠ [] then 47 :: C.Space else []),
             rawQuery := encodeValues (queryOfConfig C) })
    (htls256 : ∀ b ∈ C.TLS, b < 256)
    (htlsres : C.TLS = [] ∨ getTLSConfig reg C.TLS = .ok C.TLSConfig)
    (hsp : validateSpace C.Space = .ok ())
    (hhost : ∀ a ∈ C.HostAddresses, a.Host ≠ [] ∧ 0 ≤ a.Port ∧
      ∀ b ∈ a.Host, hostTokenByte b = true)
    (hsame : 1 < C.HostAddresses.length →
      (∃ a ∈ C.HostAddresses, ∃ a2 ∈ C.HostAddresses, a.Port ≠ a2.Port) ∨
      ∀ a ∈ C.HostAddresses, 58 ∉ a.Host)
    (hne : C.HostAddresses ≠ [])
    (hcred : (ui = none ∧ C.Username = [] ∧ C.Password = []) ∨
             (ui = some (C.Username, none) ∧ C.Password = []) ∨
             ui = some (C.Username, some C.Password)) :
    ∃ C', ParseConnectionString reg (configString C) = .ok C' ∧
      C'.HostAddresses = C.HostAddresses ∧
      C'.Username = C.Username ∧ C'.Password = C.Password ∧
      C'.Space = C.Space ∧ C'.TLS = C.TLS := by
  obtain ⟨C', hok, h1, h2, h3, h4, h5⟩ :=
    parseConnBody_serialized reg C ui hurl htls256 htlsres hsp
      hhost hsame hne hcred
  have hsB : ∀ b ∈ C.Space, spaceByteValid b = true := validateSpace_ok_all hsp
  have hcon : containsSub (configString C) protocolSeparator = true := by
    have h0 : configString C =
        urlString { toURI C with user := (toURI C).user } := rfl
    rw [h0, configURL_string C ((toURI C).user) hne hsB]
    simp only [List.append_assoc]
    exact containsSub_nebula_prefixed _
  refine ⟨C', ?_, h1, h2, h3, h4, h5⟩
  show parseConnectionString reg (configString C) true = .ok C'
  unfold parseConnectionString
  split
  · rename_i hcond
    exact absurd hcond (by simp [hcon])
  · exact hok

/-- C1 (amended): for every configuration `C` produced by a successful
`ParseConnectionString` — with any pool, session-pool and TLS settings —
whose username contains no `:` and is nonempty whenever a password is
present, whose username, password and TLS bytes are below 256, and whose
host addresses are nonempty names of unescaped non-structural bytes
(colons allowed, so IPv6-style hosts are covered; when several hosts
share one port the names must be colon-free, as the shared-port
rendering cannot carry IPv6 names) with nonnegative ports, parsing the
serialized string `configString C` succeeds and yields a configuration
with the same host-address list, username, password, space and TLS mode
string.  The unconditional statement of the claim is refuted by the
separate counterexample: an empty username with a nonempty password
serializes to a credential-free string. -/
theorem C1_roundtrip_amended (reg : Registry) (s : GoStr)
    (C : ConnectionConfig)
    (h : ParseConnectionString reg s = .ok C)
    (hup : C.Username ≠ [] ∨ C.Password = [])
    (hu256 : ∀ b ∈ C.Username, b < 256)
    (hu58 : 58 ∉ C.Username)
    (hp256 : ∀ b ∈ C.Password, b < 256)
    (htls256 : ∀ b ∈ C.TLS, b < 256)
    (hhost : ∀ a ∈ C.HostAddresses, a.Host ≠ [] ∧ 0 ≤ a.Port ∧
      ∀ b ∈ a.Host, hostTokenByte b = true)
    (hsame : 1 < C.HostAddresses.length →
      (∃ a ∈ C.HostAddresses, ∃ a2 ∈ C.HostAddresses, a.Port ≠ a2.Port) ∨
      ∀ a ∈ C.HostAddresses, 58 ∉ a.Host) :
    ∃ C', ParseConnectionString reg (configString C) = .ok C' ∧
      C'.HostAddresses = C.HostAddresses ∧
      C'.Username = C.Username ∧ C'.Password = C.Password ∧
      C'.Space = C.Space ∧ C'.TLS = C.TLS := by
  obtain ⟨s', h'⟩ := parseConnectionString_ok_inv h
  obtain ⟨hne, hspc, htlsc, -⟩ := parseConnBody_ok_inv h'
  have hsp : validateSpace C.Space = .ok () := by
    rcases hspc with ⟨-, hv, -⟩ | ⟨hz, -⟩
    · exact hv
    · rw [hz]
      rfl
  have htlsres : C.TLS = [] ∨ getTLSConfig reg C.TLS = .ok C.TLSConfig := by
    rcases htlsc with ⟨hz, -⟩ | hres
    · exact Or.inl hz
    · exact Or.inr hres
  have hsB : ∀ b ∈ C.Space, spaceByteValid b = true := validateSpace_ok_all hsp
  have hplain : ∀ b ∈ hostPortOfConfig C, shouldEsc b EncMode.host = false :=
    hostPortOfConfig_bytes_tok C (fun a ha => (hhost a ha).2.2)
  have hESC : escapeWith EncMode.host (hostPortOfConfig C) =
      hostPortOfConfig C := escapeWith_plain hplain
  have hph := (hosts_roundtrip C hhost hsame hne).1
  have hHne : hostPortOfConfig C ≠ [] := hostPortOfConfig_ne_nil C hne
  have hqbytes := queryOfConfig_bytes C htls256
  have hqb : ∀ b ∈ encodeValues (queryOfConfig C),
      ctlByte b = false ∧ b ≠ 63 ∧ b ≠ 35 := by
    intro b hb
    refine ⟨encodeValues_ctl _ hqbytes b hb, ?_, ?_⟩
    · intro he
      subst he
      exact encodeValues_not_mem (d := 63) hqbytes (by decide) (by decide)
        (by decide) (by decide) (by decide) (by decide) (by decide) hb
    · intro he
      subst he
      exact encodeValues_not_mem (d := 35) hqbytes (by decide) (by decide)
        (by decide) (by decide) (by decide) (by decide) (by decide) hb
  by_cases hU : C.Username = []
  · have hP : C.Password = [] := by
      rcases hup with h1 | h1
      · exact absurd hU h1
      · exact h1
    have hui : ∀ p : Userinfo, (none : Option Userinfo) = some p →
        (∀ c ∈ p.1, c < 256) ∧ 58 ∉ p.1 ∧
          ∀ q, p.2 = some q → ∀ c ∈ q, c < 256 := by
      intro p hp
      cases hp
    have huser : (toURI C).user = none := by
      show (if C.Username ≠ [] then
          (if C.Password ≠ [] then some (C.Username, some C.Password)
           else some (C.Username, none)) else none) = none
      rw [if_neg (by simp [hU])]
    have hurl1 : urlParse (gs "nebula" ++ 58 :: 47 :: 47 ::
        (hostPortOfConfig C ++
         ((if C.Space ≠ [] then 47 :: C.Space else []) ++
          (if encodeValues (queryOfConfig C) ≠ [] then
             63 :: encodeValues (queryOfConfig C) else [])))) =
        some { scheme := gs "nebula", user := none,
               host := hostPortOfConfig C,
               path := (if C.Space ≠ [] then 47 :: C.Space else []),
               rawQuery := encodeValues (queryOfConfig C) } :=
      urlParse_serialized none (hostPortOfConfig C) C.Space
        (encodeValues (queryOfConfig C)) hplain hHne hph hui hsB hqb
    have hcs1 : configString C = gs "nebula" ++ 58 :: 47 :: 47 ::
        (hostPortOfConfig C ++
         ((if C.Space ≠ [] then 47 :: C.Space else []) ++
          (if encodeValues (queryOfConfig C) ≠ [] then
             63 :: encodeValues (queryOfConfig C) else []))) := by
      have h0 : configString C =
          urlString { toURI C with user := (none : Option Userinfo) } := by
        show urlString { toURI C with user := (toURI C).user } = _
        rw [huser]
      rw [h0, configURL_string C none hne hsB, hESC]
      simp only [List.append_assoc]
      rfl
    have hurl : urlParse (configString C) =
        some { scheme := gs "nebula", user := (none : Option Userinfo),
               host := hostPortOfConfig C,
               path := (if C.Space ≠ [] then 47 :: C.Space else []),
               rawQuery := encodeValues (queryOfConfig C) } := by
      rw [hcs1]
      exact hurl1
    exact roundtrip_of_url reg C none hurl htls256 htlsres hsp
      hhost hsame hne (Or.inl ⟨rfl, hU, hP⟩)
  · by_cases hP : C.Password = []
    · have hui : ∀ p : Userinfo,
          (some (C.Username, none) : Option Userinfo) = some p →
          (∀ c ∈ p.1, c < 256) ∧ 58 ∉ p.1 ∧
            ∀ q, p.2 = some q → ∀ c ∈ q, c < 256 := by
        intro p hp
        injection hp with hp2
        subst hp2
        refine ⟨hu256, hu58, ?_⟩
        intro q hq
        exact Option.noConfusion (show (none : Option GoStr) = some q from hq)
      have huser : (toURI C).user = some (C.Username, none) := by
        show (if C.Username ≠ [] then
            (if C.Password ≠ [] then some (C.Username, some C.Password)
             else some (C.Username, none)) else none) =
          some (C.Username, none)
        rw [if_pos hU, if_neg (by simp [hP])]
      have hurl1 : urlParse (gs "nebula" ++ 58 :: 47 :: 47 ::
          ((userinfoString (C.Username, none) ++ [64]) ++
           (hostPortOfConfig C ++
            ((if C.Space ≠ [] then 47 :: C.Space else []) ++
             (if encodeValues (queryOfConfig C) ≠ [] then
                63 :: encodeValues (queryOfConfig C) else []))))) =
          some { scheme := gs "nebula", user := some (C.Username, none),
                 host := hostPortOfConfig C,
                 path := (if C.Space ≠ [] then 47 :: C.Space else []),
                 rawQuery := encodeValues (queryOfConfig C) } :=
        urlParse_serialized (some (C.Username, none)) (hostPortOfConfig C)
          C.Space (encodeValues (queryOfConfig C)) hplain hHne hph hui hsB hqb
      have hcs1 : configString C = gs "nebula" ++ 58 :: 47 :: 47 ::
          ((userinfoString (C.Username, none) ++ [64]) ++
           (hostPortOfConfig C ++
            ((if C.Space ≠ [] then 47 :: C.Space else []) ++
             (if encodeValues (queryOfConfig C) ≠ [] then
                63 :: encodeValues (queryOfConfig C) else [])))) := by
        have h0 : configString C =
            urlString { toURI C with
                        user := some ((C.Username, none) : Userinfo) } := by
          show urlString { toURI C with user := (toURI C).user } = _
          rw [huser]
        rw [h0, configURL_string C (some (C.Username, none)) hne hsB, hESC]
        simp only [List.append_assoc]
        rfl
      have hurl : urlParse (configString C) =
          some { scheme := gs "nebula",
                 user := some ((C.Username, none) : Userinfo),
                 host := hostPortOfConfig C,
                 path := (if C.Space ≠ [] then 47 :: C.Space else []),
                 rawQuery := encodeValues (queryOfConfig C) } := by
        rw [hcs1]
        exact hurl1
      exact roundtrip_of_url reg C (some (C.Username, none)) hurl
        htls256 htlsres hsp hhost hsame hne (Or.inr (Or.inl ⟨rfl, hP⟩))
    · have hui : ∀ p : Userinfo,
          (some (C.Username, some C.Password) : Option Userinfo) = some p →
          (∀ c ∈ p.1, c < 256) ∧ 58 ∉ p.1 ∧
            ∀ q, p.2 = some q → ∀ c ∈ q, c < 256 := by
        intro p hp
        injection hp with hp2
        subst hp2
        refine ⟨hu256, hu58, ?_⟩
        intro q hq
        have hq2 : some C.Password = some q := hq
        injection hq2 with hq3
        subst hq3
        exact hp256
      have huser : (toURI C).user = some (C.Username, some C.Password) := by
        show (if C.Username ≠ [] then
            (if C.Password ≠ [] then some (C.Username, some C.Password)
             else some (C.Username, none)) else none) =
          some (C.Username, some C.Password)
        rw [if_pos hU, if_pos hP]
      have hurl1 : urlParse (gs "nebula" ++ 58 :: 47 :: 47 ::
          ((userinfoString (C.Username, some C.Password) ++ [64]) ++
           (hostPortOfConfig C ++
            ((if C.Space ≠ [] then 47 :: C.Space else []) ++
             (if encodeValues (queryOfConfig C) ≠ [] then
                63 :: encodeValues (queryOfConfig C) else []))))) =
          some { scheme := gs "nebula",
                 user := some (C.Username, some C.Password),
                 host := hostPortOfConfig C,
                 path := (if C.Space ≠ [] then 47 :: C.Space else []),
                 rawQuery := encodeValues (queryOfConfig C) } :=
        urlParse_serialized (some (C.Username, some C.Password))
          (hostPortOfConfig C) C.Space (encodeValues (queryOfConfig C))
          hplain hHne hph hui hsB hqb
      have hcs1 : configString C = gs "nebula" ++ 58 :: 47 :: 47 ::
          ((userinfoString (C.Username, some C.Password) ++ [64]) ++
           (hostPortOfConfig C ++
            ((if C.Space ≠ [] then 47 :: C.Space else []) ++
             (if encodeValues (queryOfConfig C) ≠ [] then
                63 :: encodeValues (queryOfConfig C) else [])))) := by
        have h0 : configString C =
            urlString { toURI C with
                        user := some ((C.Username, some C.Password) :
                          Userinfo) } := by
          show urlString { toURI C with user := (toURI C).user } = _
          rw [huser]
        rw [h0, configURL_string C (some (C.Username, some C.Password)) hne
          hsB, hESC]
        simp only [List.append_assoc]
        rfl
      have hurl : urlParse (configString C) =
          some { scheme := gs "nebula",
                 user := some ((C.Username, some C.Password) : Userinfo),
                 host := hostPortOfConfig C,
                 path := (if C.Space ≠ [] then 47 :: C.Space else []),
                 rawQuery := encodeValues (queryOfConfig C) } := by
        rw [hcs1]
        exact hurl1
      exact roundtrip_of_url reg C (some (C.Username, some C.Password)) hurl
        htls256 htlsres hsp hhost hsame hne (Or.inr (Or.inr rfl))

/-- Witness for C1 at a concrete parsed configuration with credentials,
a space, a non-default timeout and a single IPv6-style host. -/
theorem C1_roundtrip_amended_witness :
    ∃ C', ParseConnectionString []
        (configString
          { HostAddresses := [{ Host := gs "::1", Port := 9669 }],
            poolConfig := { TimeOut := 2000000000, IdleTime := 0,
                            MaxConnPoolSize := 10, MinConnPoolSize := 0 },
            sessionPoolConfig := { MaxIdleSessionPoolSize := 0 },
            Username := gs "alice", Password := gs "secret",
            Space := gs "myspace", TLS := [], TLSConfig := none,
            OnAcquireSession := gs "USE %SPACE%;" }) = .ok C' ∧
      C'.HostAddresses = [{ Host := gs "::1", Port := 9669 }] ∧
      C'.Username = gs "alice" ∧ C'.Password = gs "secret" ∧
      C'.Space = gs "myspace" ∧ C'.TLS = [] := by
  have h := C1_roundtrip_amended []
    (gs "nebula://alice:secret@[::1]:9669/myspace?timeout=2s")
    { HostAddresses := [{ Host := gs "::1", Port := 9669 }],
      poolConfig := { TimeOut := 2000000000, IdleTime := 0,
                      MaxConnPoolSize := 10, MinConnPoolSize := 0 },
      sessionPoolConfig := { MaxIdleSessionPoolSize := 0 },
      Username := gs "alice", Password := gs "secret",
      Space := gs "myspace", TLS := [], TLSConfig := none,
      OnAcquireSession := gs "USE %SPACE%;" }
    (by decide) (by decide) (by decide) (by decide) (by decide) (by decide)
    (by decide) (by decide)
  exact h

end NebulaGo
